import Mathlib

/-!
Verification of the KitchenScheduling scheduling engine
(`app/backend/src/kitchen_scheduler/services/scheduler.py` and
`services/rules.py`), via a shallow embedding.

Modelling conventions:
* Python `date` values are embedded as `Int`: the number of days since
  1970-01-01 (which was a Thursday).  `daysFromCivil` is the standard
  civil-calendar conversion, so concrete dates in witnesses are real dates.
* Python `float` shift hours are embedded as `ℚ`.  All hour values handled
  by the engine have quarter-hour granularity, for which binary floating
  point arithmetic is exact, so the rational embedding is faithful.
* `date.isocalendar()` is used by the source only to build grouping keys
  `(iso_year, iso_week)` and the derived display string.  The pair
  `(iso_year, iso_week)` is in canonical bijection with the Monday of the
  ISO week, so the embedding uses that Monday (an `Int` date) as the key.
* Python `dict`s are embedded as insertion-ordered association lists when
  the source iterates over them, and as total functions with the `.get`
  default when the source only reads/writes them pointwise.
* The `message` and free-form `meta` fields of `SchedulingViolation` are
  display-only strings/maps that no verified claim refers to; they are
  omitted from the embedded record (all other fields are kept).
-/

namespace KitchenScheduler

/-- A calendar date, as days since 1970-01-01. -/
abbrev Date := Int

/-- Weekday index of a date: 0 = Monday .. 6 = Sunday
(1970-01-01, day 0, was a Thursday, index 3). -/
def weekdayIdx (d : Date) : Int := (d + 3).emod 7

/-- The Monday of the ISO week containing `d`; used as the ISO-week
grouping key (in bijection with Python's `(iso_year, iso_week)`). -/
def isoWeekMonday (d : Date) : Date := d - weekdayIdx d

/-- Gregorian leap year test. -/
def isLeapYear (y : Int) : Bool :=
  y % 4 == 0 && (y % 100 != 0 || y % 400 == 0)

/-- Length of month `m` of year `y` (Python `calendar.monthrange(y, m)[1]`). -/
def daysInMonth (y m : Int) : Nat :=
  if m == 2 then (if isLeapYear y then 29 else 28)
  else if m == 4 || m == 6 || m == 9 || m == 11 then 30
  else 31

/-- Days since 1970-01-01 of the civil date `(y, m, d)`
(standard days-from-civil algorithm, floor division). -/
def daysFromCivil (y m d : Int) : Int :=
  let y2 : Int := if m ≤ 2 then y - 1 else y
  let era : Int := (if y2 ≥ 0 then y2 else y2 - 399).fdiv 400
  let yoe : Int := y2 - era * 400
  let mp : Int := (m + 9).emod 12
  let doy : Int := (153 * mp + 2).fdiv 5 + d - 1
  let doe : Int := yoe * 365 + yoe.fdiv 4 - yoe.fdiv 100 + doy
  era * 146097 + doe - 719468

/-- `_iter_month_days`: the days of month `m` of year `y`, in order. -/
def monthDaysList (y m : Int) : List Date :=
  (List.range (daysInMonth y m)).map (fun i => daysFromCivil y m 1 + Int.ofNat i)

/-- `AvailabilityWindow` dataclass. -/
structure AvailabilityWindow where
  day : String
  is_available : Bool
  start_time : Option String := none
  end_time : Option String := none
  deriving DecidableEq, Repr

/-- `AbsenceWindow` dataclass. -/
structure AbsenceWindow where
  start_date : Date
  end_date : Date
  absence_type : String
  comment : Option String := none
  deriving DecidableEq, Repr

/-- `SchedulingResource` dataclass. -/
structure SchedulingResource where
  id : Int
  role : String
  availability : List AvailabilityWindow := []
  preferred_shift_codes : List Int := []
  undesired_shift_codes : List Int := []
  absences : List AbsenceWindow := []
  target_hours : Option ℚ := none
  is_relief : Bool := false
  deriving DecidableEq, Repr

/-- `SchedulingShift` dataclass (`end` is a Lean keyword, renamed `end_time`;
the two time strings are never consulted by the engine). -/
structure SchedulingShift where
  code : Int
  description : String
  start : String
  end_time : String
  hours : ℚ
  deriving DecidableEq, Repr

/-- `WorkingTimeRules` model (`rules.py`). -/
structure WorkingTimeRules where
  max_hours_per_week : Int
  max_working_days_per_week : Int
  max_consecutive_working_days : Int
  required_consecutive_days_off_per_month : Int
  days_off_patterns : List String := []
  deriving DecidableEq, Repr

/-- `RoleComposition` model (`rules.py`). -/
structure RoleComposition where
  min : Option Int := none
  max : Option Int := none
  remaining_positions : Bool := false
  deriving DecidableEq, Repr

/-- `PrimeShiftRules` model (`rules.py`). -/
structure PrimeShiftRules where
  allowed_for : List Int := []
  excluded_for : List Int := []
  deriving DecidableEq, Repr

/-- `ShiftRules` model (`rules.py`); `composition` is an insertion-ordered
dict, embedded as an association list preserving key order. -/
structure ShiftRules where
  minimum_daily_staff : Int
  composition : List (String × RoleComposition)
  specific_allocations : List String := []
  prime_shifts : PrimeShiftRules := {}
  deriving DecidableEq, Repr

/-- `DesiredRestDaysRules` model (`rules.py`). -/
structure DesiredRestDaysRules where
  max_per_month_per_resource : Int
  priority : String := "soft"
  deriving DecidableEq, Repr

/-- `VacationRules` model (`rules.py`). -/
structure VacationRules where
  max_concurrent_vacations : Int
  desired_rest_days : DesiredRestDaysRules
  deriving DecidableEq, Repr

/-- `SchedulingRules` model (`rules.py`). -/
structure SchedulingRules where
  working_time : WorkingTimeRules
  shift_rules : ShiftRules
  vacations_and_absences : VacationRules
  deriving DecidableEq, Repr

/-- `RuleSet` wrapper (`rules.py`). -/
structure RuleSet where
  rules : SchedulingRules
  deriving DecidableEq, Repr

/-- `SchedulingContext` dataclass.  The Python `month : str` field `"YYYY-MM"`
is embedded as its parsed `(year, month)` pair, which is the only form the
engine ever uses (`map(int, context.month.split("-"))`). -/
structure SchedulingContext where
  year : Int
  month : Int
  resources : List SchedulingResource
  shifts : List SchedulingShift
  rules : RuleSet
  deriving DecidableEq, Repr

/-- `PlanningEntryRead` schema (`schemas/resource.py`). -/
structure PlanningEntryRead where
  id : Int
  resource_id : Int
  date : Date
  shift_code : Option Int := none
  absence_type : Option String := none
  comment : Option String := none
  deriving DecidableEq, Repr

/-- `SchedulingViolation` dataclass; the display-only `message` and `meta`
fields are omitted (see file header), `iso_week` is keyed by the Monday of
the ISO week instead of the display string `"YYYY-Www"`. -/
structure SchedulingViolation where
  code : String
  severity : String := "warning"
  scope : String := "schedule"
  day : Option Date := none
  resource_id : Option Int := none
  iso_week : Option Date := none
  deriving DecidableEq, Repr

/-- `SchedulingResult` dataclass exactly as declared in
`services/scheduler.py` (fields `entries` and `violations` only). -/
structure SchedulingResult where
  entries : List PlanningEntryRead
  violations : List SchedulingViolation := []
  deriving DecidableEq, Repr

/-- The field names declared on the `SchedulingResult` dataclass in
`services/scheduler.py`, in declaration order. -/
def schedulingResultFieldNames : List String := ["entries", "violations"]

/-- `_ResourceScheduleState` dataclass.  The per-ISO-week dicts with
`.get(key, 0)` access are embedded as total functions defaulting to 0. -/
structure ResourceScheduleState where
  resource : SchedulingResource
  rule_role : String
  weekly_days : Date → Int
  weekly_hours : Date → ℚ
  consecutive_days : Int := 0
  total_assignments : Int := 0
  forced_rest_days : List Date := []
  target_hours : Option ℚ := none
  monthly_hours : ℚ := 0
  is_relief : Bool := false

/-- `ROLE_RULE_KEY_MAP` constant. -/
def ROLE_RULE_KEY_MAP : List (String × String) :=
  [("pot_washer", "pot_washers"), ("kitchen_assistant", "kitchen_assistants"),
   ("apprentice", "apprentices"), ("cook", "cooks"), ("relief_cook", "cooks")]

/-- `ROLE_ALLOWED_SHIFT_CODES` constant (sets embedded as lists). -/
def ROLE_ALLOWED_SHIFT_CODES : List (String × List Int) :=
  [("cook", [1, 4]), ("relief_cook", [1, 4]), ("kitchen_assistant", [1, 8, 10]),
   ("apprentice", [1]), ("pot_washer", [8, 10])]

/-- `PRIME_SHIFT_BASE` constant: prime code → base code. -/
def PRIME_SHIFT_BASE : List (Int × Int) := [(11, 1), (18, 8), (101, 10)]

/-- `BASE_TO_PRIME_SHIFT` constant: base code → prime code. -/
def BASE_TO_PRIME_SHIFT : List (Int × Int) :=
  PRIME_SHIFT_BASE.map (fun p => (p.2, p.1))

/-- `ROLE_SELECTION_PRIORITY` constant. -/
def ROLE_SELECTION_PRIORITY : List (String × Int) :=
  [("cook", 0), ("relief_cook", 1), ("kitchen_assistant", 2),
   ("apprentice", 3), ("pot_washer", 4)]

/-- `MONTHLY_OVERRUN_TOLERANCE` constant. -/
def MONTHLY_OVERRUN_TOLERANCE : ℚ := 2

/-- `_role_rule_key`. -/
def role_rule_key (role : String) : String :=
  (ROLE_RULE_KEY_MAP.lookup role).getD role

/-- `daily_staff_target`. -/
def daily_staff_target (context : SchedulingContext) : Int :=
  let min_staff := context.rules.rules.shift_rules.minimum_daily_staff
  let available := max (context.resources.length : Int) min_staff
  if available ≤ min_staff then min_staff
  else if available > min_staff then min_staff + 1 else min_staff

/-- `_weekday_cache` tuple. -/
def weekdayNames : List String :=
  ["monday", "tuesday", "wednesday", "thursday", "friday", "saturday", "sunday"]

/-- `_is_available`: first availability window matching the weekday decides;
a resource with no matching window defaults to available. -/
def is_available (resource : SchedulingResource) (day : Date) : Bool :=
  let weekday := weekdayNames.getD (weekdayIdx day).toNat ""
  match resource.availability.find? (fun w => w.day == weekday) with
  | some w => w.is_available
  | none => true

/-- `_get_absence`: the first declared absence window containing `day`. -/
def get_absence (resource : SchedulingResource) (day : Date) : Option AbsenceWindow :=
  resource.absences.find? (fun a => a.start_date ≤ day && day ≤ a.end_date)

/-- `_resource_available_on_day`. -/
def resource_available_on_day (resource : SchedulingResource) (target_day : Date) : Bool :=
  if (get_absence resource target_day).isSome then false
  else is_available resource target_day

/-- `_can_assign_with_shift`.  The Python guards test truthiness of the
integer caps (`if cap and value > cap`), embedded as `cap ≠ 0 ∧ value > cap`. -/
def can_assign_with_shift (state : ResourceScheduleState) (shift : SchedulingShift)
    (iso_key : Date) (working_rules : WorkingTimeRules) : Bool :=
  let next_weekly_days := state.weekly_days iso_key + 1
  let next_weekly_hours := state.weekly_hours iso_key + shift.hours
  if working_rules.max_working_days_per_week ≠ 0 ∧
      next_weekly_days > working_rules.max_working_days_per_week then false
  else if working_rules.max_hours_per_week ≠ 0 ∧
      next_weekly_hours > (working_rules.max_hours_per_week : ℚ) then false
  else if working_rules.max_consecutive_working_days ≠ 0 ∧
      state.consecutive_days + 1 > working_rules.max_consecutive_working_days then false
  else true

/-- Ascending comparison on `_select_shift_for_resource`'s sort keys
`(sequence index, shift code)`.  Python's stable `list.sort` is embedded as
`List.insertionSort` throughout this file (also stable). -/
def seqKeyLE (a b : Nat × Int) : Prop :=
  a.1 < b.1 ∨ (a.1 = b.1 ∧ a.2 ≤ b.2)

instance : DecidableRel seqKeyLE := fun a b => by
  unfold seqKeyLE; infer_instance

/-- `sequence_key` inside `_select_shift_for_resource`. -/
def sequence_key (preferred_sequence : List Int) (shift : SchedulingShift)
    (fallback : Nat) : Nat × Int :=
  if preferred_sequence.contains shift.code then
    (preferred_sequence.findIdx (fun c => c == shift.code), shift.code)
  else (fallback, shift.code)

/-- The `allowed_set` normalisation at the top of `_select_shift_for_resource`
(`set(allowed_codes) if allowed_codes else None`). -/
def allowedSetOf (allowed_codes : Option (List Int)) : Option (List Int) :=
  match allowed_codes with
  | some s => if s.isEmpty then none else some s
  | none => none

/-- The `_within_allowed` closure of `_select_shift_for_resource`. -/
def within_allowed (allowed_set : Option (List Int)) (shift : SchedulingShift) : Bool :=
  match allowed_set with
  | none => true
  | some s => s.contains shift.code

/-- `candidates = [s for s in shifts if _within_allowed(s)] or list(shifts)`. -/
def shiftCandidates1 (shifts : List SchedulingShift)
    (allowed_set : Option (List Int)) : List SchedulingShift :=
  let candidates0 := shifts.filter (within_allowed allowed_set)
  if candidates0.isEmpty then shifts else candidates0

/-- The `sort(key=sequence_key)` steps of `_select_shift_for_resource`
(Python's stable sort embedded as the stable `List.insertionSort`). -/
def sortBySeq (seq : List Int) (fallback : Nat) (l : List SchedulingShift) :
    List SchedulingShift :=
  l.insertionSort
    (fun a b => seqKeyLE (sequence_key seq a fallback) (sequence_key seq b fallback))

/-- The `pool` selection of `_select_shift_for_resource`: preferred shifts
first, then non-undesired ones, then all candidates. -/
def shiftPool (resource : SchedulingResource) (shifts : List SchedulingShift)
    (allowed_codes : Option (List Int)) (preferred_sequence : Option (List Int)) :
    List SchedulingShift :=
  let allowed_set := allowedSetOf allowed_codes
  let candidates1 := shiftCandidates1 shifts allowed_set
  let filtered1 := candidates1.filter
    (fun s => !(resource.undesired_shift_codes.contains s.code))
  let preferred1 := filtered1.filter
    (fun s => resource.preferred_shift_codes.contains s.code)
  let (preferred2, filtered2, candidates2) :=
    match preferred_sequence with
    | some seq =>
        (sortBySeq seq seq.length preferred1, sortBySeq seq seq.length filtered1,
         sortBySeq seq (seq.length + 1) candidates1)
    | none => (preferred1, filtered1, candidates1)
  if !preferred2.isEmpty then preferred2
  else if !filtered2.isEmpty then filtered2 else candidates2

/-- `_select_shift_for_resource`.  Python's stable `list.sort` is embedded as
`List.insertionSort` (stable); `pool[assignment_index % len(pool)]` is embedded
with `Int.emod`, which agrees with Python `%` for a positive modulus. -/
def select_shift_for_resource (resource : SchedulingResource)
    (shifts : List SchedulingShift) (assignment_index : Int)
    (allowed_codes : Option (List Int)) (preferred_sequence : Option (List Int)) :
    Option SchedulingShift :=
  if shifts.isEmpty then none else
  match shiftPool resource shifts allowed_codes preferred_sequence with
  | [] => none
  | p :: ps => some ((p :: ps).getD (assignment_index.emod (p :: ps).length).toNat p)

/-- Association-list write with Python-`dict` semantics: an existing key keeps
its position and gets the new value, a new key is appended. -/
def dictWrite {κ α : Type} [BEq κ] (l : List (κ × α)) (k : κ) (v : α) : List (κ × α) :=
  match l with
  | [] => [(k, v)]
  | (k0, v0) :: rest =>
      if k0 == k then (k0, v) :: rest else (k0, v0) :: dictWrite rest k v

/-- The `{shift.code: shift for shift in context.shifts}` dict (later
duplicates override earlier ones, first position kept). -/
def buildShiftLookup (shifts : List SchedulingShift) : List (Int × SchedulingShift) :=
  shifts.foldl (fun acc s => dictWrite acc s.code s) []

/-- The `{shift.code: float(shift.hours) for shift in context.shifts}` dict. -/
def buildShiftHours (shifts : List SchedulingShift) : List (Int × ℚ) :=
  shifts.foldl (fun acc s => dictWrite acc s.code s.hours) []

/-- `_existing_rest_block`. -/
def existing_rest_block (resource : SchedulingResource) (month_days : List Date)
    (required : Int) : Bool :=
  let streakFold := month_days.foldl
    (fun (acc : Int × Bool) day =>
      if !(resource_available_on_day resource day) then
        let streak := acc.1 + 1
        (streak, acc.2 || streak ≥ required)
      else (0, acc.2))
    (0, false)
  streakFold.2

/-- The `candidate_windows` list built inside `_select_rest_window`:
`(score, idx, window)` triples for every fully-available window of length
`required`.  `total_days / 2` and `idx + required / 2` are Python float
divisions, embedded in `ℚ`. -/
def rest_window_candidates (resource : SchedulingResource) (month_days : List Date)
    (required : Int) : List (ℚ × Int × List Date) :=
  let total_days : Int := month_days.length
  let midpoint : ℚ := (total_days : ℚ) / 2
  let idxRange := (List.range (total_days - required + 1).toNat).map Int.ofNat
  idxRange.filterMap (fun (idx : Int) =>
    let window := (month_days.drop idx.toNat).take required.toNat
    if window.all (fun day => resource_available_on_day resource day) then
      let center : ℚ := (idx : ℚ) + (required : ℚ) / 2
      let edge_penalty : ℚ := if idx == 0 || idx + required == total_days then 2 else 0
      let score := |center - midpoint| + edge_penalty
      some (score, idx, window)
    else none)

/-- `_select_rest_window`: sort the candidate windows by `(score, idx)` and
rotate by `resource.id % len(candidate_windows)`. -/
def select_rest_window (resource : SchedulingResource) (month_days : List Date)
    (required : Int) : List Date :=
  let total_days : Int := month_days.length
  if total_days < required then [] else
  match rest_window_candidates resource month_days required with
  | [] => []
  | w :: ws =>
      let sorted := (w :: ws).insertionSort
        (fun a b => a.1 < b.1 ∨ (a.1 = b.1 ∧ a.2.1 ≤ b.2.1))
      (sorted.getD (resource.id.emod (w :: ws).length).toNat w).2.2

/-- The per-state body of the `_apply_mandatory_rest_days` loop. -/
def rest_state_update (month_days : List Date) (required_rest : Int)
    (q : Int × ResourceScheduleState) : Int × ResourceScheduleState :=
  let state := q.2
  if existing_rest_block state.resource month_days required_rest then q
  else
    let forced_rest := select_rest_window state.resource month_days required_rest
    if forced_rest.isEmpty then q
    else (q.1, { state with forced_rest_days := state.forced_rest_days ++ forced_rest })

/-- `_apply_mandatory_rest_days`, acting on the state association list. -/
def apply_mandatory_rest_days (resource_states : List (Int × ResourceScheduleState))
    (month_days : List Date) (working_rules : WorkingTimeRules) :
    List (Int × ResourceScheduleState) :=
  if working_rules.required_consecutive_days_off_per_month ≤ 1 then resource_states else
  resource_states.map (rest_state_update month_days
    working_rules.required_consecutive_days_off_per_month)

/-- The `role_minimums` dict of `generate_stub_schedule`
(`{role: (data.min or 0)}`, read with `.get(role, 0)`). -/
def roleMinimumsOf (comp : List (String × RoleComposition)) : String → Int :=
  fun role => ((comp.lookup role).map (fun c => c.min.getD 0)).getD 0

/-- The `role_maximums` dict of `generate_stub_schedule`
(`{role: data.max}`, read with `.get(role)`). -/
def roleMaximumsOf (comp : List (String × RoleComposition)) : String → Option Int :=
  fun role => (comp.lookup role).bind (fun c => c.max)

/-- `_assignment_cost`.  Each `let` mirrors one statement of the Python
function, in order. -/
def assignment_cost (state : ResourceScheduleState) (shift : SchedulingShift)
    (iso_key : Date) (working_rules : WorkingTimeRules)
    (role_counts : String → Int) (role_minimums : String → Int)
    (role_maximums : String → Option Int)
    (shift_lookup : List (Int × SchedulingShift))
    (current_assignments : Int) (daily_target : Int) : ℚ :=
  let hours := shift.hours
  let projected_hours := state.monthly_hours + hours
  let target_hours := state.target_hours
  -- role shortfall bonus / cap penalty
  let current_role_total := role_counts state.rule_role
  let role_min := role_minimums state.rule_role
  let role_max := role_maximums state.rule_role
  let s1 : ℚ :=
    if current_role_total < role_min then
      -(40 * ((role_min - current_role_total : Int) : ℚ))
    else
      match role_max with
      | some m =>
          if current_role_total ≥ m then 80 * ((current_role_total - m + 1 : Int) : ℚ) else 0
      | none => 0
  -- fairness and workload balancing
  let s2 : ℚ :=
    match target_hours with
    | some t =>
        let deficit := max 0 (t - projected_hours)
        let overage := max 0 (projected_hours - t)
        (if deficit > 0 then -(min deficit hours * 45) else 0) +
          (if overage > 0 then overage * 25 else 0)
    | none => 0
  -- weekly hours safeguard
  let next_weekly_hours := state.weekly_hours iso_key + hours
  let weekly_buffer := max 0 (next_weekly_hours - 46)
  let s3 : ℚ := weekly_buffer * 20
  -- consecutive day fatigue
  let next_consecutive := state.consecutive_days + 1
  let fatigue_threshold := max 0 (working_rules.max_consecutive_working_days - 1)
  let s4 : ℚ :=
    if next_consecutive > fatigue_threshold then
      ((next_consecutive - fatigue_threshold : Int) : ℚ) * 65
    else 0
  -- weekly days count
  let next_weekly_days := state.weekly_days iso_key + 1
  let s5 : ℚ := if next_weekly_days ≥ working_rules.max_working_days_per_week then 140 else 0
  -- shift preferences
  let s6 : ℚ :=
    (if state.resource.undesired_shift_codes.contains shift.code then 60 else 0) +
      (if state.resource.preferred_shift_codes.contains shift.code then -30 else 0)
  -- pot washer rotation disincentive
  let s7 : ℚ :=
    if state.rule_role == "pot_washers" && role_counts state.rule_role ≥ 1 then 40 else 0
  -- prime-shift discouragement when the base still fits
  let s8 : ℚ :=
    match (PRIME_SHIFT_BASE.lookup shift.code).bind (fun b => shift_lookup.lookup b) with
    | some base_shift =>
        let base_hours := base_shift.hours
        let projected_week_with_base := state.weekly_hours iso_key + base_hours
        let projected_month_with_base := state.monthly_hours + base_hours
        let exceeds_week :=
          projected_week_with_base > (working_rules.max_hours_per_week : ℚ)
        let exceeds_target :=
          match state.target_hours with
          | some t => projected_month_with_base > t + 2
          | none => false
        if !exceeds_week && !exceeds_target then 30 else 0
    | none => 0
  -- hard overrun of monthly target
  let s9 : ℚ :=
    match state.target_hours with
    | some t =>
        if projected_hours > t + MONTHLY_OVERRUN_TOLERANCE then (projected_hours - t) * 120
        else 0
    | none => 0
  let s10 : ℚ := if state.is_relief then 120 else 0
  -- small tie-breakers
  let s11 : ℚ := (state.total_assignments : ℚ) * 2 +
    (((ROLE_SELECTION_PRIORITY.lookup state.resource.role).getD 99 : Int) : ℚ)
  -- daily overshoot penalty
  let projected_day_total := current_assignments + 1
  let s12 : ℚ :=
    if projected_day_total > max daily_target 0 then
      ((projected_day_total - daily_target : Int) : ℚ) * 75
    else 0
  s1 + s2 + s3 + s4 + s5 + s6 + s7 + s8 + s9 + s10 + s11 + s12

/-- Parameters of one `generate_stub_schedule` run that are fixed across the
per-day loop (the closure environment of the inner helpers). -/
structure HeuristicParams where
  context : SchedulingContext
  working_rules : WorkingTimeRules
  minimum_daily_staff : Int
  role_minimums : String → Int
  role_maximums : String → Option Int
  role_order : List String
  shift_lookup : List (Int × SchedulingShift)
  daily_target : Int

/-- The mutable state of one iteration of the per-day loop: the accumulated
entries/states/id counter plus the per-day dicts (`assigned_today`,
`role_counts`, `role_shift_assignments`). -/
structure DayState where
  entries : List PlanningEntryRead
  states : List (Int × ResourceScheduleState)
  entry_id : Int
  assigned_today : List Int
  role_counts : String → Int
  role_shift_assignments : String → List Int

/-- `_eligible_states` closure. -/
def eligible_states (p : HeuristicParams) (current_day iso_key : Date) (ds : DayState)
    (target_role : Option String) (allow_extra_pot_washers allow_over_target : Bool) :
    List (ResourceScheduleState × SchedulingShift) :=
  (ds.states.map Prod.snd).filterMap (fun state =>
    if ds.assigned_today.contains state.resource.id then none
    else if (match target_role with
             | some r => !(r == "") && !(state.rule_role == r)
             | none => false) then none
    else if target_role == none && !allow_extra_pot_washers &&
        state.rule_role == "pot_washers" && ds.role_counts state.rule_role ≥ 1 then none
    else if !(resource_available_on_day state.resource current_day) then none
    else if state.forced_rest_days.contains current_day then none
    else
      let allowed_codes := ROLE_ALLOWED_SHIFT_CODES.lookup state.resource.role
      let preferred_sequence : Option (List Int) :=
        if state.rule_role == "pot_washers" then
          let assigned_codes := ds.role_shift_assignments state.rule_role
          let early_count := assigned_codes.countP (fun c => c == 8)
          let late_count := assigned_codes.countP (fun c => c == 10)
          if early_count ≤ late_count then some [8, 10] else some [10, 8]
        else none
      match select_shift_for_resource state.resource p.context.shifts
          state.total_assignments allowed_codes preferred_sequence with
      | none => none
      | some shift =>
          if !allow_over_target &&
              (match state.target_hours with
               | some t => state.monthly_hours + shift.hours > t + MONTHLY_OVERRUN_TOLERANCE
               | none => false) then none
          else if !(can_assign_with_shift state shift iso_key p.working_rules) then none
          else some (state, shift))

/-- One iteration of the `for option in options` loop of `_select_candidate`. -/
def select_candidate_step (p : HeuristicParams) (iso_key : Date) (ds : DayState)
    (best : Option ((ResourceScheduleState × SchedulingShift) × ℚ))
    (option : ResourceScheduleState × SchedulingShift) :
    Option ((ResourceScheduleState × SchedulingShift) × ℚ) :=
  let score := assignment_cost option.1 option.2 iso_key p.working_rules
    ds.role_counts p.role_minimums p.role_maximums p.shift_lookup
    (ds.assigned_today.length : Int) p.daily_target
  match best with
  | none => some (option, score)
  | some (_, best_score) =>
      if score < best_score then some (option, score) else best

/-- `_select_candidate` closure: first strictly-smaller score wins
(`best_score` starts at `float("inf")`). -/
def select_candidate (p : HeuristicParams) (iso_key : Date) (ds : DayState)
    (options : List (ResourceScheduleState × SchedulingShift)) :
    Option (ResourceScheduleState × SchedulingShift) :=
  (options.foldl (select_candidate_step p iso_key ds) none).map Prod.fst

/-- `_assign` closure. -/
def assignEntry (current_day iso_key : Date) (ds : DayState)
    (state : ResourceScheduleState) (shift : SchedulingShift) : DayState :=
  let entry : PlanningEntryRead :=
    { id := ds.entry_id, resource_id := state.resource.id, date := current_day,
      shift_code := some shift.code, absence_type := none, comment := some "AUTO-STUB" }
  let new_state : ResourceScheduleState :=
    { state with
      total_assignments := state.total_assignments + 1,
      consecutive_days := state.consecutive_days + 1,
      weekly_days := fun k => if k == iso_key then state.weekly_days k + 1 else state.weekly_days k,
      weekly_hours := fun k =>
        if k == iso_key then state.weekly_hours k + shift.hours else state.weekly_hours k,
      monthly_hours := state.monthly_hours + shift.hours }
  { ds with
    entries := ds.entries ++ [entry],
    states := dictWrite ds.states state.resource.id new_state,
    assigned_today := ds.assigned_today ++ [state.resource.id],
    role_counts := fun r =>
      if r == state.rule_role then ds.role_counts r + 1 else ds.role_counts r,
    role_shift_assignments := fun r =>
      if r == state.rule_role then ds.role_shift_assignments r ++ [shift.code]
      else ds.role_shift_assignments r,
    entry_id := ds.entry_id + 1 }

/-- `_role_can_accept` closure. -/
def role_can_accept (p : HeuristicParams) (ds : DayState)
    (state : ResourceScheduleState) : Bool :=
  match p.role_maximums state.rule_role with
  | some role_max => !(ds.role_counts state.rule_role ≥ role_max)
  | none => true

/-- `_has_deficit` closure. -/
def has_deficit (state : ResourceScheduleState) : Bool :=
  match state.target_hours with
  | some t => t - state.monthly_hours > 4
  | none => false

/-- Step 1 `while` loop (role minimums).  Fuelled: each continuing iteration
assigns a resource not yet in `assigned_today`, so `|states| + 1` steps of
fuel (supplied by `process_day`) always reach the loop's own exit. -/
def role_min_loop (p : HeuristicParams) (current_day iso_key : Date) (role : String)
    (required_min : Int) : Nat → DayState → DayState
  | 0, ds => ds
  | fuel + 1, ds =>
    if ds.role_counts role < required_min then
      match select_candidate p iso_key ds
          (eligible_states p current_day iso_key ds (some role) true true) with
      | none => ds
      | some (st, sh) =>
          role_min_loop p current_day iso_key role required_min fuel
            (assignEntry current_day iso_key ds st sh)
    else ds

/-- The four-stage candidate fallback of one `_fill_day` iteration. -/
def fill_day_candidates (p : HeuristicParams) (current_day iso_key : Date)
    (ds : DayState) : List (ResourceScheduleState × SchedulingShift) :=
  let c1 := (eligible_states p current_day iso_key ds none false false).filter
    (fun option => role_can_accept p ds option.1)
  let c2 :=
    if c1.isEmpty then
      (eligible_states p current_day iso_key ds none true false).filter
        (fun option => role_can_accept p ds option.1)
    else c1
  let c3 := if c2.isEmpty then eligible_states p current_day iso_key ds none true false else c2
  if c3.isEmpty then eligible_states p current_day iso_key ds none true true else c3

/-- `_fill_day` `while` loop with its four-stage candidate fallback
(fuelled like `role_min_loop`). -/
def fill_day_loop (p : HeuristicParams) (current_day iso_key : Date) (target : Int) :
    Nat → DayState → DayState
  | 0, ds => ds
  | fuel + 1, ds =>
    if (ds.assigned_today.length : Int) < target then
      let c4 := fill_day_candidates p current_day iso_key ds
      if c4.isEmpty then ds
      else
        match select_candidate p iso_key ds c4 with
        | none => ds
        | some (st, sh) =>
            fill_day_loop p current_day iso_key target fuel
              (assignEntry current_day iso_key ds st sh)
    else ds

/-- Deficit-pass `while` loop (fuelled like `role_min_loop`). -/
def deficit_loop (p : HeuristicParams) (current_day iso_key : Date)
    (max_daily_staff : Int) : Nat → DayState → DayState
  | 0, ds => ds
  | fuel + 1, ds =>
    if (ds.assigned_today.length : Int) < max_daily_staff then
      let candidates := (eligible_states p current_day iso_key ds none true false).filter
        (fun option => has_deficit option.1 && role_can_accept p ds option.1)
      if candidates.isEmpty then ds
      else
        match select_candidate p iso_key ds candidates with
        | none => ds
        | some (st, sh) =>
            deficit_loop p current_day iso_key max_daily_staff fuel
              (assignEntry current_day iso_key ds st sh)
    else ds

/-- The body of the per-day `for` loop of `generate_stub_schedule`. -/
def process_day (p : HeuristicParams)
    (acc : List PlanningEntryRead × List (Int × ResourceScheduleState) × Int)
    (current_day : Date) :
    List PlanningEntryRead × List (Int × ResourceScheduleState) × Int :=
  let iso_key := isoWeekMonday current_day
  let ds0 : DayState :=
    { entries := acc.1, states := acc.2.1, entry_id := acc.2.2,
      assigned_today := [], role_counts := fun _ => 0,
      role_shift_assignments := fun _ => [] }
  let fuel := ds0.states.length + 1
  -- Step 1: satisfy minimums per role.
  let ds1 := p.role_order.foldl
    (fun ds role => role_min_loop p current_day iso_key role (p.role_minimums role) fuel ds)
    ds0
  -- Step 2: fill remaining slots up to minimum daily staff.
  let ds2 := fill_day_loop p current_day iso_key p.minimum_daily_staff fuel ds1
  let linear_target := max p.minimum_daily_staff p.daily_target
  let ds3 :=
    if (ds2.assigned_today.length : Int) < linear_target then
      fill_day_loop p current_day iso_key linear_target fuel ds2
    else ds2
  let max_daily_staff := min (ds3.states.length : Int) (linear_target + 1)
  let ds4 := deficit_loop p current_day iso_key max_daily_staff fuel ds3
  -- Step 3: reset consecutive counters for anyone who did not work today.
  let states5 := ds4.states.map (fun q =>
    if ds4.assigned_today.contains q.2.resource.id then q
    else (q.1, { q.2 with consecutive_days := 0 }))
  (ds4.entries, states5, ds4.entry_id)

/-- Substring search over character lists (used to embed Python's
`"prime adjustment" in base_comment.lower()`). -/
def charsContainSub (sub : List Char) : List Char → Bool
  | [] => sub.isPrefixOf []
  | c :: rest => sub.isPrefixOf (c :: rest) || charsContainSub sub rest

/-- Case-insensitive substring test `"prime adjustment" in base_comment.lower()`
(ASCII lowering, as in `Char.toLower`; the tag itself is ASCII). -/
def commentHasPrimeTag (s : String) : Bool :=
  charsContainSub "prime adjustment".data (s.data.map Char.toLower)

/-- `_mark_conversion` closure of `apply_prime_shift_relaxation`: returns the
updated entry list and the freed hours delta (0.0 when nothing changed).
The out-of-range index case is unreachable (indices come from the scan over
the same list), and returns 0 like the no-op cases. -/
def mark_conversion (shift_hours : List (Int × ℚ)) (entries : List PlanningEntryRead)
    (idx : Nat) (prime_code : Int) : List PlanningEntryRead × ℚ :=
  match entries.get? idx with
  | none => (entries, 0)
  | some entry =>
    if entry.shift_code == some prime_code then (entries, 0)
    else
      let base_hours : ℚ := ((entry.shift_code.bind (fun c => shift_hours.lookup c)).getD 0)
      let prime_hours : ℚ := (shift_hours.lookup prime_code).getD base_hours
      if base_hours ≤ prime_hours then (entries, 0)
      else
        let base_comment := entry.comment.getD "AUTO-STUB"
        let new_comment : Option String :=
          if commentHasPrimeTag base_comment then entry.comment
          else some (base_comment ++ " (prime adjustment)")
        (entries.set idx { entry with shift_code := some prime_code, comment := new_comment },
         base_hours - prime_hours)

/-- The four dicts built by the initial scan of `apply_prime_shift_relaxation`.
The totals dicts are only ever read/written pointwise (with default `0.0`) and
are embedded as functions; the candidates dicts are iterated and are embedded
as insertion-ordered association lists. -/
structure RelaxScan where
  weekly_totals : Int × Date → ℚ
  weekly_candidates : List ((Int × Date) × List (ℚ × Nat × Int))
  monthly_totals : Int → ℚ
  monthly_candidates : List (Int × List (ℚ × Nat × Int))

/-- One step of the scan loop (`for index, entry in enumerate(entries)`). -/
def relax_scan_step (shift_hours : List (Int × ℚ)) (base_to_prime : List (Int × Int))
    (acc : RelaxScan) (p : Nat × PlanningEntryRead) : RelaxScan :=
  let (index, entry) := p
  match entry.shift_code with
  | none => acc
  | some code =>
    let hours := (shift_hours.lookup code).getD 0
    let week_key : Int × Date := (entry.resource_id, isoWeekMonday entry.date)
    let acc1 : RelaxScan :=
      { acc with
        weekly_totals := fun k =>
          if k == week_key then acc.weekly_totals k + hours else acc.weekly_totals k,
        monthly_totals := fun r =>
          if r == entry.resource_id then acc.monthly_totals r + hours
          else acc.monthly_totals r }
    match base_to_prime.lookup code with
    | none => acc1
    | some prime_code =>
      let delta := hours - (shift_hours.lookup prime_code).getD hours
      if delta ≤ 0 then acc1
      else
        { acc1 with
          weekly_candidates := dictWrite acc1.weekly_candidates week_key
            (((acc1.weekly_candidates.lookup week_key).getD []) ++ [(delta, index, prime_code)]),
          monthly_candidates := dictWrite acc1.monthly_candidates entry.resource_id
            (((acc1.monthly_candidates.lookup entry.resource_id).getD []) ++
              [(delta, index, prime_code)]) }

/-- The mutable state threaded through the two conversion passes. -/
structure RelaxState where
  entries : List PlanningEntryRead
  weekly_totals : Int × Date → ℚ
  monthly_totals : Int → ℚ

/-- The inner `for _delta, idx, prime_code in options` loop of the weekly
pass, with its local `total` variable and early `break`. -/
def weekly_relax_inner (shift_hours : List (Int × ℚ)) (weekly_limit : Int)
    (key : Int × Date) :
    List (ℚ × Nat × Int) → RelaxState → ℚ → RelaxState
  | [], st, _ => st
  | (_, idx, prime_code) :: rest, st, total =>
    if total ≤ (weekly_limit : ℚ) then st
    else
      let conv := mark_conversion shift_hours st.entries idx prime_code
      if conv.2 ≤ 0 then
        weekly_relax_inner shift_hours weekly_limit key rest { st with entries := conv.1 } total
      else
        let total2 := total - conv.2
        let resource_id := (((conv.1.get? idx).map (fun e => e.resource_id)).getD 0)
        weekly_relax_inner shift_hours weekly_limit key rest
          { entries := conv.1,
            weekly_totals := fun k => if k == key then total2 else st.weekly_totals k,
            monthly_totals := fun r =>
              if r == resource_id then st.monthly_totals r - conv.2
              else st.monthly_totals r }
          total2

/-- The weekly conversion pass (`for key, options in weekly_candidates.items()`).
Python's stable descending `sort(key=item[0], reverse=True)` is embedded as a
stable merge sort with relation `b.delta ≤ a.delta`. -/
def weekly_relax_pass (shift_hours : List (Int × ℚ)) (weekly_limit : Int)
    (cands : List ((Int × Date) × List (ℚ × Nat × Int))) (st : RelaxState) : RelaxState :=
  cands.foldl (fun st kv =>
    let total := st.weekly_totals kv.1
    if total ≤ (weekly_limit : ℚ) then st
    else
      weekly_relax_inner shift_hours weekly_limit kv.1
        (kv.2.insertionSort (fun a b => b.1 ≤ a.1)) st total) st

/-- The inner loop of the monthly pass. -/
def monthly_relax_inner (shift_hours : List (Int × ℚ)) (target_limit : ℚ)
    (resource_id : Int) :
    List (ℚ × Nat × Int) → RelaxState → ℚ → RelaxState
  | [], st, _ => st
  | (_, idx, prime_code) :: rest, st, total =>
    if total ≤ target_limit then st
    else
      let conv := mark_conversion shift_hours st.entries idx prime_code
      if conv.2 ≤ 0 then
        monthly_relax_inner shift_hours target_limit resource_id rest
          { st with entries := conv.1 } total
      else
        let total2 := total - conv.2
        let week_key : Int × Date :=
          (resource_id, isoWeekMonday (((conv.1.get? idx).map (fun e => e.date)).getD 0))
        monthly_relax_inner shift_hours target_limit resource_id rest
          { entries := conv.1,
            monthly_totals := fun r => if r == resource_id then total2 else st.monthly_totals r,
            weekly_totals := fun k =>
              if k == week_key then max (st.weekly_totals k - conv.2) 0
              else st.weekly_totals k }
          total2

/-- The `{resource.id: resource}` lookup dict. -/
def buildResourceLookup (resources : List SchedulingResource) :
    List (Int × SchedulingResource) :=
  resources.foldl (fun acc r => dictWrite acc r.id r) []

/-- The monthly conversion pass. -/
def monthly_relax_pass (shift_hours : List (Int × ℚ))
    (resource_lookup : List (Int × SchedulingResource))
    (cands : List (Int × List (ℚ × Nat × Int))) (st : RelaxState) : RelaxState :=
  cands.foldl (fun st kv =>
    let target := (resource_lookup.lookup kv.1).bind (fun r => r.target_hours)
    match target with
    | none => st
    | some target =>
      let target_limit := target + MONTHLY_OVERRUN_TOLERANCE
      let total := st.monthly_totals kv.1
      if total ≤ target_limit then st
      else
        monthly_relax_inner shift_hours target_limit kv.1
          (kv.2.insertionSort (fun a b => b.1 ≤ a.1)) st total) st

/-- `apply_prime_shift_relaxation`.  The Python function mutates `entries` in
place; the embedding returns the updated list. -/
def apply_prime_shift_relaxation (context : SchedulingContext)
    (entries : List PlanningEntryRead) : List PlanningEntryRead :=
  let weekly_limit := context.rules.rules.working_time.max_hours_per_week
  if weekly_limit ≤ 0 || entries.isEmpty then entries else
  let shift_hours := buildShiftHours context.shifts
  if shift_hours.isEmpty then entries else
  let base_to_prime := BASE_TO_PRIME_SHIFT.filter (fun p =>
    (shift_hours.lookup p.1).isSome && (shift_hours.lookup p.2).isSome)
  if base_to_prime.isEmpty then entries else
  let resource_lookup := buildResourceLookup context.resources
  let scan := entries.enum.foldl (relax_scan_step shift_hours base_to_prime)
    { weekly_totals := fun _ => 0, weekly_candidates := [],
      monthly_totals := fun _ => 0, monthly_candidates := [] }
  let st0 : RelaxState :=
    { entries := entries, weekly_totals := scan.weekly_totals,
      monthly_totals := scan.monthly_totals }
  let st1 := weekly_relax_pass shift_hours weekly_limit scan.weekly_candidates st0
  let st2 := monthly_relax_pass shift_hours resource_lookup scan.monthly_candidates st1
  st2.entries

/-- The `target_limit` of the monthly relaxation pass for one resource id. -/
def monthTargetOf (rl : List (Int × SchedulingResource)) (rid : Int) : Option ℚ :=
  (rl.lookup rid).bind (fun r => r.target_hours)

/-- The main branch of `apply_prime_shift_relaxation` (scan plus the two
conversion passes), as run once the early-return guards have all failed. -/
def relax_main (sh : List (Int × ℚ)) (bp : List (Int × Int)) (wl : Int)
    (rl : List (Int × SchedulingResource)) (entries : List PlanningEntryRead) :
    List PlanningEntryRead :=
  let scan := entries.enum.foldl (relax_scan_step sh bp)
    { weekly_totals := fun _ => 0, weekly_candidates := [],
      monthly_totals := fun _ => 0, monthly_candidates := [] }
  let st0 : RelaxState :=
    { entries := entries, weekly_totals := scan.weekly_totals,
      monthly_totals := scan.monthly_totals }
  let st1 := weekly_relax_pass sh wl scan.weekly_candidates st0
  (monthly_relax_pass sh rl scan.monthly_candidates st1).entries

/-- `_longest_consecutive_stretch`. -/
def longest_consecutive_stretch (sorted_dates : List Date) : Int :=
  (sorted_dates.foldl (fun (acc : Int × Int × Option Date) day =>
    let current :=
      match acc.2.2 with
      | some previous => if day - previous == 1 then acc.2.1 + 1 else 1
      | none => 1
    (max acc.1 current, current, some day)) ((0 : Int), (0 : Int), none)).1

/-- `_has_consecutive_days_off` (it re-derives the month's day range from the
context's month, embedded as the parsed `(year, month)` pair). -/
def has_consecutive_days_off (year month : Int) (sorted_dates : List Date)
    (required_off : Int) : Bool :=
  if required_off ≤ 0 then true
  else
    ((monthDaysList year month).foldl (fun (acc : Int × Bool) current_day =>
      if !(sorted_dates.contains current_day) then
        let streak := acc.1 + 1
        (streak, acc.2 || streak ≥ required_off)
      else (0, acc.2)) ((0 : Int), false)).2

/-- One iteration of the totals-building loop of `_apply_staffing_rules`. -/
def staffing_totals_step (resource_role_map : List (Int × String))
    (acc : List (Date × Int) × List (Date × List (String × Int)))
    (entry : PlanningEntryRead) : List (Date × Int) × List (Date × List (String × Int)) :=
  -- `if entry.absence_type: continue` (Python string truthiness)
  if (match entry.absence_type with | some s => !(s == "") | none => false) then acc
  else
    let day_totals := dictWrite acc.1 entry.date
      (((acc.1.lookup entry.date).getD 0) + 1)
    match resource_role_map.lookup entry.resource_id with
    | none => (day_totals, acc.2)
    | some role =>
      let rule_key := role_rule_key role
      let inner := (acc.2.lookup entry.date).getD []
      let inner2 := dictWrite inner rule_key (((inner.lookup rule_key).getD 0) + 1)
      (day_totals, dictWrite acc.2 entry.date inner2)

/-- The `day_totals` / `role_totals` dicts of `_apply_staffing_rules`. -/
def staffing_totals (resource_role_map : List (Int × String))
    (entries : List PlanningEntryRead) :
    List (Date × Int) × List (Date × List (String × Int)) :=
  entries.foldl (staffing_totals_step resource_role_map) ([], [])

/-- The body of the inner composition loop of `_apply_staffing_rules`. -/
def staffing_comp_step (role_totals : List (Date × List (String × Int))) (day1 : Date)
    (violations2 : List SchedulingViolation) (roleComp : String × RoleComposition) :
    List SchedulingViolation :=
  let assigned := (((role_totals.lookup day1).getD []).lookup roleComp.1).getD 0
  let violations3 :=
    match roleComp.2.min with
    | some m =>
        if assigned < m then
          violations2 ++ [{ code := "role-min-shortfall", severity := "critical",
                            scope := "day", day := some day1 }]
        else violations2
    | none => violations2
  match roleComp.2.max with
  | some m =>
      if assigned > m then
        violations3 ++ [{ code := "role-max-exceeded", severity := "warning",
                          scope := "day", day := some day1 }]
      else violations3
  | none => violations3

/-- The body of the per-day loop of `_apply_staffing_rules`. -/
def staffing_day_step (context : SchedulingContext)
    (role_totals : List (Date × List (String × Int)))
    (violations : List SchedulingViolation) (dayCount : Date × Int) :
    List SchedulingViolation :=
  let rules := context.rules.rules.shift_rules
  let violations1 :=
    if dayCount.2 < rules.minimum_daily_staff then
      violations ++ [{ code := "staffing-shortfall", severity := "warning",
                       scope := "day", day := some dayCount.1 }]
    else violations
  rules.composition.foldl (staffing_comp_step role_totals dayCount.1) violations1

/-- `_apply_staffing_rules`: returns the violations it appends, in order. -/
def apply_staffing_rules (context : SchedulingContext)
    (entries : List PlanningEntryRead)
    (resource_role_map : List (Int × String)) : List SchedulingViolation :=
  let totals := staffing_totals resource_role_map entries
  totals.1.foldl (staffing_day_step context totals.2) []

/-- The three nested dicts built by `_apply_working_time_rules`:
`per_week_hours`, `per_week_days` (sets as dedup lists) and `resource_dates`. -/
structure WorkingTimeAgg where
  per_week_hours : List (Int × List (Date × ℚ))
  per_week_days : List (Int × List (Date × List Date))
  resource_dates : List (Int × List Date)

/-- One iteration of the aggregation loop of `_apply_working_time_rules`. -/
def working_time_agg_step (shift_hours_map : List (Int × ℚ))
    (acc : WorkingTimeAgg) (entry : PlanningEntryRead) : WorkingTimeAgg :=
  let resource_id := entry.resource_id
  -- `shift_hours_map.get(entry.shift_code or 0, 0.0)`
  let hours := (shift_hours_map.lookup (entry.shift_code.getD 0)).getD 0
  let key := isoWeekMonday entry.date
  let hoursInner := (acc.per_week_hours.lookup resource_id).getD []
  let hoursInner2 := dictWrite hoursInner key (((hoursInner.lookup key).getD 0) + hours)
  let daysInner := (acc.per_week_days.lookup resource_id).getD []
  let daySet := (daysInner.lookup key).getD []
  let daySet2 := if daySet.contains entry.date then daySet else daySet ++ [entry.date]
  let daysInner2 := dictWrite daysInner key daySet2
  let dates := (acc.resource_dates.lookup resource_id).getD []
  let dates2 := if dates.contains entry.date then dates else dates ++ [entry.date]
  { per_week_hours := dictWrite acc.per_week_hours resource_id hoursInner2,
    per_week_days := dictWrite acc.per_week_days resource_id daysInner2,
    resource_dates := dictWrite acc.resource_dates resource_id dates2 }

/-- The aggregation loop of `_apply_working_time_rules`. -/
def working_time_agg (shift_hours_map : List (Int × ℚ))
    (entries : List PlanningEntryRead) : WorkingTimeAgg :=
  entries.foldl (working_time_agg_step shift_hours_map)
    { per_week_hours := [], per_week_days := [], resource_dates := [] }

/-- The weekly-hours violation check of `_apply_working_time_rules`,
for one `(iso-week, total)` pair of one resource. -/
def wt_hours_inner (working_rules : WorkingTimeRules) (rid : Int)
    (vs : List SchedulingViolation) (weekHours : Date × ℚ) : List SchedulingViolation :=
  if weekHours.2 > (working_rules.max_hours_per_week : ℚ) then
    vs ++ [{ code := "hours-per-week-exceeded", severity := "critical",
             scope := "week", resource_id := some rid,
             iso_week := some weekHours.1 }]
  else vs

/-- The weekly-hours loop body (one resource). -/
def wt_hours_step (working_rules : WorkingTimeRules)
    (vs : List SchedulingViolation) (byWeek : Int × List (Date × ℚ)) :
    List SchedulingViolation :=
  byWeek.2.foldl (wt_hours_inner working_rules byWeek.1) vs

/-- The weekly-days violation check, for one `(iso-week, dates)` pair. -/
def wt_days_inner (working_rules : WorkingTimeRules) (rid : Int)
    (vs : List SchedulingViolation) (weekDays : Date × List Date) :
    List SchedulingViolation :=
  if (weekDays.2.length : Int) > working_rules.max_working_days_per_week then
    vs ++ [{ code := "days-per-week-exceeded", severity := "critical",
             scope := "week", resource_id := some rid,
             iso_week := some weekDays.1 }]
  else vs

/-- The weekly-days loop body (one resource). -/
def wt_days_step (working_rules : WorkingTimeRules)
    (vs : List SchedulingViolation) (byWeek : Int × List (Date × List Date)) :
    List SchedulingViolation :=
  byWeek.2.foldl (wt_days_inner working_rules byWeek.1) vs

/-- The per-resource streak and rest checks of `_apply_working_time_rules`. -/
def wt_resource_step (context : SchedulingContext)
    (vs : List SchedulingViolation) (byResource : Int × List Date) :
    List SchedulingViolation :=
  let working_rules := context.rules.rules.working_time
  let sorted_dates := byResource.2.insertionSort (fun a b => a ≤ b)
  let max_streak := longest_consecutive_stretch sorted_dates
  let vs1 :=
    if max_streak > working_rules.max_consecutive_working_days then
      vs ++ [{ code := "consecutive-days-exceeded", severity := "critical",
               scope := "resource", resource_id := some byResource.1 }]
    else vs
  let required_off := working_rules.required_consecutive_days_off_per_month
  if !(has_consecutive_days_off context.year context.month sorted_dates required_off) then
    vs1 ++ [{ code := "insufficient-consecutive-rest", severity := "warning",
              scope := "resource", resource_id := some byResource.1 }]
  else vs1

/-- `_apply_working_time_rules`: returns the violations it appends, in order
(weekly hours, then weekly days, then per-resource streak and rest). -/
def apply_working_time_rules (context : SchedulingContext)
    (entries : List PlanningEntryRead)
    (shift_hours_map : List (Int × ℚ)) : List SchedulingViolation :=
  let working_rules := context.rules.rules.working_time
  let agg := working_time_agg shift_hours_map entries
  let hoursViolations := agg.per_week_hours.foldl (wt_hours_step working_rules) []
  let daysViolations := agg.per_week_days.foldl (wt_days_step working_rules) hoursViolations
  agg.resource_dates.foldl (wt_resource_step context) daysViolations

/-- `evaluate_rule_violations`. -/
def evaluate_rule_violations (context : SchedulingContext)
    (entries : List PlanningEntryRead) : List SchedulingViolation :=
  if entries.isEmpty then
    [{ code := "empty-schedule", severity := "warning", scope := "schedule" }]
  else
    let resource_role_map := context.resources.foldl
      (fun acc r => dictWrite acc r.id (role_rule_key r.role)) []
    let shift_hours_map := buildShiftHours context.shifts
    apply_staffing_rules context entries resource_role_map ++
      apply_working_time_rules context entries shift_hours_map

/-- The initial `_ResourceScheduleState` built for each resource. -/
def initResourceState (resource : SchedulingResource) : ResourceScheduleState :=
  { resource := resource, rule_role := role_rule_key resource.role,
    weekly_days := fun _ => 0, weekly_hours := fun _ => 0,
    consecutive_days := 0, total_assignments := 0, forced_rest_days := [],
    target_hours := resource.target_hours, monthly_hours := 0,
    is_relief := resource.is_relief }

/-- `generate_stub_schedule`: the heuristic engine. -/
def generate_stub_schedule (context : SchedulingContext) : SchedulingResult :=
  let month_days := monthDaysList context.year context.month
  if context.resources.isEmpty || context.shifts.isEmpty then
    { entries := [], violations := [] }
  else
    let working_rules := context.rules.rules.working_time
    let shift_rules := context.rules.rules.shift_rules
    let resource_states := context.resources.foldl
      (fun acc r => dictWrite acc r.id (initResourceState r)) []
    let resource_states1 := apply_mandatory_rest_days resource_states month_days working_rules
    let p : HeuristicParams :=
      { context := context, working_rules := working_rules,
        minimum_daily_staff := shift_rules.minimum_daily_staff,
        role_minimums := roleMinimumsOf shift_rules.composition,
        role_maximums := roleMaximumsOf shift_rules.composition,
        role_order := shift_rules.composition.map Prod.fst,
        shift_lookup := buildShiftLookup context.shifts,
        daily_target := daily_staff_target context }
    let final := month_days.foldl (process_day p) ([], resource_states1, 1)
    let entries := apply_prime_shift_relaxation context final.1
    { entries := entries, violations := evaluate_rule_violations context entries }

/-- `generate_rule_compliant_schedule`: the public heuristic entry point. -/
def generate_rule_compliant_schedule (context : SchedulingContext) : SchedulingResult :=
  generate_stub_schedule context

/-! ### Specification-side derived definitions

These do not embed source functions; they are the vocabulary in which the
verified properties are stated (hour sums, distinct dates, run lengths). -/

/-- The hours the shift catalog map assigns to an entry (`0` when the entry
has no shift code or an unknown code). -/
def entryHours (shift_hours : List (Int × ℚ)) (e : PlanningEntryRead) : ℚ :=
  ((e.shift_code.bind (fun c => shift_hours.lookup c)).getD 0)

/-- Total catalog hours of a resource's entries inside one ISO week. -/
def weekHoursSum (shift_hours : List (Int × ℚ)) (entries : List PlanningEntryRead)
    (rid : Int) (wk : Date) : ℚ :=
  ((entries.filter (fun e => e.resource_id == rid && isoWeekMonday e.date == wk)).map
    (entryHours shift_hours)).sum

/-- Total catalog hours of a resource's entries over the whole list. -/
def monthHoursSum (shift_hours : List (Int × ℚ)) (entries : List PlanningEntryRead)
    (rid : Int) : ℚ :=
  ((entries.filter (fun e => e.resource_id == rid)).map (entryHours shift_hours)).sum

/-- Total hours of a resource's entries inside one ISO week, measured the way
the evaluator measures them: `shift_hours_map.get(entry.shift_code or 0, 0.0)`
(so an entry with no shift code is charged the hours of catalog code 0, if
that code exists). -/
def evalWeekHoursSum (shift_hours_map : List (Int × ℚ))
    (entries : List PlanningEntryRead) (rid : Int) (wk : Date) : ℚ :=
  ((entries.filter (fun e => e.resource_id == rid && isoWeekMonday e.date == wk)).map
    (fun e => (shift_hours_map.lookup (e.shift_code.getD 0)).getD 0)).sum

/-- First-occurrence deduplication (the semantics of the Python `set` adds
performed by the evaluator, read off in insertion order). -/
def distinctDates (dates : List Date) : List Date :=
  dates.foldl (fun acc d => if acc.contains d then acc else acc ++ [d]) []

/-- The distinct dates of a resource's entries inside one ISO week. -/
def weekDates (entries : List PlanningEntryRead) (rid : Int) (wk : Date) : List Date :=
  distinctDates ((entries.filter
    (fun e => e.resource_id == rid && isoWeekMonday e.date == wk)).map (fun e => e.date))

/-- The distinct dates of all of a resource's entries. -/
def resourceDates (entries : List PlanningEntryRead) (rid : Int) : List Date :=
  distinctDates ((entries.filter (fun e => e.resource_id == rid)).map (fun e => e.date))

/-- Pointwise relation between an output entry of the prime-shift relaxation
and the input entry at the same position: either unchanged, or a conversion
that keeps the resource and date and strictly lowers the catalog hours. -/
def entryRelaxLE (shift_hours : List (Int × ℚ)) (e' e : PlanningEntryRead) : Prop :=
  e' = e ∨ (e'.resource_id = e.resource_id ∧ e'.date = e.date ∧
    entryHours shift_hours e' < entryHours shift_hours e)

/-- A resource's role has a non-empty allowed-code set matching at least one
catalog shift (the hypothesis under which the catalog fallback of
`_select_shift_for_resource` never fires). -/
def role_selectable (context : SchedulingContext) (r : SchedulingResource) : Bool :=
  match ROLE_ALLOWED_SHIFT_CODES.lookup r.role with
  | some s => !s.isEmpty &&
      !(context.shifts.filter (fun sh => s.contains sh.code)).isEmpty
  | none => false

/-- Code `c` is allowed for the role of a context resource with id `rid`. -/
def roleAllowedOk (context : SchedulingContext) (rid : Int) (c : Int) : Prop :=
  ∃ r ∈ context.resources, r.id = rid ∧ ∃ s,
    ROLE_ALLOWED_SHIFT_CODES.lookup r.role = some s ∧ s.contains c = true

/-- Every recorded shift code of the entry list is role-allowed. -/
def entriesRoleOk (context : SchedulingContext)
    (entries : List PlanningEntryRead) : Prop :=
  ∀ e ∈ entries, ∀ c, e.shift_code = some c → roleAllowedOk context e.resource_id c

/-- Every tracked schedule state belongs to a context resource. -/
def statesResOk (context : SchedulingContext)
    (states : List (Int × ResourceScheduleState)) : Prop :=
  ∀ kv ∈ states, kv.2.resource ∈ context.resources

/-- Pointwise relation between an input entry of the prime-shift relaxation
and the output entry at the same position: unchanged, or converted to the
prime variant of its recorded code (per the base-to-prime table `bp`). -/
def entryPrimeRel (bp : List (Int × Int)) (e0 e : PlanningEntryRead) : Prop :=
  e = e0 ∨ (e.resource_id = e0.resource_id ∧ e.date = e0.date ∧
    ∃ c p2, e0.shift_code = some c ∧ bp.lookup c = some p2 ∧ e.shift_code = some p2)

/-- The weekly grouping key `(resource_id, iso_week)` of an entry. -/
def weekKeyOf (e : PlanningEntryRead) : Int × Date :=
  (e.resource_id, isoWeekMonday e.date)

/-- `shift_hours_map.get(code, 0.0)`. -/
def hoursOf (sh : List (Int × ℚ)) (c : Int) : ℚ := (sh.lookup c).getD 0

/-- The scan's conversion saving `hours - shift_hours_map.get(prime, hours)`. -/
def primeDelta (sh : List (Int × ℚ)) (c pc : Int) : ℚ :=
  hoursOf sh c - (sh.lookup pc).getD (hoursOf sh c)

/-- The entry can never again become a conversion candidate: its recorded code
(if any) has no strictly-shorter prime variant in `bp`. -/
def noCand (sh : List (Int × ℚ)) (bp : List (Int × Int))
    (e : PlanningEntryRead) : Prop :=
  ∀ c, e.shift_code = some c → ∀ pc, bp.lookup c = some pc →
    primeDelta sh c pc ≤ 0

/-- `noCand` at one index of an entry list. -/
def noCandAt (sh : List (Int × ℚ)) (bp : List (Int × Int))
    (l : List PlanningEntryRead) (i : Nat) : Prop :=
  ∀ e, l.get? i = some e → noCand sh bp e

/-- Catalog hours of a resource's entries inside one weekly key (the totals
the relaxation scan accumulates per `(resource_id, iso_week)`). -/
def weekTotOf (sh : List (Int × ℚ)) (entries : List PlanningEntryRead)
    (key : Int × Date) : ℚ :=
  ((entries.filter (fun e => weekKeyOf e == key)).map (entryHours sh)).sum

/-- A conversion candidate `(delta, idx, prime)` is well-formed w.r.t. the
scanned entry list: position `idx` recorded a code whose prime variant is
`prime` and saves a positive delta. -/
def candOk (sh : List (Int × ℚ)) (entries0 : List PlanningEntryRead)
    (bp : List (Int × Int)) (cand : ℚ × Nat × Int) : Prop :=
  ∃ e0 c, entries0.get? cand.2.1 = some e0 ∧ e0.shift_code = some c ∧
    bp.lookup c = some cand.2.2 ∧ 0 < primeDelta sh c cand.2.2

/-- All candidates collected by the relaxation scan are well-formed and filed
under the key of their scanned entry. -/
def scanCandsOk (sh : List (Int × ℚ)) (entries0 : List PlanningEntryRead)
    (bp : List (Int × Int)) (scan : RelaxScan) : Prop :=
  (∀ kv ∈ scan.weekly_candidates, ∀ cand ∈ kv.2, candOk sh entries0 bp cand ∧
    ∀ e0, entries0.get? cand.2.1 = some e0 → weekKeyOf e0 = kv.1) ∧
  (∀ kv ∈ scan.monthly_candidates, ∀ cand ∈ kv.2, candOk sh entries0 bp cand ∧
    ∀ e0, entries0.get? cand.2.1 = some e0 → e0.resource_id = kv.1)

/-! ### Concrete inputs used by witnesses and counterexamples -/

/-- Rule-set builder for concrete test inputs. -/
def mkRules (mh md mc ro ms : Int) (comp : List (String × RoleComposition)) : RuleSet :=
  { rules :=
    { working_time :=
      { max_hours_per_week := mh, max_working_days_per_week := md,
        max_consecutive_working_days := mc,
        required_consecutive_days_off_per_month := ro },
      shift_rules := { minimum_daily_staff := ms, composition := comp },
      vacations_and_absences :=
        { max_concurrent_vacations := 4,
          desired_rest_days := { max_per_month_per_resource := 2 } } } }

/-- Shift builder for concrete test inputs. -/
def mkShift (c : Int) (h : ℚ) : SchedulingShift :=
  { code := c, description := "shift", start := "08:00", end_time := "16:00", hours := h }

/-- February 2023, one cook, one 9.25h shift, `max_hours_per_week = 0`:
the Python truthiness guard `if working_rules.max_hours_per_week and …`
skips the weekly-hours cap entirely. -/
def ctxHoursCapZero : SchedulingContext :=
  { year := 2023, month := 2,
    resources := [{ id := 1, role := "cook" }],
    shifts := [mkShift 1 (37/4)],
    rules := mkRules 0 7 30 0 1 [] }

/-- February 2023, an empty resource list with a non-empty shift catalog. -/
def ctxEmptyResources : SchedulingContext :=
  { year := 2023, month := 2,
    resources := [],
    shifts := [mkShift 1 (37/4)],
    rules := mkRules 50 6 5 2 7 [] }

/-- February 2023, one apprentice; the catalog holds only shift code 8,
which is not role-allowed for apprentices (`{1}`). -/
def ctxApprentice : SchedulingContext :=
  { year := 2023, month := 2,
    resources := [{ id := 1, role := "apprentice" }],
    shifts := [mkShift 8 8],
    rules := mkRules 200 7 30 0 1 [] }

/-- February 2023, three cooks with large monthly targets and
`minimum_daily_staff = 1`: the deficit pass runs up to
`min(len(resources), max(min_staff, daily_target) + 1) = 3` staff per day. -/
def ctxDeficit : SchedulingContext :=
  { year := 2023, month := 2,
    resources := [{ id := 1, role := "cook", target_hours := some 300 },
                  { id := 2, role := "cook", target_hours := some 300 },
                  { id := 3, role := "cook", target_hours := some 300 }],
    shifts := [mkShift 1 8],
    rules := mkRules 200 7 30 0 1 [] }

/-- November 2024 with weekly-days cap 1 and consecutive cap 1. -/
def ctxAbsenceCaps : SchedulingContext :=
  { year := 2024, month := 11,
    resources := [{ id := 1, role := "cook" }],
    shifts := [mkShift 1 8],
    rules := mkRules 50 1 1 0 0 [] }

/-- Two pure-absence entries (no shift code) on Mon/Tue 2024-11-04/05. -/
def entriesAbsence : List PlanningEntryRead :=
  [{ id := 1, resource_id := 1, date := daysFromCivil 2024 11 4,
     shift_code := none, absence_type := some "vacation", comment := none },
   { id := 2, resource_id := 1, date := daysFromCivil 2024 11 5,
     shift_code := none, absence_type := some "vacation", comment := none }]

/-- The first entry the heuristic emits for the three-cook context. -/
def entryDeficitHead : PlanningEntryRead :=
  { id := 1, resource_id := 1, date := 19389, shift_code := some 1,
    absence_type := none, comment := some "AUTO-STUB" }

/-- A fully available resource used for the rest-window rotation input. -/
def resRotation : SchedulingResource := { id := 1, role := "cook" }

/-- The concrete days-per-week violation the evaluator emits for the two
absence entries of `entriesAbsence`. -/
def violAbsenceDays : SchedulingViolation :=
  { code := "days-per-week-exceeded", severity := "critical", scope := "week",
    resource_id := some 1, iso_week := some (daysFromCivil 2024 11 4) }

/-! ### Theorems -/

/-! #### Shared infrastructure lemmas -/

/-- Fold-accumulation extraction: every element of an accumulating fold is
either from the initial accumulator or attributable to one list item. -/
theorem mem_foldl_acc {V β : Type} (step : List V → β → List V) (Q : V → β → Prop)
    (hstep : ∀ vs b v, v ∈ step vs b → v ∈ vs ∨ Q v b)
    (l : List β) (init : List V) (v : V) (hv : v ∈ l.foldl step init) :
    v ∈ init ∨ ∃ b ∈ l, Q v b := by
  induction l generalizing init with
  | nil => exact Or.inl hv
  | cons b rest ih =>
    rcases ih (step init b) hv with h | h
    · rcases hstep init b v h with h2 | h2
      · exact Or.inl h2
      · exact Or.inr ⟨b, List.mem_cons_self _ _, h2⟩
    · obtain ⟨b2, hb2, hq⟩ := h
      exact Or.inr ⟨b2, List.mem_cons_of_mem _ hb2, hq⟩

/-- `lookup` after a Python-dict write. -/
theorem dictWrite_lookup {κ α : Type} [BEq κ] [LawfulBEq κ]
    (l : List (κ × α)) (k : κ) (v : α) (k2 : κ) :
    (dictWrite l k v).lookup k2 = if k2 == k then some v else l.lookup k2 := by
  induction l with
  | nil =>
    simp only [dictWrite, List.lookup]
    cases h : k2 == k <;> simp [h]
  | cons p rest ih =>
    obtain ⟨k0, v0⟩ := p
    unfold dictWrite
    by_cases h0 : (k0 == k) = true
    · rw [if_pos h0]
      have hk0 : k0 = k := beq_iff_eq.mp h0
      subst hk0
      simp only [List.lookup]
      cases h2 : k2 == k0 <;> simp [h2]
    · rw [if_neg h0]
      simp only [List.lookup]
      cases h2 : k2 == k0
      · simpa [h2] using ih
      · have hk2 : k2 = k0 := beq_iff_eq.mp h2
        have hne : (k2 == k) = false := by
          apply beq_eq_false_iff_ne.mpr
          subst hk2
          exact fun hc => h0 (beq_iff_eq.mpr hc)
        simp [h2, hne]

/-- Members of a written dict are old members or the written pair. -/
theorem dictWrite_mem {κ α : Type} [BEq κ] [LawfulBEq κ]
    {l : List (κ × α)} {k : κ} {v : α} {q : κ × α}
    (hq : q ∈ dictWrite l k v) : q ∈ l ∨ q = (k, v) := by
  induction l with
  | nil => simpa [dictWrite] using hq
  | cons p rest ih =>
    unfold dictWrite at hq
    by_cases h0 : (p.1 == k) = true
    · rw [if_pos h0] at hq
      rcases List.mem_cons.mp hq with h | h
      · have : p.1 = k := beq_iff_eq.mp h0
        right; rw [h, this]
      · left; exact List.mem_cons_of_mem _ h
    · rw [if_neg h0] at hq
      rcases List.mem_cons.mp hq with h | h
      · left; rw [h]; exact List.mem_cons_self _ _
      · rcases ih h with h2 | h2
        · left; exact List.mem_cons_of_mem _ h2
        · right; exact h2

/-- The keys after a Python-dict write. -/
theorem dictWrite_keys {κ α : Type} [BEq κ] [LawfulBEq κ]
    (l : List (κ × α)) (k : κ) (v : α) :
    (dictWrite l k v).map Prod.fst =
      if (l.map Prod.fst).contains k then l.map Prod.fst
      else l.map Prod.fst ++ [k] := by
  induction l with
  | nil => simp [dictWrite]
  | cons p rest ih =>
    unfold dictWrite
    by_cases h0 : (p.1 == k) = true
    · have : p.1 = k := beq_iff_eq.mp h0
      subst this
      simp [List.contains_cons]
    · obtain ⟨k0, v0⟩ := p
      simp only at h0
      rw [if_neg h0]
      simp only [List.map_cons, List.contains_cons]
      rw [ih]
      have : (k == k0) = false := by
        apply beq_eq_false_iff_ne.mpr
        intro hc
        exact h0 (by rw [hc]; exact beq_iff_eq.mpr rfl)
      rw [this, Bool.false_or]
      cases h2 : (List.map Prod.fst rest).contains k <;> simp [h2]

/-- A dict write preserves distinctness of the keys. -/
theorem dictWrite_keys_nodup {κ α : Type} [BEq κ] [LawfulBEq κ]
    {l : List (κ × α)} (hnd : (l.map Prod.fst).Nodup) (k : κ) (v : α) :
    ((dictWrite l k v).map Prod.fst).Nodup := by
  rw [dictWrite_keys]
  by_cases h : (l.map Prod.fst).contains k
  · rw [if_pos h]; exact hnd
  · rw [if_neg h]
    refine List.Nodup.append hnd (List.nodup_singleton k) ?_
    intro a ha hb
    rw [List.mem_singleton] at hb
    subst hb
    exact h (by simpa using ha)

/-- In a dict with distinct keys, membership determines `lookup`. -/
theorem lookup_eq_of_mem_nodup {κ α : Type} [BEq κ] [LawfulBEq κ]
    {l : List (κ × α)} (hnd : (l.map Prod.fst).Nodup) {p : κ × α} (hp : p ∈ l) :
    l.lookup p.1 = some p.2 := by
  induction l with
  | nil => cases hp
  | cons q rest ih =>
    rcases List.mem_cons.mp hp with h | h
    · subst h
      simp [List.lookup]
    · have hnd2 := (List.nodup_cons.mp hnd)
      have hne : (p.1 == q.1) = false := by
        apply beq_eq_false_iff_ne.mpr
        intro hc
        exact hnd2.1 (hc ▸ (List.mem_map.mpr ⟨p, h, rfl⟩))
      simp only [List.lookup, hne]
      exact ih hnd2.2 h

/-- The `resource_dates` set built by `_apply_working_time_rules`, read
through `lookup`, is the first-occurrence deduplication of the resource's
entry dates. -/
theorem agg_resource_dates_general (shm : List (Int × ℚ)) (rid : Int) :
    ∀ (entries : List PlanningEntryRead) (acc : WorkingTimeAgg),
    (((entries.foldl (working_time_agg_step shm) acc).resource_dates.lookup rid).getD []) =
      ((entries.filter (fun e => e.resource_id == rid)).map (fun e => e.date)).foldl
        (fun ds d => if ds.contains d then ds else ds ++ [d])
        ((acc.resource_dates.lookup rid).getD []) := by
  intro entries
  induction entries with
  | nil => intro acc; rfl
  | cons e rest ih =>
    intro acc
    rw [List.foldl_cons, ih]
    by_cases h : e.resource_id = rid
    · have hb : (e.resource_id == rid) = true := beq_iff_eq.mpr h
      have hb2 : (rid == e.resource_id) = true := beq_iff_eq.mpr h.symm
      simp only [List.filter_cons, hb, if_pos, List.map_cons, List.foldl_cons]
      congr 1
      simp only [working_time_agg_step]
      rw [dictWrite_lookup]
      rw [if_pos hb2]
      simp only [Option.getD_some]
      rw [h]
    · have hb : (e.resource_id == rid) = false := by
        apply beq_eq_false_iff_ne.mpr; exact h
      have hb2 : (rid == e.resource_id) = false := by
        apply beq_eq_false_iff_ne.mpr; exact fun hc => h hc.symm
      simp only [List.filter_cons, hb]
      congr 1
      simp only [working_time_agg_step]
      rw [dictWrite_lookup, if_neg (by simp [hb2])]

/-- The nested `per_week_days` set, read through `lookup`, is the
first-occurrence deduplication of the resource's entry dates in the week. -/
theorem agg_week_days_general (shm : List (Int × ℚ)) (rid : Int) (wk : Date) :
    ∀ (entries : List PlanningEntryRead) (acc : WorkingTimeAgg),
    (((((entries.foldl (working_time_agg_step shm) acc).per_week_days.lookup rid).getD
        []).lookup wk).getD []) =
      ((entries.filter (fun e => e.resource_id == rid && isoWeekMonday e.date == wk)).map
        (fun e => e.date)).foldl
        (fun ds d => if ds.contains d then ds else ds ++ [d])
        ((((acc.per_week_days.lookup rid).getD []).lookup wk).getD []) := by
  intro entries
  induction entries with
  | nil => intro acc; rfl
  | cons e rest ih =>
    intro acc
    rw [List.foldl_cons, ih]
    by_cases h : e.resource_id = rid
    · by_cases h2 : isoWeekMonday e.date = wk
      · have hb : (e.resource_id == rid && isoWeekMonday e.date == wk) = true := by
          simp [beq_iff_eq.mpr h, beq_iff_eq.mpr h2]
        rw [List.filter_cons_of_pos (p := fun x : PlanningEntryRead => x.resource_id == rid && isoWeekMonday x.date == wk) hb, List.map_cons, List.foldl_cons]
        congr 1
        simp only [working_time_agg_step]
        rw [dictWrite_lookup, if_pos (beq_iff_eq.mpr h.symm), Option.getD_some,
          dictWrite_lookup, if_pos (beq_iff_eq.mpr h2.symm), Option.getD_some, h, h2]
      · have hb : ¬ (e.resource_id == rid && isoWeekMonday e.date == wk) = true := by
          simp [beq_eq_false_iff_ne.mpr h2]
        rw [List.filter_cons_of_neg (p := fun x : PlanningEntryRead => x.resource_id == rid && isoWeekMonday x.date == wk) hb]
        congr 1
        simp only [working_time_agg_step]
        rw [dictWrite_lookup, if_pos (beq_iff_eq.mpr h.symm), Option.getD_some,
          dictWrite_lookup, if_neg (by simp [beq_eq_false_iff_ne.mpr (fun hc => h2 hc.symm)]), h]
    · have hb : ¬ (e.resource_id == rid && isoWeekMonday e.date == wk) = true := by
        simp [beq_eq_false_iff_ne.mpr h]
      rw [List.filter_cons_of_neg (p := fun x : PlanningEntryRead => x.resource_id == rid && isoWeekMonday x.date == wk) hb]
      congr 1
      simp only [working_time_agg_step]
      rw [dictWrite_lookup,
        if_neg (by simp [beq_eq_false_iff_ne.mpr (fun hc => h hc.symm)])]

/-- The nested `per_week_hours` totals, read through `lookup`, are the sums
of the catalog hours of the resource's entries in the week. -/
theorem agg_week_hours_general (shm : List (Int × ℚ)) (rid : Int) (wk : Date) :
    ∀ (entries : List PlanningEntryRead) (acc : WorkingTimeAgg),
    (((((entries.foldl (working_time_agg_step shm) acc).per_week_hours.lookup rid).getD
        []).lookup wk).getD 0) =
      ((((acc.per_week_hours.lookup rid).getD []).lookup wk).getD 0) +
        ((entries.filter (fun e => e.resource_id == rid && isoWeekMonday e.date == wk)).map
          (fun e => (shm.lookup (e.shift_code.getD 0)).getD 0)).sum := by
  intro entries
  induction entries with
  | nil => intro acc; simp
  | cons e rest ih =>
    intro acc
    rw [List.foldl_cons, ih]
    by_cases h : e.resource_id = rid
    · by_cases h2 : isoWeekMonday e.date = wk
      · have hb : (e.resource_id == rid && isoWeekMonday e.date == wk) = true := by
          simp [beq_iff_eq.mpr h, beq_iff_eq.mpr h2]
        rw [List.filter_cons_of_pos (p := fun x : PlanningEntryRead => x.resource_id == rid && isoWeekMonday x.date == wk) hb, List.map_cons, List.sum_cons]
        have hstep : ((((working_time_agg_step shm acc e).per_week_hours.lookup rid).getD
            []).lookup wk).getD 0 =
            ((((acc.per_week_hours.lookup rid).getD []).lookup wk).getD 0) +
              (shm.lookup (e.shift_code.getD 0)).getD 0 := by
          simp only [working_time_agg_step]
          rw [dictWrite_lookup, if_pos (beq_iff_eq.mpr h.symm), Option.getD_some,
            dictWrite_lookup, if_pos (beq_iff_eq.mpr h2.symm), Option.getD_some, h, h2]
        rw [hstep]
        ring
      · have hb : ¬ (e.resource_id == rid && isoWeekMonday e.date == wk) = true := by
          simp [beq_eq_false_iff_ne.mpr h2]
        rw [List.filter_cons_of_neg (p := fun x : PlanningEntryRead => x.resource_id == rid && isoWeekMonday x.date == wk) hb]
        congr 1
        simp only [working_time_agg_step]
        rw [dictWrite_lookup, if_pos (beq_iff_eq.mpr h.symm), Option.getD_some,
          dictWrite_lookup, if_neg (by simp [beq_eq_false_iff_ne.mpr (fun hc => h2 hc.symm)]), h]
    · have hb : ¬ (e.resource_id == rid && isoWeekMonday e.date == wk) = true := by
        simp [beq_eq_false_iff_ne.mpr h]
      rw [List.filter_cons_of_neg (p := fun x : PlanningEntryRead => x.resource_id == rid && isoWeekMonday x.date == wk) hb]
      congr 1
      simp only [working_time_agg_step]
      rw [dictWrite_lookup,
        if_neg (by simp [beq_eq_false_iff_ne.mpr (fun hc => h hc.symm)])]

/-- A successful `lookup` witnesses membership. -/
theorem mem_of_lookup_eq_some {κ α : Type} [BEq κ] [LawfulBEq κ]
    {l : List (κ × α)} {k : κ} {v : α} (h : l.lookup k = some v) : (k, v) ∈ l := by
  induction l with
  | nil => cases h
  | cons p rest ih =>
    obtain ⟨k0, v0⟩ := p
    simp only [List.lookup] at h
    cases hk : k == k0
    · rw [hk] at h
      exact List.mem_cons_of_mem _ (ih h)
    · rw [hk] at h
      have hv : v0 = v := Option.some.inj h
      have hkk : k = k0 := beq_iff_eq.mp hk
      subst hv; subst hkk
      exact List.mem_cons_self _ _

/-- Extraction for the weekly-hours violation loop. -/
theorem wt_hours_step_mem {working_rules : WorkingTimeRules}
    {vs : List SchedulingViolation} {byWeek : Int × List (Date × ℚ)}
    {v : SchedulingViolation} (hv : v ∈ wt_hours_step working_rules vs byWeek) :
    v ∈ vs ∨ ∃ wh ∈ byWeek.2, wh.2 > (working_rules.max_hours_per_week : ℚ) ∧
      v = { code := "hours-per-week-exceeded", severity := "critical",
            scope := "week", resource_id := some byWeek.1,
            iso_week := some wh.1 } := by
  unfold wt_hours_step at hv
  have h := mem_foldl_acc _ (fun v wh => wh.2 > (working_rules.max_hours_per_week : ℚ) ∧
      v = { code := "hours-per-week-exceeded", severity := "critical",
            scope := "week", resource_id := some byWeek.1,
            iso_week := some wh.1 }) ?_ byWeek.2 vs v hv
  · rcases h with h | ⟨wh, hwh, hq⟩
    · exact Or.inl h
    · exact Or.inr ⟨wh, hwh, hq⟩
  · intro vs2 wh v2 hv2
    unfold wt_hours_inner at hv2
    split_ifs at hv2 with hc
    · rcases List.mem_append.mp hv2 with h | h
      · exact Or.inl h
      · exact Or.inr ⟨hc, List.mem_singleton.mp h⟩
    · exact Or.inl hv2

/-- Extraction for the weekly-days violation loop. -/
theorem wt_days_step_mem {working_rules : WorkingTimeRules}
    {vs : List SchedulingViolation} {byWeek : Int × List (Date × List Date)}
    {v : SchedulingViolation} (hv : v ∈ wt_days_step working_rules vs byWeek) :
    v ∈ vs ∨ ∃ wd ∈ byWeek.2, ((wd.2.length : Int) > working_rules.max_working_days_per_week) ∧
      v = { code := "days-per-week-exceeded", severity := "critical",
            scope := "week", resource_id := some byWeek.1,
            iso_week := some wd.1 } := by
  unfold wt_days_step at hv
  have h := mem_foldl_acc _
    (fun v wd => ((wd.2.length : Int) > working_rules.max_working_days_per_week) ∧
      v = { code := "days-per-week-exceeded", severity := "critical",
            scope := "week", resource_id := some byWeek.1,
            iso_week := some wd.1 }) ?_ byWeek.2 vs v hv
  · rcases h with h | ⟨wd, hwd, hq⟩
    · exact Or.inl h
    · exact Or.inr ⟨wd, hwd, hq⟩
  · intro vs2 wd v2 hv2
    unfold wt_days_inner at hv2
    split_ifs at hv2 with hc
    · rcases List.mem_append.mp hv2 with h | h
      · exact Or.inl h
      · exact Or.inr ⟨hc, List.mem_singleton.mp h⟩
    · exact Or.inl hv2

/-- Extraction for the per-resource streak/rest violation step. -/
theorem wt_resource_step_mem {context : SchedulingContext}
    {vs : List SchedulingViolation} {byResource : Int × List Date}
    {v : SchedulingViolation} (hv : v ∈ wt_resource_step context vs byResource) :
    v ∈ vs ∨
    (longest_consecutive_stretch (byResource.2.insertionSort (fun a b => a ≤ b)) >
        context.rules.rules.working_time.max_consecutive_working_days ∧
      v = { code := "consecutive-days-exceeded", severity := "critical",
            scope := "resource", resource_id := some byResource.1 }) ∨
    (has_consecutive_days_off context.year context.month
        (byResource.2.insertionSort (fun a b => a ≤ b))
        context.rules.rules.working_time.required_consecutive_days_off_per_month = false ∧
      v = { code := "insufficient-consecutive-rest", severity := "warning",
            scope := "resource", resource_id := some byResource.1 }) := by
  unfold wt_resource_step at hv
  dsimp only at hv
  split_ifs at hv with h1 h2 h3
  · rcases List.mem_append.mp hv with h | h
    · rcases List.mem_append.mp h with h0 | h0
      · exact Or.inl h0
      · exact Or.inr (Or.inl ⟨h2, List.mem_singleton.mp h0⟩)
    · exact Or.inr (Or.inr ⟨by simpa using h1, List.mem_singleton.mp h⟩)
  · rcases List.mem_append.mp hv with h | h
    · exact Or.inl h
    · exact Or.inr (Or.inr ⟨by simpa using h1, List.mem_singleton.mp h⟩)
  · rcases List.mem_append.mp hv with h | h
    · exact Or.inl h
    · exact Or.inr (Or.inl ⟨h3, List.mem_singleton.mp h⟩)
  · exact Or.inl hv



/-- The composition loop only appends role-min/role-max violations. -/
theorem staffing_comp_step_mem {role_totals : List (Date × List (String × Int))}
    {day1 : Date} {vs : List SchedulingViolation} {rc : String × RoleComposition}
    {v : SchedulingViolation} (hv : v ∈ staffing_comp_step role_totals day1 vs rc) :
    v ∈ vs ∨ v.code = "role-min-shortfall" ∨ v.code = "role-max-exceeded" := by
  unfold staffing_comp_step at hv
  dsimp only at hv
  rcases hmin : rc.2.min with _ | m <;> rw [hmin] at hv <;>
    rcases hmax : rc.2.max with _ | m2 <;> rw [hmax] at hv <;> dsimp only at hv
  case none.none => exact Or.inl hv
  all_goals try split_ifs at hv
  all_goals try simp only [List.mem_append, List.mem_singleton] at hv
  all_goals
    first
    | exact Or.inl hv
    | (rcases hv with hv | hv
       <;> first
         | exact Or.inl hv
         | (subst hv; simp)
         | (rcases hv with hv | hv
            <;> first
              | exact Or.inl hv
              | (subst hv; simp)))

/-- `_apply_staffing_rules` emits only its three staffing codes. -/
theorem staffing_rules_codes {context : SchedulingContext}
    {entries : List PlanningEntryRead} {rrm : List (Int × String)}
    {v : SchedulingViolation} (hv : v ∈ apply_staffing_rules context entries rrm) :
    v.code = "staffing-shortfall" ∨ v.code = "role-min-shortfall" ∨
      v.code = "role-max-exceeded" := by
  unfold apply_staffing_rules at hv
  have h := mem_foldl_acc _
    (fun v (_ : Date × Int) => v.code = "staffing-shortfall" ∨
      v.code = "role-min-shortfall" ∨ v.code = "role-max-exceeded")
    ?_ _ [] v hv
  · rcases h with h | ⟨_, _, h⟩
    · cases h
    · exact h
  · intro vs b v2 hv2
    unfold staffing_day_step at hv2
    have h2 := mem_foldl_acc _
      (fun v2 (_ : String × RoleComposition) => v2 ∈ vs ∨ v2.code = "staffing-shortfall" ∨
        v2.code = "role-min-shortfall" ∨ v2.code = "role-max-exceeded")
      ?_ _ _ v2 hv2
    · rcases h2 with h2 | ⟨_, _, h2⟩
      · split_ifs at h2 with hc
        · rcases List.mem_append.mp h2 with h3 | h3
          · exact Or.inl h3
          · right; left; rw [List.mem_singleton.mp h3]
        · exact Or.inl h2
      · rcases h2 with h2 | h2
        · exact Or.inl h2
        · exact Or.inr h2
    · intro vs2 rc v3 hv3
      rcases staffing_comp_step_mem hv3 with h3 | h3
      · exact Or.inl h3
      · exact Or.inr (Or.inr (Or.inr h3))



/-- All dicts built by the aggregation loop have distinct keys. -/
theorem working_time_agg_keys (shm : List (Int × ℚ)) (entries : List PlanningEntryRead) :
    ((working_time_agg shm entries).per_week_hours.map Prod.fst).Nodup ∧
    (∀ p ∈ (working_time_agg shm entries).per_week_hours, (p.2.map Prod.fst).Nodup) ∧
    ((working_time_agg shm entries).per_week_days.map Prod.fst).Nodup ∧
    (∀ p ∈ (working_time_agg shm entries).per_week_days, (p.2.map Prod.fst).Nodup) ∧
    ((working_time_agg shm entries).resource_dates.map Prod.fst).Nodup := by
  have main : ∀ (es : List PlanningEntryRead) (acc : WorkingTimeAgg),
      (acc.per_week_hours.map Prod.fst).Nodup →
      (∀ p ∈ acc.per_week_hours, (p.2.map Prod.fst).Nodup) →
      (acc.per_week_days.map Prod.fst).Nodup →
      (∀ p ∈ acc.per_week_days, (p.2.map Prod.fst).Nodup) →
      (acc.resource_dates.map Prod.fst).Nodup →
      ((es.foldl (working_time_agg_step shm) acc).per_week_hours.map Prod.fst).Nodup ∧
      (∀ p ∈ (es.foldl (working_time_agg_step shm) acc).per_week_hours,
        (p.2.map Prod.fst).Nodup) ∧
      ((es.foldl (working_time_agg_step shm) acc).per_week_days.map Prod.fst).Nodup ∧
      (∀ p ∈ (es.foldl (working_time_agg_step shm) acc).per_week_days,
        (p.2.map Prod.fst).Nodup) ∧
      ((es.foldl (working_time_agg_step shm) acc).resource_dates.map Prod.fst).Nodup := by
    intro es
    induction es with
    | nil => intro acc h1 h2 h3 h4 h5; exact ⟨h1, h2, h3, h4, h5⟩
    | cons e rest ih =>
      intro acc h1 h2 h3 h4 h5
      rw [List.foldl_cons]
      refine ih _ ?_ ?_ ?_ ?_ ?_
      · exact dictWrite_keys_nodup h1 _ _
      · intro p hp
        simp only [working_time_agg_step] at hp
        rcases dictWrite_mem hp with hmem | heq
        · exact h2 p hmem
        · rw [heq]
          apply dictWrite_keys_nodup
          rcases hl : acc.per_week_hours.lookup e.resource_id with _ | inner
          · simp
          · have := h2 (e.resource_id, inner) (mem_of_lookup_eq_some hl)
            simpa [hl] using this
      · exact dictWrite_keys_nodup h3 _ _
      · intro p hp
        simp only [working_time_agg_step] at hp
        rcases dictWrite_mem hp with hmem | heq
        · exact h4 p hmem
        · rw [heq]
          apply dictWrite_keys_nodup
          rcases hl : acc.per_week_days.lookup e.resource_id with _ | inner
          · simp
          · have := h4 (e.resource_id, inner) (mem_of_lookup_eq_some hl)
            simpa [hl] using this
      · exact dictWrite_keys_nodup h5 _ _
  exact main entries { per_week_hours := [], per_week_days := [], resource_dates := [] }
    (by simp) (by simp) (by simp) (by simp) (by simp)

/-- The stored per-resource date set equals `resourceDates`. -/
theorem agg_resource_dates (shm : List (Int × ℚ)) (entries : List PlanningEntryRead)
    (rid : Int) :
    (((working_time_agg shm entries).resource_dates.lookup rid).getD []) =
      resourceDates entries rid := by
  unfold working_time_agg
  rw [agg_resource_dates_general]
  rfl

/-- The stored per-week date set equals `weekDates`. -/
theorem agg_week_days (shm : List (Int × ℚ)) (entries : List PlanningEntryRead)
    (rid : Int) (wk : Date) :
    ((((working_time_agg shm entries).per_week_days.lookup rid).getD []).lookup wk).getD []
      = weekDates entries rid wk := by
  unfold working_time_agg
  rw [agg_week_days_general]
  rfl

/-- The stored per-week hour total equals `evalWeekHoursSum`. -/
theorem agg_week_hours (shm : List (Int × ℚ)) (entries : List PlanningEntryRead)
    (rid : Int) (wk : Date) :
    ((((working_time_agg shm entries).per_week_hours.lookup rid).getD []).lookup wk).getD 0
      = evalWeekHoursSum shm entries rid wk := by
  unfold working_time_agg
  rw [agg_week_hours_general]
  simp [evalWeekHoursSum]

/-- Soundness of `_apply_working_time_rules`: every violation it emits is one
of its four codes, with the corresponding quantity (measured over *all*
entries of the resource, absence entries included) over its limit. -/
theorem working_time_rules_spec (context : SchedulingContext)
    (entries : List PlanningEntryRead) (shm : List (Int × ℚ)) (v : SchedulingViolation)
    (hv : v ∈ apply_working_time_rules context entries shm) :
    (∃ rid wk, v = { code := "hours-per-week-exceeded", severity := "critical",
                     scope := "week", resource_id := some rid, iso_week := some wk } ∧
      evalWeekHoursSum shm entries rid wk >
        (context.rules.rules.working_time.max_hours_per_week : ℚ)) ∨
    (∃ rid wk, v = { code := "days-per-week-exceeded", severity := "critical",
                     scope := "week", resource_id := some rid, iso_week := some wk } ∧
      ((weekDates entries rid wk).length : Int) >
        context.rules.rules.working_time.max_working_days_per_week) ∨
    (∃ rid, v = { code := "consecutive-days-exceeded", severity := "critical",
                  scope := "resource", resource_id := some rid } ∧
      longest_consecutive_stretch ((resourceDates entries rid).insertionSort
          (fun a b => a ≤ b)) >
        context.rules.rules.working_time.max_consecutive_working_days) ∨
    (∃ rid, v = { code := "insufficient-consecutive-rest", severity := "warning",
                  scope := "resource", resource_id := some rid } ∧
      has_consecutive_days_off context.year context.month
          ((resourceDates entries rid).insertionSort (fun a b => a ≤ b))
          context.rules.rules.working_time.required_consecutive_days_off_per_month
        = false) := by
  obtain ⟨hk1, hk2, hk3, hk4, hk5⟩ := working_time_agg_keys shm entries
  unfold apply_working_time_rules at hv
  dsimp only at hv
  have h3 := mem_foldl_acc (wt_resource_step context)
    (fun v b =>
      (longest_consecutive_stretch (b.2.insertionSort (fun a b => a ≤ b)) >
          context.rules.rules.working_time.max_consecutive_working_days ∧
        v = { code := "consecutive-days-exceeded", severity := "critical",
              scope := "resource", resource_id := some b.1 }) ∨
      (has_consecutive_days_off context.year context.month
          (b.2.insertionSort (fun a b => a ≤ b))
          context.rules.rules.working_time.required_consecutive_days_off_per_month
          = false ∧
        v = { code := "insufficient-consecutive-rest", severity := "warning",
              scope := "resource", resource_id := some b.1 }))
    (fun vs b v2 hv2 => wt_resource_step_mem hv2) _ _ v hv
  rcases h3 with hv2 | ⟨b, hb, hq⟩
  · -- inside days or hours violations
    have h2 := mem_foldl_acc
      (wt_days_step context.rules.rules.working_time)
      (fun v b => ∃ wd ∈ b.2,
        ((wd.2.length : Int) > context.rules.rules.working_time.max_working_days_per_week) ∧
        v = { code := "days-per-week-exceeded", severity := "critical",
              scope := "week", resource_id := some b.1, iso_week := some wd.1 })
      (fun vs b v2 hv2 => wt_days_step_mem hv2) _ _ v hv2
    rcases h2 with hv1 | ⟨bw, hbw, wd, hwd, hgt, rfl⟩
    · have h1 := mem_foldl_acc
        (wt_hours_step context.rules.rules.working_time)
        (fun v b => ∃ wh ∈ b.2,
          (wh.2 > (context.rules.rules.working_time.max_hours_per_week : ℚ)) ∧
          v = { code := "hours-per-week-exceeded", severity := "critical",
                scope := "week", resource_id := some b.1, iso_week := some wh.1 })
        (fun vs b v2 hv2 => wt_hours_step_mem hv2) _ _ v hv1
      rcases h1 with hnil | ⟨bw, hbw, wh, hwh, hgt, rfl⟩
      · cases hnil
      · left
        refine ⟨bw.1, wh.1, rfl, ?_⟩
        have hlk1 : (working_time_agg shm entries).per_week_hours.lookup bw.1 =
            some bw.2 := lookup_eq_of_mem_nodup hk1 hbw
        have hlk2 : bw.2.lookup wh.1 = some wh.2 :=
          lookup_eq_of_mem_nodup (hk2 bw hbw) hwh
        have hchar := agg_week_hours shm entries bw.1 wh.1
        rw [hlk1, Option.getD_some, hlk2, Option.getD_some] at hchar
        rw [← hchar]
        exact hgt
    · right; left
      refine ⟨bw.1, wd.1, rfl, ?_⟩
      have hlk1 : (working_time_agg shm entries).per_week_days.lookup bw.1 =
          some bw.2 := lookup_eq_of_mem_nodup hk3 hbw
      have hlk2 : bw.2.lookup wd.1 = some wd.2 :=
        lookup_eq_of_mem_nodup (hk4 bw hbw) hwd
      have hchar := agg_week_days shm entries bw.1 wd.1
      rw [hlk1, Option.getD_some, hlk2, Option.getD_some] at hchar
      rw [← hchar]
      exact hgt
  · have hlk : (working_time_agg shm entries).resource_dates.lookup b.1 = some b.2 :=
      lookup_eq_of_mem_nodup hk5 hb
    have hchar := agg_resource_dates shm entries b.1
    rw [hlk, Option.getD_some] at hchar
    rcases hq with ⟨hgt, rfl⟩ | ⟨hrest, rfl⟩
    · right; right; left
      exact ⟨b.1, rfl, by rw [← hchar]; exact hgt⟩
    · right; right; right
      exact ⟨b.1, rfl, by rw [← hchar]; exact hrest⟩

/-- C10: for every resource and date, `_is_available` reports available
whenever the availability template has no entry for the date's weekday — in
particular an empty template means available on every day, still subject to
absence windows via `_resource_available_on_day` — and the check is total
for templates of any length (the statement quantifies over arbitrary
templates; no seven-entry validation exists). -/
theorem c10_availability_default (resource : SchedulingResource) (day : Date)
    (h : ∀ w ∈ resource.availability,
      w.day ≠ weekdayNames.getD (weekdayIdx day).toNat "") :
    is_available resource day = true ∧
    resource_available_on_day resource day = !(get_absence resource day).isSome := by
  have hfind : resource.availability.find?
      (fun w => w.day == weekdayNames.getD (weekdayIdx day).toNat "") = none := by
    apply List.find?_eq_none.mpr
    intro w hw
    simpa using h w hw
  have hia : is_available resource day = true := by
    simp only [is_available]
    rw [hfind]
  refine ⟨hia, ?_⟩
  unfold resource_available_on_day
  by_cases habs : (get_absence resource day).isSome
  · simp [habs]
  · simp [habs, hia]

/-- Witness for `c10_availability_default` at a concrete resource with an
empty availability template and day 0 (1970-01-01). -/
theorem c10_availability_default_witness :
    is_available resRotation 0 = true ∧
    resource_available_on_day resRotation 0 = !(get_absence resRotation 0).isSome :=
  c10_availability_default resRotation 0 (by intro w hw; simp [resRotation] at hw)

/-- C2 (counterexample): the `SchedulingResult` dataclass of
`services/scheduler.py` declares only the fields `entries` and `violations`;
the fields `engine`, `status`, `duration_ms` and `meta` asserted by the
claim do not exist on the record the heuristic returns, so no returned
value has `engine = "heuristic"` or `status = "success"`. -/
theorem c2_counterexample :
    "engine" ∉ schedulingResultFieldNames ∧ "status" ∉ schedulingResultFieldNames ∧
    "duration_ms" ∉ schedulingResultFieldNames ∧ "meta" ∉ schedulingResultFieldNames := by
  decide

/-- C2 (amended): `generate_rule_compliant_schedule` (the `run_heuristic`
entry point) returns the `SchedulingResult` produced by
`generate_stub_schedule`, a record whose only fields are `entries` and
`violations`. -/
theorem c2_result_shape (context : SchedulingContext) :
    generate_rule_compliant_schedule context = generate_stub_schedule context ∧
    schedulingResultFieldNames = ["entries", "violations"] :=
  ⟨rfl, rfl⟩

/-- C4 (counterexample): with an empty resource list (and a non-empty month
and catalog) the heuristic returns early with an *empty* violations list —
the `empty-schedule` warning the claim asserts is not attached. -/
theorem c4_counterexample :
    (generate_stub_schedule ctxEmptyResources).entries = [] ∧
    (generate_stub_schedule ctxEmptyResources).violations = [] := by
  with_unfolding_all decide

/-- C4 (amended): for an empty resource list the heuristic returns empty
entries *and empty violations* (the early return skips the evaluator); the
`empty-schedule` warning with schedule scope is produced only by
`evaluate_rule_violations` itself when invoked on an empty entries list. -/
theorem c4_empty_resources (context : SchedulingContext)
    (h : context.resources = []) :
    generate_stub_schedule context = { entries := [], violations := [] } ∧
    evaluate_rule_violations context [] =
      [{ code := "empty-schedule", severity := "warning", scope := "schedule" }] := by
  exact ⟨by simp [generate_stub_schedule, h], rfl⟩

/-- Witness for `c4_empty_resources` at the concrete empty-roster context. -/
theorem c4_empty_resources_witness :
    generate_stub_schedule ctxEmptyResources = { entries := [], violations := [] } ∧
    evaluate_rule_violations ctxEmptyResources [] =
      [{ code := "empty-schedule", severity := "warning", scope := "schedule" }] :=
  c4_empty_resources ctxEmptyResources rfl

set_option maxRecDepth 100000 in
/-- C1 (counterexample): in a context with `max_hours_per_week = 0` the
Python guard `if working_rules.max_hours_per_week and …` is skipped (0 is
falsy), the heuristic assigns 9.25h shifts, the weekly sum exceeds the cap
(`9.25 > 0`), and the heuristic's own output carries an
`hours-per-week-exceeded` violation — all contrary to the claim, which
quantifies over every context. -/
theorem c1_counterexample :
    ((generate_stub_schedule ctxHoursCapZero).violations.map (fun v => v.code)).contains
        "hours-per-week-exceeded" = true ∧
    weekHoursSum (buildShiftHours ctxHoursCapZero.shifts)
        (generate_stub_schedule ctxHoursCapZero).entries 1
        (isoWeekMonday (daysFromCivil 2023 2 1)) >
      (ctxHoursCapZero.rules.rules.working_time.max_hours_per_week : ℚ) := by
  with_unfolding_all decide

set_option maxRecDepth 100000 in
/-- C3 (counterexample): when the catalog contains no role-allowed shift for
a role, `_select_shift_for_resource` falls back to the full catalog
(`if not candidates: candidates = list(shifts)`): an apprentice (allowed
codes `{1}`) is assigned shift code 8. -/
theorem c3_counterexample :
    ROLE_ALLOWED_SHIFT_CODES.lookup "apprentice" = some [1] ∧
    (8 : Int) ∉ ([1] : List Int) ∧
    (generate_stub_schedule ctxApprentice).entries.all (fun e => e.resource_id == 1) = true ∧
    ((generate_stub_schedule ctxApprentice).entries.map (fun e => e.shift_code)).contains
        (some 8) = true := by
  with_unfolding_all decide

set_option maxRecDepth 100000 in
/-- C8 (counterexample): with 3 resources and `minimum_daily_staff = 1` the
deficit pass fills up to `min(len(resources), max(min_staff, daily_target)
+ 1) = min(3, 3) = 3` staff, exceeding the claim's bound
`min(len(resources), minimum_daily_staff + 1) = 2`: the first of February
2023 receives 3 assignments. -/
theorem c8_counterexample :
    ((generate_stub_schedule ctxDeficit).entries.filter
        (fun e => e.date == daysFromCivil 2023 2 1)).length = 3 ∧
    ctxDeficit.resources.length = 3 ∧
    ctxDeficit.rules.rules.shift_rules.minimum_daily_staff = 1 := by
  with_unfolding_all decide

set_option maxRecDepth 100000 in
/-- C9 (counterexample): the rotation index `resource.id % len(candidates)`
runs over the *entire* `(score, idx)`-sorted candidate list, not only the
best-scored ties: for a fully available resource with id 1 in February 2023
the selected window `[Feb 13, Feb 14]` is the candidate with score 1 while
a score-0 candidate (`[Feb 14, Feb 15]`) exists. -/
theorem c9_counterexample :
    select_rest_window resRotation (monthDaysList 2023 2) 2 =
      [daysFromCivil 2023 2 13, daysFromCivil 2023 2 14] ∧
    ((1 : ℚ), (12 : Int), [daysFromCivil 2023 2 13, daysFromCivil 2023 2 14]) ∈
      rest_window_candidates resRotation (monthDaysList 2023 2) 2 ∧
    ((0 : ℚ), (13 : Int), [daysFromCivil 2023 2 14, daysFromCivil 2023 2 15]) ∈
      rest_window_candidates resRotation (monthDaysList 2023 2) 2 := by
  with_unfolding_all decide

/-- Every candidate built by `_select_rest_window` is a fully-available
window of exactly the required length. -/
theorem rest_window_candidates_spec {resource : SchedulingResource}
    {month_days : List Date} {required : Int} {c : ℚ × Int × List Date}
    (hc : c ∈ rest_window_candidates resource month_days required) :
    c.2.2.length = required.toNat ∧
    ∀ day ∈ c.2.2, resource_available_on_day resource day = true := by
  unfold rest_window_candidates at hc
  rw [List.mem_filterMap] at hc
  obtain ⟨idx, hidxmem, hsome⟩ := hc
  rw [List.mem_map] at hidxmem
  obtain ⟨i, hirange, rfl⟩ := hidxmem
  rw [List.mem_range] at hirange
  dsimp only at hsome
  by_cases hall : ((month_days.drop (Int.ofNat i).toNat).take required.toNat).all
      (fun day => resource_available_on_day resource day) = true
  · rw [if_pos hall] at hsome
    have hceq := Option.some.inj hsome
    subst hceq
    dsimp only
    constructor
    · rw [List.length_take, List.length_drop, show (Int.ofNat i).toNat = i from rfl]
      omega
    · intro day hday
      exact List.all_eq_true.mp hall day hday
  · rw [if_neg hall] at hsome
    exact absurd hsome (by simp)

/-- C9 (amended): whenever the mandatory-rest pre-pass selects a non-empty
forced-rest window, that window is one of the `candidate_windows` — a
window of exactly the required length on every day of which the resource is
available, scored by distance from mid-month plus an edge penalty.  The
rotation `resource.id % len(candidate_windows)`, however, indexes the whole
`(score, idx)`-sorted candidate list, so the selected window need not have
the best score (see the counterexample). -/
theorem c9_rest_window (resource : SchedulingResource) (month_days : List Date)
    (required : Int)
    (h : select_rest_window resource month_days required ≠ []) :
    (∃ score idx, (score, idx, select_rest_window resource month_days required) ∈
        rest_window_candidates resource month_days required) ∧
    (select_rest_window resource month_days required).length = required.toNat ∧
    ∀ day ∈ select_rest_window resource month_days required,
      resource_available_on_day resource day = true := by
  unfold select_rest_window at h ⊢
  by_cases htot : (month_days.length : Int) < required
  · simp [htot] at h
  · rw [if_neg htot] at h ⊢
    rcases hcand : rest_window_candidates resource month_days required with _ | ⟨w, ws⟩
    · rw [hcand] at h; simp at h
    · dsimp only at h ⊢
      have hmem : ((w :: ws).insertionSort
            (fun a b => a.1 < b.1 ∨ (a.1 = b.1 ∧ a.2.1 ≤ b.2.1))).getD
            (resource.id.emod (w :: ws).length).toNat w ∈ (w :: ws) := by
        set sorted := (w :: ws).insertionSort
          (fun a b => a.1 < b.1 ∨ (a.1 = b.1 ∧ a.2.1 ≤ b.2.1)) with hsorted
        set k := (resource.id.emod (w :: ws).length).toNat with hk
        rcases hlt : sorted[k]? with _ | x
        · have heq : sorted.getD k w = w := by
            rw [List.getD_eq_getElem?_getD, hlt]; rfl
          rw [heq]; exact List.mem_cons_self _ _
        · have hx : sorted.getD k w = x := by
            rw [List.getD_eq_getElem?_getD, hlt]; rfl
          rw [hx]
          have hxs : x ∈ sorted := List.getElem?_mem hlt
          exact (List.perm_insertionSort _ _).mem_iff.mp hxs
      have hmemR : ((w :: ws).insertionSort
            (fun a b => a.1 < b.1 ∨ (a.1 = b.1 ∧ a.2.1 ≤ b.2.1))).getD
            (resource.id.emod (w :: ws).length).toNat w ∈
          rest_window_candidates resource month_days required := by
        rw [hcand]; exact hmem
      have hspec := rest_window_candidates_spec hmemR
      revert hspec hmem
      generalize ((w :: ws).insertionSort
          (fun a b => a.1 < b.1 ∨ (a.1 = b.1 ∧ a.2.1 ≤ b.2.1))).getD
          (resource.id.emod (w :: ws).length).toNat w = e
      intro hmem hspec
      obtain ⟨s0, i0, win0⟩ := e
      exact ⟨⟨s0, i0, hmem⟩, hspec.1, hspec.2⟩

set_option maxRecDepth 100000 in
/-- Witness for `c9_rest_window` at a fully available resource in February
2023 with the default rest length 2. -/
theorem c9_rest_window_witness :
    (∃ score idx, (score, idx, select_rest_window resRotation (monthDaysList 2023 2) 2) ∈
        rest_window_candidates resRotation (monthDaysList 2023 2) 2) ∧
    (select_rest_window resRotation (monthDaysList 2023 2) 2).length = (2 : Int).toNat ∧
    ∀ day ∈ select_rest_window resRotation (monthDaysList 2023 2) 2,
      resource_available_on_day resRotation day = true :=
  c9_rest_window resRotation (monthDaysList 2023 2) 2 (by with_unfolding_all decide)

/-- C7 (amended): the Rule Evaluator emits `days-per-week-exceeded` only
when the number of distinct dates of *all* of a resource's entries in an ISO
week exceeds `max_working_days_per_week`, and `consecutive-days-exceeded`
only when the longest run of consecutive dates over all of the resource's
entries exceeds `max_consecutive_working_days`; entries recording an
absence (null shift code) DO count as worked dates for both checks (see the
counterexample refuting the claim's last clause; the hours sums, by
contrast, charge null shift codes 0 hours unless catalog code 0 exists). -/
theorem c7_worked_dates (context : SchedulingContext)
    (entries : List PlanningEntryRead) (v : SchedulingViolation)
    (hv : v ∈ evaluate_rule_violations context entries) :
    (v.code = "days-per-week-exceeded" →
      ∃ rid wk, v.resource_id = some rid ∧ v.iso_week = some wk ∧
        ((weekDates entries rid wk).length : Int) >
          context.rules.rules.working_time.max_working_days_per_week) ∧
    (v.code = "consecutive-days-exceeded" →
      ∃ rid, v.resource_id = some rid ∧
        longest_consecutive_stretch ((resourceDates entries rid).insertionSort
            (fun a b => a ≤ b)) >
          context.rules.rules.working_time.max_consecutive_working_days) := by
  unfold evaluate_rule_violations at hv
  by_cases hemp : entries.isEmpty
  · rw [if_pos hemp] at hv
    have hveq := List.mem_singleton.mp hv
    subst hveq
    constructor <;> intro hc <;> exact absurd hc (by decide)
  · rw [if_neg hemp] at hv
    dsimp only at hv
    rcases List.mem_append.mp hv with h | h
    · have hcodes := staffing_rules_codes h
      constructor <;> intro hc <;>
        rcases hcodes with h2 | h2 | h2 <;>
        exact absurd (hc.symm.trans h2) (by decide)
    · have hspec := working_time_rules_spec context entries _ v h
      constructor
      · intro hc
        rcases hspec with ⟨rid, wk, rfl, hgt⟩ | ⟨rid, wk, rfl, hgt⟩ |
          ⟨rid, rfl, hgt⟩ | ⟨rid, rfl, hgt⟩
        · simp at hc
        · exact ⟨rid, wk, rfl, rfl, hgt⟩
        · simp at hc
        · simp at hc
      · intro hc
        rcases hspec with ⟨rid, wk, rfl, hgt⟩ | ⟨rid, wk, rfl, hgt⟩ |
          ⟨rid, rfl, hgt⟩ | ⟨rid, rfl, hgt⟩
        · simp at hc
        · simp at hc
        · exact ⟨rid, rfl, hgt⟩
        · simp at hc

set_option maxRecDepth 100000 in
/-- Witness for `c7_worked_dates` at the concrete days-per-week violation
emitted for the two absence entries. -/
theorem c7_worked_dates_witness :
    (violAbsenceDays.code = "days-per-week-exceeded" →
      ∃ rid wk, violAbsenceDays.resource_id = some rid ∧
        violAbsenceDays.iso_week = some wk ∧
        ((weekDates entriesAbsence rid wk).length : Int) >
          ctxAbsenceCaps.rules.rules.working_time.max_working_days_per_week) ∧
    (violAbsenceDays.code = "consecutive-days-exceeded" →
      ∃ rid, violAbsenceDays.resource_id = some rid ∧
        longest_consecutive_stretch ((resourceDates entriesAbsence rid).insertionSort
            (fun a b => a ≤ b)) >
          ctxAbsenceCaps.rules.rules.working_time.max_consecutive_working_days) :=
  c7_worked_dates ctxAbsenceCaps entriesAbsence violAbsenceDays
    (by with_unfolding_all exact List.Mem.head _)

set_option maxRecDepth 100000 in
/-- C7 (counterexample): the evaluator's weekly-days and consecutive-days
checks count *every* entry's date, including pure absence entries with
`shift_code = None` (`_apply_working_time_rules` never filters on
`shift_code`/`absence_type`): two vacation entries alone trigger both
`days-per-week-exceeded` and `consecutive-days-exceeded`. -/
theorem c7_counterexample :
    entriesAbsence.all (fun e => e.shift_code == none) = true ∧
    ((evaluate_rule_violations ctxAbsenceCaps entriesAbsence).map (fun v => v.code)).contains
        "days-per-week-exceeded" = true ∧
    ((evaluate_rule_violations ctxAbsenceCaps entriesAbsence).map (fun v => v.code)).contains
        "consecutive-days-exceeded" = true := by
  with_unfolding_all decide


/-- `entryRelaxLE` is reflexive. -/
theorem entryRelaxLE_refl (sh : List (Int × ℚ)) (e : PlanningEntryRead) :
    entryRelaxLE sh e e := Or.inl rfl

/-- `entryRelaxLE` is transitive. -/
theorem entryRelaxLE_trans (sh : List (Int × ℚ)) {a b c : PlanningEntryRead}
    (h1 : entryRelaxLE sh a b) (h2 : entryRelaxLE sh b c) : entryRelaxLE sh a c := by
  rcases h1 with rfl | ⟨hr1, hd1, hl1⟩
  · exact h2
  · rcases h2 with rfl | ⟨hr2, hd2, hl2⟩
    · exact Or.inr ⟨hr1, hd1, hl1⟩
    · exact Or.inr ⟨hr1.trans hr2, hd1.trans hd2, hl1.trans hl2⟩

/-- Pointwise reflexivity of the relaxation relation on lists. -/
theorem forall2_relax_refl (sh : List (Int × ℚ)) :
    ∀ l : List PlanningEntryRead, List.Forall₂ (entryRelaxLE sh) l l
  | [] => List.Forall₂.nil
  | e :: rest => List.Forall₂.cons (entryRelaxLE_refl sh e) (forall2_relax_refl sh rest)

/-- Pointwise transitivity of the relaxation relation on lists. -/
theorem forall2_relax_trans (sh : List (Int × ℚ)) {a b c : List PlanningEntryRead}
    (hab : List.Forall₂ (entryRelaxLE sh) a b)
    (hbc : List.Forall₂ (entryRelaxLE sh) b c) :
    List.Forall₂ (entryRelaxLE sh) a c := by
  induction hab generalizing c with
  | nil => cases hbc; exact List.Forall₂.nil
  | cons hr hrest ih =>
    cases hbc with
    | cons hr2 hrest2 => exact List.Forall₂.cons (entryRelaxLE_trans sh hr hr2) (ih hrest2)

/-- Writing a related entry at one position keeps the lists pointwise related. -/
theorem forall2_relax_set (sh : List (Int × ℚ)) :
    ∀ (l : List PlanningEntryRead) (i : Nat) (x : PlanningEntryRead),
      (∀ a, l.get? i = some a → entryRelaxLE sh x a) →
      List.Forall₂ (entryRelaxLE sh) (l.set i x) l
  | [], _, _, _ => List.Forall₂.nil
  | hd :: tl, 0, _, h =>
      List.Forall₂.cons (h hd rfl) (forall2_relax_refl sh tl)
  | hd :: tl, n + 1, x, h =>
      List.Forall₂.cons (entryRelaxLE_refl sh hd)
        (forall2_relax_set sh tl n x (fun a ha => h a ha))

/-- `_mark_conversion` returns a list pointwise related to its input: at most
one entry changes, keeping its resource and date and strictly lowering its
catalog hours. -/
theorem mark_conversion_relax (sh : List (Int × ℚ)) (entries : List PlanningEntryRead)
    (idx : Nat) (pc : Int) :
    List.Forall₂ (entryRelaxLE sh) (mark_conversion sh entries idx pc).1 entries := by
  unfold mark_conversion
  rcases hget : entries.get? idx with _ | entry
  · exact forall2_relax_refl sh entries
  · dsimp only
    split
    · exact forall2_relax_refl sh entries
    · split
      · exact forall2_relax_refl sh entries
      · rename_i hble
        dsimp only
        apply forall2_relax_set
        intro a ha
        rw [hget] at ha
        obtain rfl : entry = a := Option.some.inj ha
        refine Or.inr ⟨rfl, rfl, ?_⟩
        rcases hpc : sh.lookup pc with _ | p
        · rw [hpc] at hble
          exact absurd (le_refl _) hble
        · rw [hpc] at hble
          have hlt : p < (entry.shift_code.bind (fun c => sh.lookup c)).getD 0 :=
            not_le.mp hble
          show ((some pc).bind (fun c => sh.lookup c)).getD 0 <
            (entry.shift_code.bind (fun c => sh.lookup c)).getD 0
          rw [show ((some pc).bind (fun c => sh.lookup c)) = sh.lookup pc from rfl, hpc]
          exact hlt

/-- The weekly inner conversion loop only rewrites entries `_mark_conversion`-style. -/
theorem weekly_relax_inner_relax (sh : List (Int × ℚ)) (wl : Int) (key : Int × Date)
    (opts : List (ℚ × Nat × Int)) :
    ∀ (st : RelaxState) (total : ℚ),
      List.Forall₂ (entryRelaxLE sh)
        ((weekly_relax_inner sh wl key opts st total).entries) st.entries := by
  induction opts with
  | nil =>
    intro st total
    rw [weekly_relax_inner]
    exact forall2_relax_refl sh st.entries
  | cons o rest ih =>
    obtain ⟨d, idx, pc⟩ := o
    intro st total
    rw [weekly_relax_inner]
    split
    · exact forall2_relax_refl sh st.entries
    · dsimp only
      split
      · exact forall2_relax_trans sh (ih _ _) (mark_conversion_relax sh st.entries idx pc)
      · exact forall2_relax_trans sh (ih _ _) (mark_conversion_relax sh st.entries idx pc)

/-- The monthly inner conversion loop only rewrites entries `_mark_conversion`-style. -/
theorem monthly_relax_inner_relax (sh : List (Int × ℚ)) (tl : ℚ) (rid : Int)
    (opts : List (ℚ × Nat × Int)) :
    ∀ (st : RelaxState) (total : ℚ),
      List.Forall₂ (entryRelaxLE sh)
        ((monthly_relax_inner sh tl rid opts st total).entries) st.entries := by
  induction opts with
  | nil =>
    intro st total
    rw [monthly_relax_inner]
    exact forall2_relax_refl sh st.entries
  | cons o rest ih =>
    obtain ⟨d, idx, pc⟩ := o
    intro st total
    rw [monthly_relax_inner]
    split
    · exact forall2_relax_refl sh st.entries
    · dsimp only
      split
      · exact forall2_relax_trans sh (ih _ _) (mark_conversion_relax sh st.entries idx pc)
      · exact forall2_relax_trans sh (ih _ _) (mark_conversion_relax sh st.entries idx pc)

/-- The weekly pass only rewrites entries `_mark_conversion`-style. -/
theorem weekly_relax_pass_relax (sh : List (Int × ℚ)) (wl : Int)
    (cands : List ((Int × Date) × List (ℚ × Nat × Int))) :
    ∀ st : RelaxState,
      List.Forall₂ (entryRelaxLE sh)
        ((weekly_relax_pass sh wl cands st).entries) st.entries := by
  induction cands with
  | nil =>
    intro st
    unfold weekly_relax_pass
    rw [List.foldl_nil]
    exact forall2_relax_refl sh st.entries
  | cons kv rest ih =>
    intro st
    unfold weekly_relax_pass at ih ⊢
    rw [List.foldl_cons]
    refine forall2_relax_trans sh (ih _) ?_
    dsimp only
    split
    · exact forall2_relax_refl sh st.entries
    · exact weekly_relax_inner_relax sh wl kv.1 _ st _

/-- The monthly pass only rewrites entries `_mark_conversion`-style. -/
theorem monthly_relax_pass_relax (sh : List (Int × ℚ))
    (rl : List (Int × SchedulingResource))
    (cands : List (Int × List (ℚ × Nat × Int))) :
    ∀ st : RelaxState,
      List.Forall₂ (entryRelaxLE sh)
        ((monthly_relax_pass sh rl cands st).entries) st.entries := by
  induction cands with
  | nil =>
    intro st
    unfold monthly_relax_pass
    rw [List.foldl_nil]
    exact forall2_relax_refl sh st.entries
  | cons kv rest ih =>
    intro st
    unfold monthly_relax_pass at ih ⊢
    rw [List.foldl_cons]
    refine forall2_relax_trans sh (ih _) ?_
    dsimp only
    split
    · exact forall2_relax_refl sh st.entries
    · split
      · exact forall2_relax_refl sh st.entries
      · exact monthly_relax_inner_relax sh _ kv.1 _ st _

/-- `apply_prime_shift_relaxation` only rewrites entries `_mark_conversion`-style:
each output entry is the input entry at the same position, or a conversion with
the same resource and date and strictly fewer catalog hours. -/
theorem apply_prime_shift_relaxation_relax (context : SchedulingContext)
    (entries : List PlanningEntryRead) :
    List.Forall₂ (entryRelaxLE (buildShiftHours context.shifts))
      (apply_prime_shift_relaxation context entries) entries := by
  unfold apply_prime_shift_relaxation
  dsimp only
  split
  · exact forall2_relax_refl _ entries
  · split
    · exact forall2_relax_refl _ entries
    · split
      · exact forall2_relax_refl _ entries
      · exact forall2_relax_trans _
          (monthly_relax_pass_relax _ _ _ _)
          (weekly_relax_pass_relax _ _ _ _)

/-- Filter-respecting summation bound: pointwise-related lists have pointwise
dominated filtered hour sums, for any predicate the relation preserves. -/
theorem relax_filter_sum_le (sh : List (Int × ℚ)) (p : PlanningEntryRead → Bool)
    (hp : ∀ e' e, entryRelaxLE sh e' e → p e' = p e)
    {l' l : List PlanningEntryRead}
    (h : List.Forall₂ (entryRelaxLE sh) l' l) :
    ((l'.filter p).map (entryHours sh)).sum ≤ ((l.filter p).map (entryHours sh)).sum := by
  induction h with
  | nil => exact le_refl _
  | cons hr hrest ih =>
    rename_i a b as bs
    have hpe : p a = p b := hp a b hr
    have hab : entryHours sh a ≤ entryHours sh b := by
      rcases hr with rfl | ⟨_, _, hlt⟩
      · exact le_refl _
      · exact le_of_lt hlt
    by_cases hb : p b = true
    · rw [List.filter_cons_of_pos (p := p) (hpe.trans hb),
        List.filter_cons_of_pos (p := p) hb, List.map_cons, List.map_cons,
        List.sum_cons, List.sum_cons]
      exact add_le_add hab ih
    · rw [List.filter_cons_of_neg (p := p) (fun hc => hb (hpe.symm.trans hc)),
        List.filter_cons_of_neg (p := p) hb]
      exact ih

/-- C5: Prime-Shift Relaxation never raises hours — each output entry is the
input entry at the same position or a conversion keeping its resource and date
with strictly fewer catalog hours, and consequently every resource's weekly
and monthly catalog-hour totals are never increased. -/
theorem c5_relaxation_never_raises (context : SchedulingContext)
    (entries : List PlanningEntryRead) :
    List.Forall₂ (entryRelaxLE (buildShiftHours context.shifts))
      (apply_prime_shift_relaxation context entries) entries ∧
    (∀ rid wk, weekHoursSum (buildShiftHours context.shifts)
        (apply_prime_shift_relaxation context entries) rid wk ≤
      weekHoursSum (buildShiftHours context.shifts) entries rid wk) ∧
    (∀ rid, monthHoursSum (buildShiftHours context.shifts)
        (apply_prime_shift_relaxation context entries) rid ≤
      monthHoursSum (buildShiftHours context.shifts) entries rid) := by
  have hrel := apply_prime_shift_relaxation_relax context entries
  refine ⟨hrel, fun rid wk => ?_, fun rid => ?_⟩
  · unfold weekHoursSum
    refine relax_filter_sum_le _ _ ?_ hrel
    intro e' e hre
    rcases hre with rfl | ⟨hr, hd, _⟩
    · rfl
    · rw [hr, hd]
  · unfold monthHoursSum
    refine relax_filter_sum_le _ _ ?_ hrel
    intro e' e hre
    rcases hre with rfl | ⟨hr, _, _⟩
    · rfl
    · rw [hr]

/-- Option-accumulator extraction for best-candidate folds: a `some` result is
the untouched initial accumulator or satisfies `P` at some list element. -/
theorem foldl_opt_acc {α γ : Type} (step : Option γ → α → Option γ) (P : γ → α → Prop)
    (hstep : ∀ acc b x, step acc b = some x → acc = some x ∨ P x b) :
    ∀ (l : List α) (acc : Option γ) (x : γ), l.foldl step acc = some x →
      acc = some x ∨ ∃ b ∈ l, P x b := by
  intro l
  induction l with
  | nil => intro acc x h; exact Or.inl h
  | cons b rest ih =>
    intro acc x h
    rcases ih (step acc b) x h with h2 | h2
    · rcases hstep acc b x h2 with h3 | h3
      · exact Or.inl h3
      · exact Or.inr ⟨b, List.mem_cons_self _ _, h3⟩
    · obtain ⟨b2, hb2, hp⟩ := h2
      exact Or.inr ⟨b2, List.mem_cons_of_mem _ hb2, hp⟩

/-- One `_select_candidate` iteration keeps the accumulator or installs the
scanned option. -/
theorem select_candidate_step_mem (p : HeuristicParams) (iso_key : Date) (ds : DayState)
    (acc : Option ((ResourceScheduleState × SchedulingShift) × ℚ))
    (b : ResourceScheduleState × SchedulingShift)
    (x : (ResourceScheduleState × SchedulingShift) × ℚ)
    (h : select_candidate_step p iso_key ds acc b = some x) :
    acc = some x ∨ x.1 = b := by
  unfold select_candidate_step at h
  rcases acc with _ | ⟨po, ps⟩
  · exact Or.inr (congrArg Prod.fst (Option.some.inj h).symm)
  · dsimp only at h
    split at h
    · exact Or.inr (congrArg Prod.fst (Option.some.inj h).symm)
    · exact Or.inl h

/-- `_select_candidate` only returns one of its options. -/
theorem select_candidate_mem (p : HeuristicParams) (iso_key : Date) (ds : DayState)
    (options : List (ResourceScheduleState × SchedulingShift))
    {o : ResourceScheduleState × SchedulingShift}
    (h : select_candidate p iso_key ds options = some o) : o ∈ options := by
  unfold select_candidate at h
  rcases Option.map_eq_some'.mp h with ⟨x, hx, hxo⟩
  have hkey := foldl_opt_acc (select_candidate_step p iso_key ds)
    (fun (x : (ResourceScheduleState × SchedulingShift) × ℚ) b => x.1 = b)
    (select_candidate_step_mem p iso_key ds)
    options none x hx
  rcases hkey with h2 | ⟨b, hb, hxb⟩
  · exact absurd h2 (by simp)
  · rw [← hxo, hxb]
    exact hb

/-- The deficit-pass loop never raises the day's assignment count above
`max(initial, max_daily_staff)`: its `while` guard re-checks the count before
every assignment. -/
theorem deficit_loop_bound (p : HeuristicParams) (cd ik : Date) (mds : Int) :
    ∀ (fuel : Nat) (ds : DayState),
      ((deficit_loop p cd ik mds fuel ds).assigned_today.length : Int) ≤
        max (ds.assigned_today.length : Int) mds := by
  intro fuel
  induction fuel with
  | zero =>
    intro ds
    rw [deficit_loop]
    exact le_max_left _ _
  | succ n ih =>
    intro ds
    rw [deficit_loop]
    split
    · rename_i hlt
      dsimp only
      split
      · exact le_max_left _ _
      · split
        · exact le_max_left _ _
        · rename_i st sh heq
          refine le_trans (ih _) ?_
          have hlen : (assignEntry cd ik ds st sh).assigned_today.length =
              ds.assigned_today.length + 1 := by
            simp [assignEntry]
          rw [hlen]
          push_cast
          omega
    · exact le_max_left _ _

/-- C8 (amended): the deficit pass's `while` guard bounds the day's assignment
count by `max(initial, max_daily_staff)` — where `process_day` passes
`max_daily_staff = min(len(resource_states), max(minimum_daily_staff,
daily_target) + 1)`, not `min(len(resources), minimum_daily_staff + 1)` — and
any candidate it selects has monthly deficit `target_hours - monthly_hours > 4`
and a role whose maximum is not yet reached.  The earlier role-minimum and
fill passes are not subject to this bound, so a day can carry more than
`min(len(resources), minimum_daily_staff + 1)` assignments (see the
counterexample). -/
theorem c8_deficit_pass (p : HeuristicParams) (current_day iso_key : Date)
    (mds : Int) (fuel : Nat) (ds : DayState) :
    ((deficit_loop p current_day iso_key mds fuel ds).assigned_today.length : Int) ≤
      max (ds.assigned_today.length : Int) mds ∧
    (∀ st sh,
      select_candidate p iso_key ds
          ((eligible_states p current_day iso_key ds none true false).filter
            (fun option => has_deficit option.1 && role_can_accept p ds option.1)) =
          some (st, sh) →
      has_deficit st = true ∧ role_can_accept p ds st = true) := by
  constructor
  · exact deficit_loop_bound p current_day iso_key mds fuel ds
  · intro st sh hsel
    have hmem := select_candidate_mem p iso_key ds _ hsel
    have hand : (has_deficit st && role_can_accept p ds st) = true :=
      (List.mem_filter.mp hmem).2
    rcases Bool.and_eq_true_iff.mp hand with ⟨h1, h2⟩
    exact ⟨h1, h2⟩

/-- Every shift in the selection pool comes from the (possibly fallen-back)
candidate list. -/
theorem shiftPool_subset (resource : SchedulingResource)
    (shifts : List SchedulingShift) (allowed_codes : Option (List Int))
    (preferred_sequence : Option (List Int)) {sh : SchedulingShift}
    (h : sh ∈ shiftPool resource shifts allowed_codes preferred_sequence) :
    sh ∈ shiftCandidates1 shifts (allowedSetOf allowed_codes) := by
  unfold shiftPool at h
  rcases preferred_sequence with _ | seq
  · dsimp only at h
    split at h
    · exact List.mem_of_mem_filter (List.mem_of_mem_filter h)
    · split at h
      · exact List.mem_of_mem_filter h
      · exact h
  · dsimp only at h
    split at h
    · exact List.mem_of_mem_filter (List.mem_of_mem_filter
        ((List.perm_insertionSort _ _).mem_iff.mp h))
    · split at h
      · exact List.mem_of_mem_filter ((List.perm_insertionSort _ _).mem_iff.mp h)
      · exact (List.perm_insertionSort _ _).mem_iff.mp h

/-- The candidate list is always a member-wise subset of the catalog. -/
theorem shiftCandidates1_subset (shifts : List SchedulingShift)
    (aset : Option (List Int)) {sh : SchedulingShift}
    (h : sh ∈ shiftCandidates1 shifts aset) : sh ∈ shifts := by
  unfold shiftCandidates1 at h
  dsimp only at h
  split at h
  · exact h
  · exact List.mem_of_mem_filter h

/-- Any shift returned by `_select_shift_for_resource` lies in the pool. -/
theorem select_shift_mem_pool (resource : SchedulingResource)
    (shifts : List SchedulingShift) (ai : Int)
    (allowed : Option (List Int)) (pref : Option (List Int))
    {sh : SchedulingShift}
    (h : select_shift_for_resource resource shifts ai allowed pref = some sh) :
    sh ∈ shiftPool resource shifts allowed pref := by
  unfold select_shift_for_resource at h
  split at h
  · cases h
  · rcases hpool : shiftPool resource shifts allowed pref with _ | ⟨pp, pps⟩
    · rw [hpool] at h
      cases h
    · rw [hpool] at h
      have hsh := Option.some.inj h
      rcases hget : (pp :: pps)[(ai.emod (pp :: pps).length).toNat]? with _ | x
      · have hgd : (pp :: pps).getD (ai.emod (pp :: pps).length).toNat pp = pp := by
          rw [List.getD_eq_getElem?_getD, hget]; rfl
        rw [hgd] at hsh
        rw [← hsh]
        exact List.mem_cons_self _ _
      · have hgd : (pp :: pps).getD (ai.emod (pp :: pps).length).toNat pp = x := by
          rw [List.getD_eq_getElem?_getD, hget]; rfl
        rw [hgd] at hsh
        rw [← hsh]
        exact List.getElem?_mem hget

/-- Any shift returned by `_select_shift_for_resource` is a catalog shift. -/
theorem select_shift_mem (resource : SchedulingResource)
    (shifts : List SchedulingShift) (ai : Int)
    (allowed : Option (List Int)) (pref : Option (List Int))
    {sh : SchedulingShift}
    (h : select_shift_for_resource resource shifts ai allowed pref = some sh) :
    sh ∈ shifts :=
  shiftCandidates1_subset shifts _
    (shiftPool_subset resource shifts allowed pref (select_shift_mem_pool _ _ _ _ _ h))

/-- When the allowed-code set is non-empty and matches at least one catalog
shift, `_select_shift_for_resource` never falls back to the whole catalog:
the returned shift carries an allowed code. -/
theorem select_shift_allowed (resource : SchedulingResource)
    (shifts : List SchedulingShift) (ai : Int) (s : List Int)
    (pref : Option (List Int)) {sh : SchedulingShift}
    (hs : s.isEmpty = false)
    (hne : (shifts.filter (fun sh2 => s.contains sh2.code)).isEmpty = false)
    (h : select_shift_for_resource resource shifts ai (some s) pref = some sh) :
    s.contains sh.code = true := by
  have hmem := shiftPool_subset resource shifts (some s) pref
    (select_shift_mem_pool _ _ _ _ _ h)
  have haset : allowedSetOf (some s) = some s := by
    rw [show allowedSetOf (some s) = if s.isEmpty then none else some s from rfl, hs]
    rfl
  rw [haset] at hmem
  unfold shiftCandidates1 at hmem
  have hwithin : within_allowed (some s) = (fun sh2 => s.contains sh2.code) := rfl
  dsimp only at hmem
  rw [hwithin, hne] at hmem
  simp only [Bool.false_eq_true, if_false] at hmem
  exact (List.mem_filter.mp hmem).2

/-- Extraction of all the `_eligible_states` guards: an option `(st, sh)` comes
from a tracked state that is unassigned today, available, not in forced rest,
whose shift was chosen by `_select_shift_for_resource` from the role-allowed
codes, and which passes the hard weekly-cap check. -/
theorem eligible_states_mem (p : HeuristicParams) (cd ik : Date) (ds : DayState)
    (tr : Option String) (aep aot : Bool)
    {st : ResourceScheduleState} {sh : SchedulingShift}
    (h : (st, sh) ∈ eligible_states p cd ik ds tr aep aot) :
    st ∈ ds.states.map Prod.snd ∧
    ds.assigned_today.contains st.resource.id = false ∧
    resource_available_on_day st.resource cd = true ∧
    st.forced_rest_days.contains cd = false ∧
    (∃ pref, select_shift_for_resource st.resource p.context.shifts
        st.total_assignments (ROLE_ALLOWED_SHIFT_CODES.lookup st.resource.role)
        pref = some sh) ∧
    can_assign_with_shift st sh ik p.working_rules = true := by
  unfold eligible_states at h
  rw [List.mem_filterMap] at h
  obtain ⟨state, hstate, hf⟩ := h
  dsimp only at hf
  split at hf
  · cases hf
  · rename_i h1
    split at hf
    · cases hf
    · split at hf
      · cases hf
      · split at hf
        · cases hf
        · rename_i h4
          split at hf
          · cases hf
          · rename_i h5
            split at hf
            · cases hf
            · rename_i shift heq
              split at hf
              · cases hf
              · split at hf
                · cases hf
                · rename_i h7
                  have hpair := Option.some.inj hf
                  obtain ⟨hst, hsh⟩ := Prod.mk.inj hpair
                  subst hst
                  subst hsh
                  refine ⟨hstate, ?_, ?_, ?_, ⟨_, heq⟩, ?_⟩
                  · exact Bool.eq_false_iff.mpr h1
                  · revert h4
                    cases resource_available_on_day state.resource cd <;> simp
                  · exact Bool.eq_false_iff.mpr h5
                  · revert h7
                    cases can_assign_with_shift state shift ik p.working_rules <;> simp

/-- Membership in an `if` of two lists. -/
theorem mem_ite_list {α : Type} {c : Prop} [Decidable c] {l1 l2 : List α} {x : α}
    (h : x ∈ (if c then l1 else l2)) : x ∈ l1 ∨ x ∈ l2 := by
  split at h
  · exact Or.inl h
  · exact Or.inr h

/-- Every `_fill_day` candidate comes from one of the `_eligible_states`
calls. -/
theorem fill_day_candidates_mem (p : HeuristicParams) (cd ik : Date)
    (ds : DayState) {o : ResourceScheduleState × SchedulingShift}
    (h : o ∈ fill_day_candidates p cd ik ds) :
    ∃ tr aep aot, o ∈ eligible_states p cd ik ds tr aep aot := by
  unfold fill_day_candidates at h
  dsimp only at h
  rcases mem_ite_list h with h3 | h3
  · exact ⟨none, true, true, h3⟩
  · rcases mem_ite_list h3 with h2 | h2
    · exact ⟨none, true, false, h2⟩
    · rcases mem_ite_list h2 with h1 | h1
      · exact ⟨none, true, false, List.mem_of_mem_filter h1⟩
      · exact ⟨none, false, false, List.mem_of_mem_filter h1⟩

/-- Any invariant preserved by `_assign` on eligible options is preserved by
the role-minimum `while` loop. -/
theorem role_min_loop_inv (p : HeuristicParams) (cd ik : Date) (role : String)
    (rmin : Int) (Inv : DayState → Prop)
    (hassign : ∀ ds st sh, Inv ds →
      (∃ tr aep aot, (st, sh) ∈ eligible_states p cd ik ds tr aep aot) →
      Inv (assignEntry cd ik ds st sh)) :
    ∀ (fuel : Nat) (ds : DayState), Inv ds →
      Inv (role_min_loop p cd ik role rmin fuel ds) := by
  intro fuel
  induction fuel with
  | zero =>
    intro ds hds
    rw [role_min_loop]
    exact hds
  | succ n ih =>
    intro ds hds
    rw [role_min_loop]
    split
    · split
      · exact hds
      · rename_i st sh heq
        exact ih _ (hassign ds st sh hds
          ⟨some role, true, true, select_candidate_mem p ik ds _ heq⟩)
    · exact hds

/-- Any invariant preserved by `_assign` on eligible options is preserved by
the `_fill_day` `while` loop. -/
theorem fill_day_loop_inv (p : HeuristicParams) (cd ik : Date) (target : Int)
    (Inv : DayState → Prop)
    (hassign : ∀ ds st sh, Inv ds →
      (∃ tr aep aot, (st, sh) ∈ eligible_states p cd ik ds tr aep aot) →
      Inv (assignEntry cd ik ds st sh)) :
    ∀ (fuel : Nat) (ds : DayState), Inv ds →
      Inv (fill_day_loop p cd ik target fuel ds) := by
  intro fuel
  induction fuel with
  | zero =>
    intro ds hds
    rw [fill_day_loop]
    exact hds
  | succ n ih =>
    intro ds hds
    rw [fill_day_loop]
    split
    · dsimp only
      split
      · exact hds
      · split
        · exact hds
        · rename_i st sh heq
          exact ih _ (hassign ds st sh hds
            (fill_day_candidates_mem p cd ik ds (select_candidate_mem p ik ds _ heq)))
    · exact hds

/-- Any invariant preserved by `_assign` on eligible options is preserved by
the deficit-pass `while` loop. -/
theorem deficit_loop_inv (p : HeuristicParams) (cd ik : Date) (mds : Int)
    (Inv : DayState → Prop)
    (hassign : ∀ ds st sh, Inv ds →
      (∃ tr aep aot, (st, sh) ∈ eligible_states p cd ik ds tr aep aot) →
      Inv (assignEntry cd ik ds st sh)) :
    ∀ (fuel : Nat) (ds : DayState), Inv ds →
      Inv (deficit_loop p cd ik mds fuel ds) := by
  intro fuel
  induction fuel with
  | zero =>
    intro ds hds
    rw [deficit_loop]
    exact hds
  | succ n ih =>
    intro ds hds
    rw [deficit_loop]
    split
    · dsimp only
      split
      · exact hds
      · split
        · exact hds
        · rename_i st sh heq
          exact ih _ (hassign ds st sh hds
            ⟨none, true, false,
              List.mem_of_mem_filter (select_candidate_mem p ik ds _ heq)⟩)
    · exact hds

/-- Any invariant preserved by `_assign` on eligible options is preserved by
the whole per-day pipeline of `process_day`, provided it also survives the
end-of-day consecutive-counter reset and ignores the per-day dicts. -/
theorem process_day_inv (p : HeuristicParams)
    (G : List PlanningEntryRead → List (Int × ResourceScheduleState) → Prop)
    (hassign : ∀ cd ik ds st sh, G ds.entries ds.states →
      (∃ tr aep aot, (st, sh) ∈ eligible_states p cd ik ds tr aep aot) →
      G (assignEntry cd ik ds st sh).entries (assignEntry cd ik ds st sh).states)
    (hreset : ∀ entries states (ids : List Int), G entries states →
      G entries (states.map (fun q =>
        if ids.contains q.2.resource.id then q
        else (q.1, { q.2 with consecutive_days := 0 }))))
    (acc : List PlanningEntryRead × List (Int × ResourceScheduleState) × Int)
    (cd : Date) (hacc : G acc.1 acc.2.1) :
    G (process_day p acc cd).1 (process_day p acc cd).2.1 := by
  unfold process_day
  dsimp only
  have hassign2 : ∀ ds st sh, G ds.entries ds.states →
      (∃ tr aep aot, (st, sh) ∈ eligible_states p cd (isoWeekMonday cd) ds tr aep aot) →
      G (assignEntry cd (isoWeekMonday cd) ds st sh).entries
        (assignEntry cd (isoWeekMonday cd) ds st sh).states :=
    fun ds st sh h1 h2 => hassign cd (isoWeekMonday cd) ds st sh h1 h2
  have hfold : ∀ (roles : List String) (ds : DayState), G ds.entries ds.states →
      G (roles.foldl (fun ds2 role =>
          role_min_loop p cd (isoWeekMonday cd) role (p.role_minimums role)
            (acc.2.1.length + 1) ds2) ds).entries
        (roles.foldl (fun ds2 role =>
          role_min_loop p cd (isoWeekMonday cd) role (p.role_minimums role)
            (acc.2.1.length + 1) ds2) ds).states := by
    intro roles
    induction roles with
    | nil => intro ds hds; exact hds
    | cons r rest ih2 =>
      intro ds hds
      rw [List.foldl_cons]
      exact ih2 _ (role_min_loop_inv p cd (isoWeekMonday cd) r (p.role_minimums r)
        (fun ds => G ds.entries ds.states) hassign2 _ ds hds)
  refine hreset _ _ _ ?_
  refine deficit_loop_inv p cd (isoWeekMonday cd) _
    (fun ds => G ds.entries ds.states) hassign2 _ _ ?_
  split
  · refine fill_day_loop_inv p cd (isoWeekMonday cd) _
      (fun ds => G ds.entries ds.states) hassign2 _ _ ?_
    refine fill_day_loop_inv p cd (isoWeekMonday cd) _
      (fun ds => G ds.entries ds.states) hassign2 _ _ ?_
    exact hfold p.role_order _ hacc
  · refine fill_day_loop_inv p cd (isoWeekMonday cd) _
      (fun ds => G ds.entries ds.states) hassign2 _ _ ?_
    exact hfold p.role_order _ hacc

/-- Under the no-fallback hypothesis, `_assign` preserves role-allowedness of
all recorded codes and the resource tracking of the state dict. -/
theorem c3_assign_preserves (p : HeuristicParams)
    (H : ∀ r ∈ p.context.resources, role_selectable p.context r = true)
    (cd ik : Date) (ds : DayState) (st : ResourceScheduleState)
    (sh : SchedulingShift)
    (hG : entriesRoleOk p.context ds.entries ∧ statesResOk p.context ds.states)
    (hopt : ∃ tr aep aot, (st, sh) ∈ eligible_states p cd ik ds tr aep aot) :
    entriesRoleOk p.context (assignEntry cd ik ds st sh).entries ∧
    statesResOk p.context (assignEntry cd ik ds st sh).states := by
  obtain ⟨tr, aep, aot, hmem⟩ := hopt
  obtain ⟨hstmem, _, _, _, ⟨pref, hsel⟩, _⟩ := eligible_states_mem p cd ik ds tr aep aot hmem
  rw [List.mem_map] at hstmem
  obtain ⟨kv, hkv, hkvst⟩ := hstmem
  have hres : st.resource ∈ p.context.resources := by
    rw [← hkvst]
    exact hG.2 kv hkv
  have hrsel := H st.resource hres
  unfold role_selectable at hrsel
  rcases hrs : ROLE_ALLOWED_SHIFT_CODES.lookup st.resource.role with _ | s
  · rw [hrs] at hrsel
    cases hrsel
  · rw [hrs] at hrsel
    rw [Bool.and_eq_true_iff] at hrsel
    have hsne : s.isEmpty = false := by
      rcases hrsel with ⟨h1, _⟩
      revert h1
      cases s.isEmpty <;> simp
    have hfne : (p.context.shifts.filter (fun sh2 => s.contains sh2.code)).isEmpty = false := by
      rcases hrsel with ⟨_, h2⟩
      revert h2
      cases (p.context.shifts.filter (fun sh2 => s.contains sh2.code)).isEmpty <;> simp
    rw [hrs] at hsel
    have hcode := select_shift_allowed st.resource p.context.shifts
      st.total_assignments s pref hsne hfne hsel
    constructor
    · intro e he c hc
      have hemem : e ∈ ds.entries ++
          [{ id := ds.entry_id, resource_id := st.resource.id, date := cd,
             shift_code := some sh.code, absence_type := none,
             comment := some "AUTO-STUB" }] := by
        simpa [assignEntry] using he
      rcases List.mem_append.mp hemem with h1 | h1
      · exact hG.1 e h1 c hc
      · have he2 := List.mem_singleton.mp h1
        subst he2
        simp only at hc
        have hceq : sh.code = c := Option.some.inj hc
        refine ⟨st.resource, hres, rfl, s, hrs, ?_⟩
        rw [← hceq]
        exact hcode
    · intro kv2 hkv2
      have hkv2b : kv2 ∈ dictWrite ds.states st.resource.id
          { st with
            total_assignments := st.total_assignments + 1,
            consecutive_days := st.consecutive_days + 1,
            weekly_days := fun k => if k == ik then st.weekly_days k + 1 else st.weekly_days k,
            weekly_hours := fun k =>
              if k == ik then st.weekly_hours k + sh.hours else st.weekly_hours k,
            monthly_hours := st.monthly_hours + sh.hours } := by
        simpa [assignEntry] using hkv2
      rcases dictWrite_mem hkv2b with h1 | h1
      · exact hG.2 kv2 h1
      · rw [h1]
        exact hres

/-- Day-fold version of `process_day_inv`. -/
theorem foldl_days_inv (p : HeuristicParams)
    (G : List PlanningEntryRead → List (Int × ResourceScheduleState) → Prop)
    (hassign : ∀ cd ik ds st sh, G ds.entries ds.states →
      (∃ tr aep aot, (st, sh) ∈ eligible_states p cd ik ds tr aep aot) →
      G (assignEntry cd ik ds st sh).entries (assignEntry cd ik ds st sh).states)
    (hreset : ∀ entries states (ids : List Int), G entries states →
      G entries (states.map (fun q =>
        if ids.contains q.2.resource.id then q
        else (q.1, { q.2 with consecutive_days := 0 })))) :
    ∀ (days : List Date)
      (acc : List PlanningEntryRead × List (Int × ResourceScheduleState) × Int),
      G acc.1 acc.2.1 →
      G (days.foldl (process_day p) acc).1 (days.foldl (process_day p) acc).2.1 := by
  intro days
  induction days with
  | nil => intro acc hacc; exact hacc
  | cons d rest ih =>
    intro acc hacc
    rw [List.foldl_cons]
    exact ih _ (process_day_inv p G hassign hreset acc d hacc)

/-- The initial resource-state dict tracks only context resources. -/
theorem init_states_resOk (context : SchedulingContext) :
    statesResOk context (context.resources.foldl
      (fun acc r => dictWrite acc r.id (initResourceState r)) []) := by
  intro kv hkv
  have h := mem_foldl_acc (fun acc r => dictWrite acc r.id (initResourceState r))
    (fun kv r => kv = (r.id, initResourceState r))
    (fun vs r v hv => by
      rcases dictWrite_mem hv with h1 | h1
      · exact Or.inl h1
      · exact Or.inr h1)
    context.resources [] kv hkv
  rcases h with h1 | ⟨r, hr, h2⟩
  · cases h1
  · rw [h2]
    exact hr

/-- `_apply_mandatory_rest_days` keeps the tracked resources unchanged. -/
theorem rest_days_resOk (context : SchedulingContext)
    (states : List (Int × ResourceScheduleState)) (month_days : List Date)
    (wr : WorkingTimeRules) (h : statesResOk context states) :
    statesResOk context (apply_mandatory_rest_days states month_days wr) := by
  unfold apply_mandatory_rest_days
  split
  · exact h
  · intro kv hkv
    rw [List.mem_map] at hkv
    obtain ⟨q, hq, hqkv⟩ := hkv
    have hres := h q hq
    rw [← hqkv]
    unfold rest_state_update
    dsimp only
    split
    · exact hres
    · split
      · exact hres
      · exact hres

/-- `entryPrimeRel` lists are reflexively related. -/
theorem forall2_prime_refl (bp : List (Int × Int)) :
    ∀ l : List PlanningEntryRead, List.Forall₂ (entryPrimeRel bp) l l
  | [] => List.Forall₂.nil
  | _ :: rest => List.Forall₂.cons (Or.inl rfl) (forall2_prime_refl bp rest)

/-- Index lookup across a pointwise relation, from the right list. -/
theorem forall2_get_left {α β : Type} {R : α → β → Prop} :
    ∀ {l0 : List α} {l : List β}, List.Forall₂ R l0 l → ∀ {i : Nat} {y : β},
      l.get? i = some y → ∃ x, l0.get? i = some x ∧ R x y := by
  intro l0 l h
  induction h with
  | nil => intro i y hy; cases hy
  | cons hr hrest ih =>
    intro i y hy
    cases i with
    | zero => exact ⟨_, rfl, (Option.some.inj hy) ▸ hr⟩
    | succ n => exact ih hy

/-- Updating the right list at a position related to the left entry there
keeps the lists pointwise related. -/
theorem forall2_set_right {α β : Type} {R : α → β → Prop} :
    ∀ {l0 : List α} {l : List β}, List.Forall₂ R l0 l → ∀ (i : Nat) (x : β),
      (∀ a, l0.get? i = some a → R a x) →
      List.Forall₂ R l0 (l.set i x) := by
  intro l0 l h
  induction h with
  | nil => intro i x _; exact List.Forall₂.nil
  | cons hr hrest ih =>
    intro i x hx
    cases i with
    | zero => exact List.Forall₂.cons (hx _ rfl) hrest
    | succ n => exact List.Forall₂.cons hr (ih n x (fun a ha => hx a ha))

/-- Each element of the right list has a related partner in the left list. -/
theorem forall2_mem_right {α β : Type} {R : α → β → Prop} :
    ∀ {l0 : List α} {l : List β}, List.Forall₂ R l0 l → ∀ {y : β},
      y ∈ l → ∃ x ∈ l0, R x y := by
  intro l0 l h
  induction h with
  | nil => intro y hy; cases hy
  | cons hr hrest ih =>
    intro y hy
    rcases List.mem_cons.mp hy with rfl | hy2
    · exact ⟨_, List.mem_cons_self _ _, hr⟩
    · obtain ⟨x, hx, hrx⟩ := ih hy2
      exact ⟨x, List.mem_cons_of_mem _ hx, hrx⟩

/-- A well-formed `_mark_conversion` keeps the output pointwise prime-related
to the originally scanned list. -/
theorem mark_conversion_primeRel (bp : List (Int × Int)) (sh : List (Int × ℚ))
    (entries0 current : List PlanningEntryRead) (idx : Nat) (pc : Int)
    (hwf : ∃ e0 c, entries0.get? idx = some e0 ∧ e0.shift_code = some c ∧
      bp.lookup c = some pc)
    (hrel : List.Forall₂ (entryPrimeRel bp) entries0 current) :
    List.Forall₂ (entryPrimeRel bp) entries0 (mark_conversion sh current idx pc).1 := by
  unfold mark_conversion
  rcases hget : current.get? idx with _ | entry
  · exact hrel
  · dsimp only
    split
    · exact hrel
    · split
      · exact hrel
      · dsimp only
        apply forall2_set_right hrel
        intro a ha
        obtain ⟨e0, c, he0, hc, hbp⟩ := hwf
        rw [he0] at ha
        obtain rfl := Option.some.inj ha
        obtain ⟨x, hx, hrx⟩ := forall2_get_left hrel hget
        rw [he0] at hx
        obtain rfl := Option.some.inj hx
        refine Or.inr ⟨?_, ?_, c, pc, hc, hbp, rfl⟩
        · rcases hrx with rfl | ⟨h1, _, _⟩
          · rfl
          · exact h1
        · rcases hrx with rfl | ⟨_, h2, _⟩
          · rfl
          · exact h2

/-- The weekly inner loop keeps the prime relation, given well-formed
candidates. -/
theorem weekly_relax_inner_primeRel (bp : List (Int × Int)) (sh : List (Int × ℚ))
    (wl : Int) (key : Int × Date) (entries0 : List PlanningEntryRead) :
    ∀ (opts : List (ℚ × Nat × Int)) (st : RelaxState) (total : ℚ),
      (∀ cand ∈ opts, candOk sh entries0 bp cand) →
      List.Forall₂ (entryPrimeRel bp) entries0 st.entries →
      List.Forall₂ (entryPrimeRel bp) entries0
        (weekly_relax_inner sh wl key opts st total).entries := by
  intro opts
  induction opts with
  | nil =>
    intro st total _ hrel
    rw [weekly_relax_inner]
    exact hrel
  | cons o rest ih =>
    obtain ⟨d, idx, pc⟩ := o
    intro st total hopts hrel
    rw [weekly_relax_inner]
    split
    · exact hrel
    · dsimp only
      obtain ⟨e0w, c0w, hget0, hcode0, hlk0, _⟩ :=
        hopts (d, idx, pc) (List.mem_cons_self _ _)
      have hnext := mark_conversion_primeRel bp sh entries0 st.entries idx pc
        ⟨e0w, c0w, hget0, hcode0, hlk0⟩ hrel
      split
      · exact ih _ _ (fun cand hc => hopts cand (List.mem_cons_of_mem _ hc)) hnext
      · exact ih _ _ (fun cand hc => hopts cand (List.mem_cons_of_mem _ hc)) hnext

/-- The monthly inner loop keeps the prime relation, given well-formed
candidates. -/
theorem monthly_relax_inner_primeRel (bp : List (Int × Int)) (sh : List (Int × ℚ))
    (tl : ℚ) (rid : Int) (entries0 : List PlanningEntryRead) :
    ∀ (opts : List (ℚ × Nat × Int)) (st : RelaxState) (total : ℚ),
      (∀ cand ∈ opts, candOk sh entries0 bp cand) →
      List.Forall₂ (entryPrimeRel bp) entries0 st.entries →
      List.Forall₂ (entryPrimeRel bp) entries0
        (monthly_relax_inner sh tl rid opts st total).entries := by
  intro opts
  induction opts with
  | nil =>
    intro st total _ hrel
    rw [monthly_relax_inner]
    exact hrel
  | cons o rest ih =>
    obtain ⟨d, idx, pc⟩ := o
    intro st total hopts hrel
    rw [monthly_relax_inner]
    split
    · exact hrel
    · dsimp only
      obtain ⟨e0w, c0w, hget0, hcode0, hlk0, _⟩ :=
        hopts (d, idx, pc) (List.mem_cons_self _ _)
      have hnext := mark_conversion_primeRel bp sh entries0 st.entries idx pc
        ⟨e0w, c0w, hget0, hcode0, hlk0⟩ hrel
      split
      · exact ih _ _ (fun cand hc => hopts cand (List.mem_cons_of_mem _ hc)) hnext
      · exact ih _ _ (fun cand hc => hopts cand (List.mem_cons_of_mem _ hc)) hnext

/-- The weekly pass keeps the prime relation. -/
theorem weekly_relax_pass_primeRel (bp : List (Int × Int)) (sh : List (Int × ℚ))
    (wl : Int) (entries0 : List PlanningEntryRead) :
    ∀ (cands : List ((Int × Date) × List (ℚ × Nat × Int))) (st : RelaxState),
      (∀ kv ∈ cands, ∀ cand ∈ kv.2, candOk sh entries0 bp cand) →
      List.Forall₂ (entryPrimeRel bp) entries0 st.entries →
      List.Forall₂ (entryPrimeRel bp) entries0
        (weekly_relax_pass sh wl cands st).entries := by
  intro cands
  induction cands with
  | nil =>
    intro st _ hrel
    unfold weekly_relax_pass
    rw [List.foldl_nil]
    exact hrel
  | cons kv rest ih =>
    intro st hcands hrel
    unfold weekly_relax_pass at ih ⊢
    rw [List.foldl_cons]
    refine ih _ (fun kv2 hkv2 cand hc => hcands kv2 (List.mem_cons_of_mem _ hkv2) cand hc) ?_
    dsimp only
    split
    · exact hrel
    · refine weekly_relax_inner_primeRel bp sh wl kv.1 entries0 _ st _ ?_ hrel
      intro cand hc
      exact hcands kv (List.mem_cons_self _ _) cand
        ((List.perm_insertionSort _ _).mem_iff.mp hc)

/-- The monthly pass keeps the prime relation. -/
theorem monthly_relax_pass_primeRel (bp : List (Int × Int)) (sh : List (Int × ℚ))
    (rl : List (Int × SchedulingResource)) (entries0 : List PlanningEntryRead) :
    ∀ (cands : List (Int × List (ℚ × Nat × Int))) (st : RelaxState),
      (∀ kv ∈ cands, ∀ cand ∈ kv.2, candOk sh entries0 bp cand) →
      List.Forall₂ (entryPrimeRel bp) entries0 st.entries →
      List.Forall₂ (entryPrimeRel bp) entries0
        (monthly_relax_pass sh rl cands st).entries := by
  intro cands
  induction cands with
  | nil =>
    intro st _ hrel
    unfold monthly_relax_pass
    rw [List.foldl_nil]
    exact hrel
  | cons kv rest ih =>
    intro st hcands hrel
    unfold monthly_relax_pass at ih ⊢
    rw [List.foldl_cons]
    refine ih _ (fun kv2 hkv2 cand hc => hcands kv2 (List.mem_cons_of_mem _ hkv2) cand hc) ?_
    dsimp only
    split
    · exact hrel
    · split
      · exact hrel
      · refine monthly_relax_inner_primeRel bp sh _ kv.1 entries0 _ st _ ?_ hrel
        intro cand hc
        exact hcands kv (List.mem_cons_self _ _) cand
          ((List.perm_insertionSort _ _).mem_iff.mp hc)

/-- One scan step keeps all collected candidates well-formed. -/
theorem relax_scan_step_candsOk (sh : List (Int × ℚ)) (bp : List (Int × Int))
    (entries0 : List PlanningEntryRead) (acc : RelaxScan)
    (q : Nat × PlanningEntryRead) (hq : entries0.get? q.1 = some q.2)
    (hacc : scanCandsOk sh entries0 bp acc) :
    scanCandsOk sh entries0 bp (relax_scan_step sh bp acc q) := by
  obtain ⟨index, entry⟩ := q
  unfold relax_scan_step
  dsimp only
  rcases hcode : entry.shift_code with _ | code
  · exact hacc
  · dsimp only
    rcases hbp : bp.lookup code with _ | pc
    · exact hacc
    · dsimp only
      split
      · exact hacc
      · rename_i hdelta
        constructor
        · intro kv hkv cand hcand
          rcases dictWrite_mem hkv with h1 | h1
          · exact hacc.1 kv h1 cand hcand
          · subst h1
            dsimp only at hcand ⊢
            rcases List.mem_append.mp hcand with h2 | h2
            · rcases hlk : (acc.weekly_candidates.lookup
                  (entry.resource_id, isoWeekMonday entry.date)) with _ | old
              · rw [hlk] at h2
                cases h2
              · rw [hlk] at h2
                exact hacc.1 _ (mem_of_lookup_eq_some hlk) cand h2
            · have hcand2 := List.mem_singleton.mp h2
              subst hcand2
              refine ⟨⟨entry, code, hq, hcode, hbp, not_le.mp hdelta⟩, ?_⟩
              intro e0 he0
              rw [hq] at he0
              obtain rfl := Option.some.inj he0
              rfl
        · intro kv hkv cand hcand
          rcases dictWrite_mem hkv with h1 | h1
          · exact hacc.2 kv h1 cand hcand
          · subst h1
            dsimp only at hcand ⊢
            rcases List.mem_append.mp hcand with h2 | h2
            · rcases hlk : (acc.monthly_candidates.lookup entry.resource_id) with _ | old
              · rw [hlk] at h2
                cases h2
              · rw [hlk] at h2
                exact hacc.2 _ (mem_of_lookup_eq_some hlk) cand h2
            · have hcand2 := List.mem_singleton.mp h2
              subst hcand2
              refine ⟨⟨entry, code, hq, hcode, hbp, not_le.mp hdelta⟩, ?_⟩
              intro e0 he0
              rw [hq] at he0
              obtain rfl := Option.some.inj he0
              rfl

/-- The whole scan produces only well-formed candidates. -/
theorem relax_scan_candsOk (sh : List (Int × ℚ)) (bp : List (Int × Int))
    (entries0 : List PlanningEntryRead) :
    ∀ (l : List (Nat × PlanningEntryRead)) (acc : RelaxScan),
      (∀ q ∈ l, entries0.get? q.1 = some q.2) →
      scanCandsOk sh entries0 bp acc →
      scanCandsOk sh entries0 bp (l.foldl (relax_scan_step sh bp) acc) := by
  intro l
  induction l with
  | nil => intro acc _ hacc; exact hacc
  | cons q rest ih =>
    intro acc hl hacc
    rw [List.foldl_cons]
    exact ih _ (fun q2 hq2 => hl q2 (List.mem_cons_of_mem _ hq2))
      (relax_scan_step_candsOk sh bp entries0 acc q (hl q (List.mem_cons_self _ _)) hacc)

/-- `apply_prime_shift_relaxation` relates its output pointwise to its input:
every entry is unchanged or converted to the prime variant of its recorded
code. -/
theorem apply_prime_shift_relaxation_primeRel (context : SchedulingContext)
    (entries : List PlanningEntryRead) :
    List.Forall₂ (entryPrimeRel (BASE_TO_PRIME_SHIFT.filter (fun q =>
        ((buildShiftHours context.shifts).lookup q.1).isSome &&
        ((buildShiftHours context.shifts).lookup q.2).isSome)))
      entries (apply_prime_shift_relaxation context entries) := by
  unfold apply_prime_shift_relaxation
  dsimp only
  split
  · exact forall2_prime_refl _ entries
  · split
    · exact forall2_prime_refl _ entries
    · split
      · exact forall2_prime_refl _ entries
      · have henum : ∀ q ∈ entries.enum, entries.get? q.1 = some q.2 := by
          intro q hq
          obtain ⟨i, x⟩ := q
          rw [List.get?_eq_getElem?]
          exact List.mem_enum_iff_getElem?.mp hq
        have hscan := relax_scan_candsOk (buildShiftHours context.shifts)
          (BASE_TO_PRIME_SHIFT.filter (fun q =>
            ((buildShiftHours context.shifts).lookup q.1).isSome &&
            ((buildShiftHours context.shifts).lookup q.2).isSome)) entries
          entries.enum
          { weekly_totals := fun _ => 0, weekly_candidates := [],
            monthly_totals := fun _ => 0, monthly_candidates := [] }
          henum
          ⟨fun kv hkv => absurd hkv (List.not_mem_nil kv),
           fun kv hkv => absurd hkv (List.not_mem_nil kv)⟩
        refine monthly_relax_pass_primeRel _ _ _ entries _ _
          (fun kv hkv cand hc => (hscan.2 kv hkv cand hc).1) ?_
        refine weekly_relax_pass_primeRel _ _ _ entries _ _
          (fun kv hkv cand hc => (hscan.1 kv hkv cand hc).1) ?_
        exact forall2_prime_refl _ entries

/-- A prime conversion recorded by the (catalog-filtered) base-to-prime table
inverts through `PRIME_SHIFT_BASE`. -/
theorem bp_filter_prime (context : SchedulingContext) {c p2 : Int}
    (h : (BASE_TO_PRIME_SHIFT.filter (fun q =>
        ((buildShiftHours context.shifts).lookup q.1).isSome &&
        ((buildShiftHours context.shifts).lookup q.2).isSome)).lookup c = some p2) :
    PRIME_SHIFT_BASE.lookup p2 = some c := by
  have hmem := mem_of_lookup_eq_some h
  have hmem2 := List.mem_of_mem_filter hmem
  have hall : ∀ q ∈ BASE_TO_PRIME_SHIFT, PRIME_SHIFT_BASE.lookup q.2 = some q.1 := by
    decide
  exact hall (c, p2) hmem2

/-- C3 (amended): provided every resource's role has a non-empty allowed-code
set matching at least one catalog shift (so the full-catalog fallback of
`_select_shift_for_resource` never fires), every non-null shift code in the
heuristic output is role-allowed for its resource, or is the prime variant of
a role-allowed code installed by the prime-shift relaxation.  Without that
hypothesis the fallback assigns arbitrary catalog codes (see the
counterexample). -/
theorem c3_codes_role_allowed (context : SchedulingContext)
    (H : ∀ r ∈ context.resources, role_selectable context r = true) :
    ∀ e ∈ (generate_rule_compliant_schedule context).entries, ∀ c,
      e.shift_code = some c →
      ∃ r ∈ context.resources, r.id = e.resource_id ∧ ∃ s,
        ROLE_ALLOWED_SHIFT_CODES.lookup r.role = some s ∧
        (s.contains c = true ∨
          ∃ b, PRIME_SHIFT_BASE.lookup c = some b ∧ s.contains b = true) := by
  unfold generate_rule_compliant_schedule generate_stub_schedule
  dsimp only
  split
  · intro e he
    exact absurd he (List.not_mem_nil e)
  · intro e he c hc
    have hassign : ∀ cd ik ds st sh,
        (fun en sts => entriesRoleOk context en ∧ statesResOk context sts)
          ds.entries ds.states →
        (∃ tr aep aot, (st, sh) ∈ eligible_states
          { context := context,
            working_rules := context.rules.rules.working_time,
            minimum_daily_staff := context.rules.rules.shift_rules.minimum_daily_staff,
            role_minimums := roleMinimumsOf context.rules.rules.shift_rules.composition,
            role_maximums := roleMaximumsOf context.rules.rules.shift_rules.composition,
            role_order := context.rules.rules.shift_rules.composition.map Prod.fst,
            shift_lookup := buildShiftLookup context.shifts,
            daily_target := daily_staff_target context } cd ik ds tr aep aot) →
        (fun en sts => entriesRoleOk context en ∧ statesResOk context sts)
          (assignEntry cd ik ds st sh).entries (assignEntry cd ik ds st sh).states :=
      fun cd ik ds st sh hG hopt =>
        c3_assign_preserves _ H cd ik ds st sh hG hopt
    have hreset : ∀ en sts (ids : List Int),
        (fun en sts => entriesRoleOk context en ∧ statesResOk context sts) en sts →
        (fun en sts => entriesRoleOk context en ∧ statesResOk context sts) en
          (sts.map (fun q =>
            if ids.contains q.2.resource.id then q
            else (q.1, { q.2 with consecutive_days := 0 }))) := by
      intro en sts ids hG
      refine ⟨hG.1, ?_⟩
      intro kv hkv
      rw [List.mem_map] at hkv
      obtain ⟨q2, hq2, hq2kv⟩ := hkv
      rw [← hq2kv]
      split
      · exact hG.2 q2 hq2
      · exact hG.2 q2 hq2
    have hpre := foldl_days_inv
      { context := context,
        working_rules := context.rules.rules.working_time,
        minimum_daily_staff := context.rules.rules.shift_rules.minimum_daily_staff,
        role_minimums := roleMinimumsOf context.rules.rules.shift_rules.composition,
        role_maximums := roleMaximumsOf context.rules.rules.shift_rules.composition,
        role_order := context.rules.rules.shift_rules.composition.map Prod.fst,
        shift_lookup := buildShiftLookup context.shifts,
        daily_target := daily_staff_target context }
      (fun en sts => entriesRoleOk context en ∧ statesResOk context sts)
      hassign hreset
      (monthDaysList context.year context.month)
      ([], apply_mandatory_rest_days
        (context.resources.foldl (fun acc r => dictWrite acc r.id (initResourceState r)) [])
        (monthDaysList context.year context.month)
        context.rules.rules.working_time, 1)
      ⟨fun e2 he2 => absurd he2 (List.not_mem_nil e2),
       rest_days_resOk context _ _ _ (init_states_resOk context)⟩
    have hrel := apply_prime_shift_relaxation_primeRel context
      ((monthDaysList context.year context.month).foldl
        (process_day
          { context := context,
            working_rules := context.rules.rules.working_time,
            minimum_daily_staff := context.rules.rules.shift_rules.minimum_daily_staff,
            role_minimums := roleMinimumsOf context.rules.rules.shift_rules.composition,
            role_maximums := roleMaximumsOf context.rules.rules.shift_rules.composition,
            role_order := context.rules.rules.shift_rules.composition.map Prod.fst,
            shift_lookup := buildShiftLookup context.shifts,
            daily_target := daily_staff_target context })
        ([], apply_mandatory_rest_days
          (context.resources.foldl (fun acc r => dictWrite acc r.id (initResourceState r)) [])
          (monthDaysList context.year context.month)
          context.rules.rules.working_time, 1)).1
    obtain ⟨e0, he0, hre⟩ := forall2_mem_right hrel he
    rcases hre with rfl | ⟨hrid, _, c0, p2, hcode0, hlk, hcodee⟩
    · obtain ⟨r, hr, hid, s, hs, hcon⟩ := hpre.1 _ he0 c hc
      exact ⟨r, hr, hid, s, hs, Or.inl hcon⟩
    · obtain ⟨r, hr, hid, s, hs, hcon⟩ := hpre.1 e0 he0 c0 hcode0
      rw [hcodee] at hc
      obtain rfl := Option.some.inj hc
      refine ⟨r, hr, ?_, s, hs, Or.inr ⟨c0, bp_filter_prime context hlk, hcon⟩⟩
      rw [hid, ← hrid]

set_option maxRecDepth 100000 in
/-- Witness for `c3_codes_role_allowed` at the three-cook context's first
entry. -/
theorem c3_codes_role_allowed_witness :
    ∃ r ∈ ctxDeficit.resources, r.id = entryDeficitHead.resource_id ∧ ∃ s,
      ROLE_ALLOWED_SHIFT_CODES.lookup r.role = some s ∧
      (s.contains 1 = true ∨
        ∃ b, PRIME_SHIFT_BASE.lookup 1 = some b ∧ s.contains b = true) :=
  c3_codes_role_allowed ctxDeficit (by decide) entryDeficitHead
    (by with_unfolding_all exact List.Mem.head _) 1 rfl

/-- Sum of a filtered map after a positional write. -/
theorem filter_map_sum_set {α : Type} (p : α → Bool) (f : α → ℚ) :
    ∀ (l : List α) (i : Nat) (x y : α), l.get? i = some y →
      (((l.set i x).filter p).map f).sum =
        ((l.filter p).map f).sum - (if p y then f y else 0) +
          (if p x then f x else 0) := by
  intro l
  induction l with
  | nil => intro i x y hy; cases hy
  | cons hd tl ih =>
    intro i x y hy
    cases i with
    | zero =>
      have hhdy := Option.some.inj hy
      subst hhdy
      rw [List.set_cons_zero]
      by_cases hy2 : p hd = true <;> by_cases hx : p x = true <;>
        simp [List.filter_cons, hy2, hx] <;> ring
    | succ n =>
      rw [List.set_cons_succ]
      have htl := ih n x y hy
      by_cases hhd : p hd = true <;>
        simp [List.filter_cons, hhd, htl] <;> ring

/-- Reading another position after a positional write. -/
theorem get_set_ne {α : Type} (l : List α) (i j : Nat) (x : α) (hne : i ≠ j) :
    (l.set j x).get? i = l.get? i := by
  rw [List.get?_eq_getElem?, List.get?_eq_getElem?]
  exact List.getElem?_set_ne (fun h => hne h.symm)

/-- Reading the written position after a positional write. -/
theorem get_set_self {α : Type} (l : List α) (i : Nat) (x : α) (y : α)
    (hy : l.get? i = some y) : (l.set i x).get? i = some x := by
  rw [List.get?_eq_getElem?] at hy ⊢
  have hlt : i < l.length := by
    rcases List.getElem?_eq_some.mp hy with ⟨h, _⟩
    exact h
  rw [List.getElem?_set_self']
  rw [List.getElem?_eq_getElem hlt]
  rfl

/-- Full case characterisation of `_mark_conversion`: either a no-op on a
position that is already prime or saves nothing, or a conversion to a
strictly-shorter prime variant. -/
theorem mark_conversion_cases (sh : List (Int × ℚ)) (l : List PlanningEntryRead)
    (idx : Nat) (pc : Int) :
    (mark_conversion sh l idx pc = (l, 0) ∧
      ∀ e, l.get? idx = some e →
        (e.shift_code = some pc ∨
          entryHours sh e ≤ (sh.lookup pc).getD (entryHours sh e))) ∨
    (∃ e p, l.get? idx = some e ∧ sh.lookup pc = some p ∧ p < entryHours sh e ∧
      mark_conversion sh l idx pc =
        (l.set idx
          { e with
            shift_code := some pc,
            comment :=
              if commentHasPrimeTag (e.comment.getD "AUTO-STUB") then e.comment
              else some ((e.comment.getD "AUTO-STUB") ++ " (prime adjustment)") },
          entryHours sh e - p)) := by
  unfold mark_conversion
  rcases hget : l.get? idx with _ | entry
  · refine Or.inl ⟨rfl, ?_⟩
    intro e he
    cases he
  · dsimp only
    split
    · rename_i hbeq
      refine Or.inl ⟨rfl, ?_⟩
      intro e he
      obtain rfl := Option.some.inj he
      exact Or.inl (beq_iff_eq.mp hbeq)
    · split
      · rename_i hble
        refine Or.inl ⟨rfl, ?_⟩
        intro e he
        obtain rfl := Option.some.inj he
        exact Or.inr hble
      · rename_i hbgt
        rcases hlp : sh.lookup pc with _ | p
        · rw [hlp] at hbgt
          exact absurd (le_refl _) hbgt
        · rw [hlp] at hbgt
          refine Or.inr ⟨entry, p, rfl, rfl, not_le.mp hbgt, ?_⟩
          rfl

/-- Entries recording a prime-variant code can never be candidates again
(the base-to-prime table's values are disjoint from its keys). -/
theorem bp_value_noCand (sh : List (Int × ℚ)) (bp : List (Int × Int))
    (hdisj : ∀ q ∈ bp, bp.lookup q.2 = none)
    {c pc : Int} (hlk : bp.lookup c = some pc) (e : PlanningEntryRead)
    (hce : e.shift_code = some pc) : noCand sh bp e := by
  intro c2 hc2 pc2 hpc2
  rw [hce] at hc2
  obtain rfl := Option.some.inj hc2
  rw [hdisj (c, pc) (mem_of_lookup_eq_some hlk)] at hpc2
  cases hpc2

/-- `noCandAt` is stable under any `_mark_conversion` whose prime code comes
from the base-to-prime table. -/
theorem mark_conversion_noCand_stable (sh : List (Int × ℚ)) (bp : List (Int × Int))
    (hdisj : ∀ q ∈ bp, bp.lookup q.2 = none)
    (l : List PlanningEntryRead) (idx : Nat) (pc : Int)
    (hpc : ∃ c, bp.lookup c = some pc) (i : Nat)
    (hi : noCandAt sh bp l i) :
    noCandAt sh bp (mark_conversion sh l idx pc).1 i := by
  rcases mark_conversion_cases sh l idx pc with ⟨heq, _⟩ | ⟨e, p, hget, hlp, hlt, heq⟩
  · rw [heq]
    exact hi
  · rw [heq]
    dsimp only
    intro e2 he2
    by_cases hii : i = idx
    · subst hii
      rw [get_set_self l i _ e hget] at he2
      obtain rfl := Option.some.inj he2
      obtain ⟨c, hc⟩ := hpc
      exact bp_value_noCand sh bp hdisj hc _ rfl
    · rw [get_set_ne l i idx _ hii] at he2
      exact hi e2 he2

/-- One scan step adds the entry's catalog hours to its weekly and monthly
totals (and to no others). -/
theorem relax_scan_step_totals (sh : List (Int × ℚ)) (bp : List (Int × Int))
    (acc : RelaxScan) (q : Nat × PlanningEntryRead) :
    (∀ k, (relax_scan_step sh bp acc q).weekly_totals k =
      acc.weekly_totals k + (if k == weekKeyOf q.2 then entryHours sh q.2 else 0)) ∧
    (∀ r, (relax_scan_step sh bp acc q).monthly_totals r =
      acc.monthly_totals r + (if r == q.2.resource_id then entryHours sh q.2 else 0)) := by
  obtain ⟨i, e⟩ := q
  unfold relax_scan_step
  dsimp only
  rcases hcode : e.shift_code with _ | code
  · have hzero : entryHours sh e = 0 := by
      unfold entryHours
      rw [hcode]
      rfl
    dsimp only
    rw [hzero]
    constructor
    · intro k
      split <;> ring
    · intro r
      split <;> ring
  · have hhours : entryHours sh e = (sh.lookup code).getD 0 := by
      unfold entryHours
      rw [hcode]
      rfl
    dsimp only
    have hupd :
        (∀ k, (if k == (e.resource_id, isoWeekMonday e.date) then
            acc.weekly_totals k + (sh.lookup code).getD 0 else acc.weekly_totals k) =
          acc.weekly_totals k + (if k == weekKeyOf e then entryHours sh e else 0)) ∧
        (∀ r, (if r == e.resource_id then
            acc.monthly_totals r + (sh.lookup code).getD 0 else acc.monthly_totals r) =
          acc.monthly_totals r + (if r == e.resource_id then entryHours sh e else 0)) := by
      constructor
      · intro k
        rw [hhours]
        rcases hk : (k == weekKeyOf e) with _ | _
        · rw [show (k == (e.resource_id, isoWeekMonday e.date)) = false from hk]
          simp
        · rw [show (k == (e.resource_id, isoWeekMonday e.date)) = true from hk]
          simp
      · intro r
        rw [hhours]
        rcases hr : (r == e.resource_id) with _ | _
        · simp only [Bool.false_eq_true, if_false]
          ring
        · simp
    rcases hbp : bp.lookup code with _ | pc
    · exact hupd
    · dsimp only
      split
      · exact hupd
      · exact hupd

/-- The scan's running totals are the per-key catalog-hour sums. -/
theorem relax_scan_totals (sh : List (Int × ℚ)) (bp : List (Int × Int)) :
    ∀ (l : List (Nat × PlanningEntryRead)) (acc : RelaxScan),
      (∀ k, (l.foldl (relax_scan_step sh bp) acc).weekly_totals k =
        acc.weekly_totals k + weekTotOf sh (l.map Prod.snd) k) ∧
      (∀ r, (l.foldl (relax_scan_step sh bp) acc).monthly_totals r =
        acc.monthly_totals r + monthHoursSum sh (l.map Prod.snd) r) := by
  intro l
  induction l with
  | nil =>
    intro acc
    constructor
    · intro k
      rw [List.foldl_nil]
      unfold weekTotOf
      simp
    · intro r
      rw [List.foldl_nil]
      unfold monthHoursSum
      simp
  | cons q rest ih =>
    intro acc
    obtain ⟨hstepw, hstepm⟩ := relax_scan_step_totals sh bp acc q
    obtain ⟨ihw, ihm⟩ := ih (relax_scan_step sh bp acc q)
    constructor
    · intro k
      rw [List.foldl_cons, ihw k, hstepw k]
      unfold weekTotOf
      rw [List.map_cons]
      by_cases hk : (weekKeyOf q.2 == k) = true
      · rw [List.filter_cons_of_pos (p := fun e : PlanningEntryRead => weekKeyOf e == k) hk,
          List.map_cons, List.sum_cons]
        rw [show (k == weekKeyOf q.2) = true from
          beq_iff_eq.mpr (beq_iff_eq.mp hk).symm, if_pos rfl]
        ring
      · rw [List.filter_cons_of_neg (p := fun e : PlanningEntryRead => weekKeyOf e == k) hk]
        rw [show (k == weekKeyOf q.2) = false from by
          rcases hkk : (k == weekKeyOf q.2) with _ | _
          · rfl
          · exact absurd (beq_iff_eq.mpr (beq_iff_eq.mp hkk).symm) hk,
          if_neg Bool.false_ne_true]
        ring
    · intro r
      rw [List.foldl_cons, ihm r, hstepm r]
      unfold monthHoursSum
      rw [List.map_cons]
      by_cases hr : (q.2.resource_id == r) = true
      · rw [List.filter_cons_of_pos (p := fun e : PlanningEntryRead => e.resource_id == r) hr,
          List.map_cons, List.sum_cons]
        rw [show (r == q.2.resource_id) = true from
          beq_iff_eq.mpr (beq_iff_eq.mp hr).symm, if_pos rfl]
        ring
      · rw [List.filter_cons_of_neg (p := fun e : PlanningEntryRead => e.resource_id == r) hr]
        rw [show (r == q.2.resource_id) = false from by
          rcases hrr : (r == q.2.resource_id) with _ | _
          · rfl
          · exact absurd (beq_iff_eq.mpr (beq_iff_eq.mp hrr).symm) hr,
          if_neg Bool.false_ne_true]
        ring

/-- Collected weekly candidates survive the rest of the scan. -/
theorem relax_scan_mono_week (sh : List (Int × ℚ)) (bp : List (Int × Int)) :
    ∀ (l : List (Nat × PlanningEntryRead)) (acc : RelaxScan) (k : Int × Date)
      (cand : ℚ × Nat × Int),
      cand ∈ ((acc.weekly_candidates.lookup k).getD []) →
      cand ∈ (((l.foldl (relax_scan_step sh bp) acc).weekly_candidates.lookup k).getD []) := by
  intro l
  induction l with
  | nil =>
    intro acc k cand h
    exact h
  | cons q rest ih =>
    intro acc k cand h
    rw [List.foldl_cons]
    refine ih _ k cand ?_
    obtain ⟨i, e⟩ := q
    unfold relax_scan_step
    dsimp only
    rcases e.shift_code with _ | code
    · exact h
    · dsimp only
      rcases bp.lookup code with _ | pc
      · exact h
      · dsimp only
        split
        · exact h
        · rw [dictWrite_lookup]
          by_cases hk : (k == (e.resource_id, isoWeekMonday e.date)) = true
          · rw [if_pos hk]
            have hkk := beq_iff_eq.mp hk
            rw [hkk] at h
            exact List.mem_append.mpr (Or.inl h)
          · rw [if_neg (by
              intro hcc
              exact hk hcc)]
            exact h

/-- Collected monthly candidates survive the rest of the scan. -/
theorem relax_scan_mono_month (sh : List (Int × ℚ)) (bp : List (Int × Int)) :
    ∀ (l : List (Nat × PlanningEntryRead)) (acc : RelaxScan) (r : Int)
      (cand : ℚ × Nat × Int),
      cand ∈ ((acc.monthly_candidates.lookup r).getD []) →
      cand ∈ (((l.foldl (relax_scan_step sh bp) acc).monthly_candidates.lookup r).getD []) := by
  intro l
  induction l with
  | nil =>
    intro acc r cand h
    exact h
  | cons q rest ih =>
    intro acc r cand h
    rw [List.foldl_cons]
    refine ih _ r cand ?_
    obtain ⟨i, e⟩ := q
    unfold relax_scan_step
    dsimp only
    rcases e.shift_code with _ | code
    · exact h
    · dsimp only
      rcases bp.lookup code with _ | pc
      · exact h
      · dsimp only
        split
        · exact h
        · rw [dictWrite_lookup]
          by_cases hr : (r == e.resource_id) = true
          · rw [if_pos hr]
            have hrr := beq_iff_eq.mp hr
            rw [hrr] at h
            exact List.mem_append.mpr (Or.inl h)
          · rw [if_neg (by
              intro hcc
              exact hr hcc)]
            exact h

/-- Every prime-able scanned entry files a weekly and a monthly candidate
with its own index. -/
theorem relax_scan_complete (sh : List (Int × ℚ)) (bp : List (Int × Int)) :
    ∀ (l : List (Nat × PlanningEntryRead)) (acc : RelaxScan),
      ∀ q ∈ l, ∀ c pc, q.2.shift_code = some c → bp.lookup c = some pc →
        0 < primeDelta sh c pc →
        (∃ cand : ℚ × Nat × Int, cand.2.1 = q.1 ∧
          cand ∈ (((l.foldl (relax_scan_step sh bp) acc).weekly_candidates.lookup
            (weekKeyOf q.2)).getD [])) ∧
        (∃ cand : ℚ × Nat × Int, cand.2.1 = q.1 ∧
          cand ∈ (((l.foldl (relax_scan_step sh bp) acc).monthly_candidates.lookup
            q.2.resource_id).getD [])) := by
  intro l
  induction l with
  | nil =>
    intro acc q hq
    cases hq
  | cons q0 rest ih =>
    intro acc q hq c pc hc hbp hdelta
    rcases List.mem_cons.mp hq with rfl | hq2
    · rw [List.foldl_cons]
      obtain ⟨i, e⟩ := q
      dsimp only at hc ⊢
      constructor
      · refine ⟨((sh.lookup c).getD 0 - (sh.lookup pc).getD ((sh.lookup c).getD 0), i, pc),
          rfl, ?_⟩
        refine relax_scan_mono_week sh bp rest _ _ _ ?_
        unfold relax_scan_step
        dsimp only
        rw [hc]
        dsimp only
        rw [hbp]
        dsimp only
        split
        · rename_i hle
          exact absurd hle (not_le.mpr hdelta)
        · rw [dictWrite_lookup]
          rw [if_pos (show (weekKeyOf e == (e.resource_id, isoWeekMonday e.date)) = true from
            beq_iff_eq.mpr rfl)]
          exact List.mem_append.mpr (Or.inr (List.mem_singleton.mpr rfl))
      · refine ⟨((sh.lookup c).getD 0 - (sh.lookup pc).getD ((sh.lookup c).getD 0), i, pc),
          rfl, ?_⟩
        refine relax_scan_mono_month sh bp rest _ _ _ ?_
        unfold relax_scan_step
        dsimp only
        rw [hc]
        dsimp only
        rw [hbp]
        dsimp only
        split
        · rename_i hle
          exact absurd hle (not_le.mpr hdelta)
        · rw [dictWrite_lookup]
          rw [if_pos (show (e.resource_id == e.resource_id) = true from
            beq_iff_eq.mpr rfl)]
          exact List.mem_append.mpr (Or.inr (List.mem_singleton.mpr rfl))
    · rw [List.foldl_cons]
      exact ih _ q hq2 c pc hc hbp hdelta

/-- Weekly-key totals after a positional write that keeps resource and date. -/
theorem weekTot_set (sh : List (Int × ℚ)) (l : List PlanningEntryRead)
    (idx : Nat) (x e : PlanningEntryRead) (hget : l.get? idx = some e)
    (hrid : x.resource_id = e.resource_id) (hdate : x.date = e.date) :
    ∀ key, weekTotOf sh (l.set idx x) key =
      weekTotOf sh l key -
        (if (weekKeyOf e == key) = true then entryHours sh e - entryHours sh x else 0) := by
  intro key
  unfold weekTotOf
  rw [filter_map_sum_set (fun e2 : PlanningEntryRead => weekKeyOf e2 == key)
    (entryHours sh) l idx x e hget]
  have hkx : weekKeyOf x = weekKeyOf e := by
    unfold weekKeyOf
    rw [hrid, hdate]
  rw [hkx]
  by_cases hk : (weekKeyOf e == key) = true
  · rw [if_pos hk, if_pos hk, if_pos hk]
    ring
  · rw [if_neg hk, if_neg hk, if_neg hk]
    ring

/-- Monthly totals after a positional write that keeps the resource. -/
theorem monthTot_set (sh : List (Int × ℚ)) (l : List PlanningEntryRead)
    (idx : Nat) (x e : PlanningEntryRead) (hget : l.get? idx = some e)
    (hrid : x.resource_id = e.resource_id) :
    ∀ r, monthHoursSum sh (l.set idx x) r =
      monthHoursSum sh l r -
        (if (e.resource_id == r) = true then entryHours sh e - entryHours sh x else 0) := by
  intro r
  unfold monthHoursSum
  rw [filter_map_sum_set (fun e2 : PlanningEntryRead => e2.resource_id == r)
    (entryHours sh) l idx x e hget]
  rw [hrid]
  by_cases hr : (e.resource_id == r) = true
  · rw [if_pos hr, if_pos hr, if_pos hr]
    ring
  · rw [if_neg hr, if_neg hr, if_neg hr]
    ring

/-- `noCandAt` survives the weekly inner loop (every conversion installs a
prime code). -/
theorem weekly_inner_noCand_stable (sh : List (Int × ℚ)) (bp : List (Int × Int))
    (hdisj : ∀ q ∈ bp, bp.lookup q.2 = none) (wl : Int) (key : Int × Date) :
    ∀ (opts : List (ℚ × Nat × Int)) (st : RelaxState) (total : ℚ) (i : Nat),
      (∀ cand ∈ opts, ∃ c, bp.lookup c = some cand.2.2) →
      noCandAt sh bp st.entries i →
      noCandAt sh bp (weekly_relax_inner sh wl key opts st total).entries i := by
  intro opts
  induction opts with
  | nil =>
    intro st total i _ hi
    rw [weekly_relax_inner]
    exact hi
  | cons o rest ih =>
    obtain ⟨d, idx, pc⟩ := o
    intro st total i hopts hi
    rw [weekly_relax_inner]
    split
    · exact hi
    · dsimp only
      have hstep := mark_conversion_noCand_stable sh bp hdisj st.entries idx pc
        (hopts (d, idx, pc) (List.mem_cons_self _ _)) i hi
      split
      · exact ih _ _ i (fun cand hc => hopts cand (List.mem_cons_of_mem _ hc)) hstep
      · exact ih _ _ i (fun cand hc => hopts cand (List.mem_cons_of_mem _ hc)) hstep

/-- `noCandAt` survives the monthly inner loop. -/
theorem monthly_inner_noCand_stable (sh : List (Int × ℚ)) (bp : List (Int × Int))
    (hdisj : ∀ q ∈ bp, bp.lookup q.2 = none) (tl : ℚ) (rid : Int) :
    ∀ (opts : List (ℚ × Nat × Int)) (st : RelaxState) (total : ℚ) (i : Nat),
      (∀ cand ∈ opts, ∃ c, bp.lookup c = some cand.2.2) →
      noCandAt sh bp st.entries i →
      noCandAt sh bp (monthly_relax_inner sh tl rid opts st total).entries i := by
  intro opts
  induction opts with
  | nil =>
    intro st total i _ hi
    rw [monthly_relax_inner]
    exact hi
  | cons o rest ih =>
    obtain ⟨d, idx, pc⟩ := o
    intro st total i hopts hi
    rw [monthly_relax_inner]
    split
    · exact hi
    · dsimp only
      have hstep := mark_conversion_noCand_stable sh bp hdisj st.entries idx pc
        (hopts (d, idx, pc) (List.mem_cons_self _ _)) i hi
      split
      · exact ih _ _ i (fun cand hc => hopts cand (List.mem_cons_of_mem _ hc)) hstep
      · exact ih _ _ i (fun cand hc => hopts cand (List.mem_cons_of_mem _ hc)) hstep

/-- `noCandAt` survives the whole weekly pass. -/
theorem weekly_pass_noCand_stable (sh : List (Int × ℚ)) (bp : List (Int × Int))
    (hdisj : ∀ q ∈ bp, bp.lookup q.2 = none) (wl : Int) :
    ∀ (cands : List ((Int × Date) × List (ℚ × Nat × Int))) (st : RelaxState) (i : Nat),
      (∀ kv ∈ cands, ∀ cand ∈ kv.2, ∃ c, bp.lookup c = some cand.2.2) →
      noCandAt sh bp st.entries i →
      noCandAt sh bp (weekly_relax_pass sh wl cands st).entries i := by
  intro cands
  induction cands with
  | nil =>
    intro st i _ hi
    unfold weekly_relax_pass
    rw [List.foldl_nil]
    exact hi
  | cons kv rest ih =>
    intro st i hcands hi
    unfold weekly_relax_pass at ih ⊢
    rw [List.foldl_cons]
    refine ih _ i (fun kv2 hkv2 cand hc => hcands kv2 (List.mem_cons_of_mem _ hkv2) cand hc) ?_
    dsimp only
    split
    · exact hi
    · refine weekly_inner_noCand_stable sh bp hdisj wl kv.1 _ st _ i ?_ hi
      intro cand hc
      exact hcands kv (List.mem_cons_self _ _) cand
        ((List.perm_insertionSort _ _).mem_iff.mp hc)

/-- `noCandAt` survives the whole monthly pass. -/
theorem monthly_pass_noCand_stable (sh : List (Int × ℚ)) (bp : List (Int × Int))
    (hdisj : ∀ q ∈ bp, bp.lookup q.2 = none)
    (rl : List (Int × SchedulingResource)) :
    ∀ (cands : List (Int × List (ℚ × Nat × Int))) (st : RelaxState) (i : Nat),
      (∀ kv ∈ cands, ∀ cand ∈ kv.2, ∃ c, bp.lookup c = some cand.2.2) →
      noCandAt sh bp st.entries i →
      noCandAt sh bp (monthly_relax_pass sh rl cands st).entries i := by
  intro cands
  induction cands with
  | nil =>
    intro st i _ hi
    unfold monthly_relax_pass
    rw [List.foldl_nil]
    exact hi
  | cons kv rest ih =>
    intro st i hcands hi
    unfold monthly_relax_pass at ih ⊢
    rw [List.foldl_cons]
    refine ih _ i (fun kv2 hkv2 cand hc => hcands kv2 (List.mem_cons_of_mem _ hkv2) cand hc) ?_
    dsimp only
    split
    · exact hi
    · split
      · exact hi
      · refine monthly_inner_noCand_stable sh bp hdisj _ kv.1 _ st _ i ?_ hi
        intro cand hc
        exact hcands kv (List.mem_cons_self _ _) cand
          ((List.perm_insertionSort _ _).mem_iff.mp hc)

/-- Postcondition of the weekly inner loop: totals stay synchronised with the
entry list, and at exit either the key's weekly total is within the limit or
every option's position can never be a candidate again. -/
theorem weekly_inner_post (sh : List (Int × ℚ)) (bp : List (Int × Int))
    (hdisj : ∀ q ∈ bp, bp.lookup q.2 = none) (wl : Int) (key : Int × Date)
    (entries0 : List PlanningEntryRead) :
    ∀ (opts : List (ℚ × Nat × Int)) (st : RelaxState) (total : ℚ),
      (∀ cand ∈ opts, candOk sh entries0 bp cand ∧
        ∀ e0, entries0.get? cand.2.1 = some e0 → weekKeyOf e0 = key) →
      List.Forall₂ (entryPrimeRel bp) entries0 st.entries →
      (∀ k, st.weekly_totals k = weekTotOf sh st.entries k) →
      (∀ r, st.monthly_totals r = monthHoursSum sh st.entries r) →
      total = weekTotOf sh st.entries key →
      (∀ k, (weekly_relax_inner sh wl key opts st total).weekly_totals k =
        weekTotOf sh (weekly_relax_inner sh wl key opts st total).entries k) ∧
      (∀ r, (weekly_relax_inner sh wl key opts st total).monthly_totals r =
        monthHoursSum sh (weekly_relax_inner sh wl key opts st total).entries r) ∧
      (weekTotOf sh (weekly_relax_inner sh wl key opts st total).entries key ≤ (wl : ℚ) ∨
        ∀ cand ∈ opts, noCandAt sh bp
          (weekly_relax_inner sh wl key opts st total).entries cand.2.1) := by
  intro opts
  induction opts with
  | nil =>
    intro st total _ _ hsw hsm _
    rw [weekly_relax_inner]
    exact ⟨hsw, hsm, Or.inr (fun cand hc => absurd hc (List.not_mem_nil cand))⟩
  | cons o rest ih =>
    obtain ⟨d, idx, pc⟩ := o
    intro st total hopts hrel hsw hsm htot
    rw [weekly_relax_inner]
    split
    · rename_i hle
      exact ⟨hsw, hsm, Or.inl (htot ▸ hle)⟩
    · dsimp only
      obtain ⟨⟨e0h, ch, hget0, hcode0, hlk0, hdpos⟩, hkey0⟩ :=
        hopts (d, idx, pc) (List.mem_cons_self _ _)
      have hbpv : ∀ cand ∈ rest, ∃ c, bp.lookup c = some cand.2.2 := by
        intro cand hc
        obtain ⟨⟨e0x, cx, _, _, hlkx, _⟩, _⟩ := hopts cand (List.mem_cons_of_mem _ hc)
        exact ⟨cx, hlkx⟩
      have hoptsr := fun cand hc => hopts cand (List.mem_cons_of_mem _ hc)
      rcases mark_conversion_cases sh st.entries idx pc with
        ⟨heq, hinfo⟩ | ⟨e, p, hgetc, hlp, hltp, heq⟩
      · -- no-op step
        rw [heq]
        dsimp only
        rw [if_pos (le_refl (0 : ℚ))]
        have hnoc : noCandAt sh bp st.entries idx := by
          intro e2 he2
          rcases hinfo e2 he2 with hpcc | hle2
          · exact bp_value_noCand sh bp hdisj hlk0 e2 hpcc
          · intro c2 hc2 pc2 hpc2
            obtain ⟨x0, hx0, hrx⟩ := forall2_get_left hrel he2
            rw [hget0] at hx0
            obtain rfl := Option.some.inj hx0
            rcases hrx with rfl | ⟨_, _, c3, p3, hcode3, hlk3, hcode2⟩
            · rw [hcode0] at hc2
              obtain rfl := Option.some.inj hc2
              rw [hlk0] at hpc2
              obtain rfl := Option.some.inj hpc2
              have hH : entryHours sh e2 = hoursOf sh ch := by
                unfold entryHours hoursOf
                rw [hcode0]
                rfl
              rw [hH] at hle2
              unfold primeDelta
              exact sub_nonpos.mpr hle2
            · rw [hcode2] at hc2
              obtain rfl := Option.some.inj hc2
              rw [hdisj (c3, p3) (mem_of_lookup_eq_some hlk3)] at hpc2
              cases hpc2
        obtain ⟨sw2, sm2, post2⟩ := ih { st with entries := st.entries } total
          hoptsr hrel hsw hsm htot
        refine ⟨sw2, sm2, ?_⟩
        rcases post2 with hle2 | hall2
        · exact Or.inl hle2
        · refine Or.inr ?_
          intro cand hc
          rcases List.mem_cons.mp hc with rfl | hc2
          · exact weekly_inner_noCand_stable sh bp hdisj wl key rest _ total
              (d, idx, pc).2.1 hbpv hnoc
          · exact hall2 cand hc2
      · -- conversion step
        rw [heq]
        dsimp only
        have hdposq : (0 : ℚ) < entryHours sh e - p := sub_pos.mpr hltp
        rw [if_neg (not_le.mpr hdposq)]
        have hrid2 : (((st.entries.set idx
            { e with
              shift_code := some pc,
              comment :=
                if commentHasPrimeTag (e.comment.getD "AUTO-STUB") then e.comment
                else some ((e.comment.getD "AUTO-STUB") ++ " (prime adjustment)") }).get?
            idx).map (fun e3 => e3.resource_id)).getD 0 = e.resource_id := by
          rw [get_set_self _ _ _ e hgetc]
          rfl
        rw [hrid2]
        -- facts about the written entry
        have hkeye : weekKeyOf e = key := by
          obtain ⟨x0, hx0, hrx⟩ := forall2_get_left hrel hgetc
          rw [hget0] at hx0
          obtain rfl := Option.some.inj hx0
          rcases hrx with rfl | ⟨h1, h2, _⟩
          · exact hkey0 e hget0
          · rw [show weekKeyOf e = weekKeyOf e0h from by
              unfold weekKeyOf
              rw [h1, h2]]
            exact hkey0 e0h hget0
        have hEnew : entryHours sh
            { e with
              shift_code := some pc,
              comment :=
                if commentHasPrimeTag (e.comment.getD "AUTO-STUB") then e.comment
                else some ((e.comment.getD "AUTO-STUB") ++ " (prime adjustment)") } = p := by
          unfold entryHours
          rw [show ((({ e with
              shift_code := some pc,
              comment :=
                if commentHasPrimeTag (e.comment.getD "AUTO-STUB") then e.comment
                else some ((e.comment.getD "AUTO-STUB") ++ " (prime adjustment)") } :
            PlanningEntryRead).shift_code).bind (fun c => sh.lookup c)) = sh.lookup pc from rfl]
          rw [hlp]
          rfl
        have hwset := weekTot_set sh st.entries idx
          { e with
              shift_code := some pc,
              comment :=
                if commentHasPrimeTag (e.comment.getD "AUTO-STUB") then e.comment
                else some ((e.comment.getD "AUTO-STUB") ++ " (prime adjustment)") }
          e hgetc rfl rfl
        have hmset := monthTot_set sh st.entries idx
          { e with
              shift_code := some pc,
              comment :=
                if commentHasPrimeTag (e.comment.getD "AUTO-STUB") then e.comment
                else some ((e.comment.getD "AUTO-STUB") ++ " (prime adjustment)") }
          e hgetc rfl
        have hrel2 : List.Forall₂ (entryPrimeRel bp) entries0
            (st.entries.set idx
              { e with
              shift_code := some pc,
              comment :=
                if commentHasPrimeTag (e.comment.getD "AUTO-STUB") then e.comment
                else some ((e.comment.getD "AUTO-STUB") ++ " (prime adjustment)") }) := by
          have h0 := mark_conversion_primeRel bp sh entries0 st.entries idx pc
            ⟨e0h, ch, hget0, hcode0, hlk0⟩ hrel
          rw [heq] at h0
          exact h0
        have hsw2 : ∀ k, (if k == key then total - (entryHours sh e - p)
              else st.weekly_totals k) =
            weekTotOf sh (st.entries.set idx
              { e with
              shift_code := some pc,
              comment :=
                if commentHasPrimeTag (e.comment.getD "AUTO-STUB") then e.comment
                else some ((e.comment.getD "AUTO-STUB") ++ " (prime adjustment)") }) k := by
          intro k
          rw [hwset k, hEnew]
          by_cases hk : (k == key) = true
          · obtain rfl := beq_iff_eq.mp hk
            rw [if_pos hk, htot,
              if_pos (show (weekKeyOf e == k) = true from beq_iff_eq.mpr hkeye)]
          · rw [if_neg hk,
              show (weekKeyOf e == k) = false from by
                rw [hkeye]
                exact beq_eq_false_iff_ne.mpr
                  (fun hh => (beq_eq_false_iff_ne.mp
                    (Bool.eq_false_iff.mpr hk)) hh.symm),
              if_neg Bool.false_ne_true, hsw k]
            ring
        have hsm2 : ∀ r, (if r == e.resource_id then
              st.monthly_totals r - (entryHours sh e - p)
              else st.monthly_totals r) =
            monthHoursSum sh (st.entries.set idx
              { e with
              shift_code := some pc,
              comment :=
                if commentHasPrimeTag (e.comment.getD "AUTO-STUB") then e.comment
                else some ((e.comment.getD "AUTO-STUB") ++ " (prime adjustment)") }) r := by
          intro r
          rw [hmset r, hEnew]
          by_cases hr : (r == e.resource_id) = true
          · rw [if_pos hr, hsm r,
              if_pos (show (e.resource_id == r) = true from
                beq_iff_eq.mpr (beq_iff_eq.mp hr).symm)]
          · rw [if_neg hr,
              show (e.resource_id == r) = false from
                beq_eq_false_iff_ne.mpr
                  (fun hh => (beq_eq_false_iff_ne.mp
                    (Bool.eq_false_iff.mpr hr)) hh.symm),
              if_neg Bool.false_ne_true, hsm r]
            ring
        have htot2 : total - (entryHours sh e - p) =
            weekTotOf sh (st.entries.set idx
              { e with
              shift_code := some pc,
              comment :=
                if commentHasPrimeTag (e.comment.getD "AUTO-STUB") then e.comment
                else some ((e.comment.getD "AUTO-STUB") ++ " (prime adjustment)") }) key := by
          rw [hwset key, hEnew, htot,
            if_pos (show (weekKeyOf e == key) = true from beq_iff_eq.mpr hkeye)]
        obtain ⟨sw2, sm2, post2⟩ := ih
          { entries := st.entries.set idx
              { e with
              shift_code := some pc,
              comment :=
                if commentHasPrimeTag (e.comment.getD "AUTO-STUB") then e.comment
                else some ((e.comment.getD "AUTO-STUB") ++ " (prime adjustment)") },
            weekly_totals := fun k => if k == key then total - (entryHours sh e - p)
              else st.weekly_totals k,
            monthly_totals := fun r => if r == e.resource_id then
              st.monthly_totals r - (entryHours sh e - p)
              else st.monthly_totals r }
          (total - (entryHours sh e - p)) hoptsr hrel2 hsw2 hsm2 htot2
        refine ⟨sw2, sm2, ?_⟩
        rcases post2 with hle2 | hall2
        · exact Or.inl hle2
        · refine Or.inr ?_
          intro cand hc
          rcases List.mem_cons.mp hc with rfl | hc2
          · refine weekly_inner_noCand_stable sh bp hdisj wl key rest _ _
              (d, idx, pc).2.1 hbpv ?_
            intro e2 he2
            rw [get_set_self _ _ _ e hgetc] at he2
            obtain rfl := Option.some.inj he2
            exact bp_value_noCand sh bp hdisj hlk0 _ rfl
          · exact hall2 cand hc2

/-- Postcondition of the monthly inner loop: monthly totals stay synchronised,
and at exit either the resource's total is within the target limit or every
option's position can never be a candidate again. -/
theorem monthly_inner_post (sh : List (Int × ℚ)) (bp : List (Int × Int))
    (hdisj : ∀ q ∈ bp, bp.lookup q.2 = none) (tl : ℚ) (rid : Int)
    (entries0 : List PlanningEntryRead) :
    ∀ (opts : List (ℚ × Nat × Int)) (st : RelaxState) (total : ℚ),
      (∀ cand ∈ opts, candOk sh entries0 bp cand ∧
        ∀ e0, entries0.get? cand.2.1 = some e0 → e0.resource_id = rid) →
      List.Forall₂ (entryPrimeRel bp) entries0 st.entries →
      (∀ r, st.monthly_totals r = monthHoursSum sh st.entries r) →
      total = monthHoursSum sh st.entries rid →
      (∀ r, (monthly_relax_inner sh tl rid opts st total).monthly_totals r =
        monthHoursSum sh (monthly_relax_inner sh tl rid opts st total).entries r) ∧
      (monthHoursSum sh (monthly_relax_inner sh tl rid opts st total).entries rid ≤ tl ∨
        ∀ cand ∈ opts, noCandAt sh bp
          (monthly_relax_inner sh tl rid opts st total).entries cand.2.1) := by
  intro opts
  induction opts with
  | nil =>
    intro st total _ _ hsm _
    rw [monthly_relax_inner]
    exact ⟨hsm, Or.inr (fun cand hc => absurd hc (List.not_mem_nil cand))⟩
  | cons o rest ih =>
    obtain ⟨d, idx, pc⟩ := o
    intro st total hopts hrel hsm htot
    rw [monthly_relax_inner]
    split
    · rename_i hle
      exact ⟨hsm, Or.inl (htot ▸ hle)⟩
    · dsimp only
      obtain ⟨⟨e0h, ch, hget0, hcode0, hlk0, hdpos⟩, hkey0⟩ :=
        hopts (d, idx, pc) (List.mem_cons_self _ _)
      have hbpv : ∀ cand ∈ rest, ∃ c, bp.lookup c = some cand.2.2 := by
        intro cand hc
        obtain ⟨⟨e0x, cx, _, _, hlkx, _⟩, _⟩ := hopts cand (List.mem_cons_of_mem _ hc)
        exact ⟨cx, hlkx⟩
      have hoptsr := fun cand hc => hopts cand (List.mem_cons_of_mem _ hc)
      rcases mark_conversion_cases sh st.entries idx pc with
        ⟨heq, hinfo⟩ | ⟨e, p, hgetc, hlp, hltp, heq⟩
      · rw [heq]
        dsimp only
        rw [if_pos (le_refl (0 : ℚ))]
        have hnoc : noCandAt sh bp st.entries idx := by
          intro e2 he2
          rcases hinfo e2 he2 with hpcc | hle2
          · exact bp_value_noCand sh bp hdisj hlk0 e2 hpcc
          · intro c2 hc2 pc2 hpc2
            obtain ⟨x0, hx0, hrx⟩ := forall2_get_left hrel he2
            rw [hget0] at hx0
            obtain rfl := Option.some.inj hx0
            rcases hrx with rfl | ⟨_, _, c3, p3, hcode3, hlk3, hcode2⟩
            · rw [hcode0] at hc2
              obtain rfl := Option.some.inj hc2
              rw [hlk0] at hpc2
              obtain rfl := Option.some.inj hpc2
              have hH : entryHours sh e2 = hoursOf sh ch := by
                unfold entryHours hoursOf
                rw [hcode0]
                rfl
              rw [hH] at hle2
              unfold primeDelta
              exact sub_nonpos.mpr hle2
            · rw [hcode2] at hc2
              obtain rfl := Option.some.inj hc2
              rw [hdisj (c3, p3) (mem_of_lookup_eq_some hlk3)] at hpc2
              cases hpc2
        obtain ⟨sm2, post2⟩ := ih { st with entries := st.entries } total
          hoptsr hrel hsm htot
        refine ⟨sm2, ?_⟩
        rcases post2 with hle2 | hall2
        · exact Or.inl hle2
        · refine Or.inr ?_
          intro cand hc
          rcases List.mem_cons.mp hc with rfl | hc2
          · exact monthly_inner_noCand_stable sh bp hdisj tl rid rest _ total
              (d, idx, pc).2.1 hbpv hnoc
          · exact hall2 cand hc2
      · rw [heq]
        dsimp only
        have hdposq : (0 : ℚ) < entryHours sh e - p := sub_pos.mpr hltp
        rw [if_neg (not_le.mpr hdposq)]
        have hdate2 : (((st.entries.set idx
            { e with
              shift_code := some pc,
              comment :=
                if commentHasPrimeTag (e.comment.getD "AUTO-STUB") then e.comment
                else some ((e.comment.getD "AUTO-STUB") ++ " (prime adjustment)") }).get?
            idx).map (fun e3 => e3.date)).getD 0 = e.date := by
          rw [get_set_self _ _ _ e hgetc]
          rfl
        rw [hdate2]
        have hride : e.resource_id = rid := by
          obtain ⟨x0, hx0, hrx⟩ := forall2_get_left hrel hgetc
          rw [hget0] at hx0
          obtain rfl := Option.some.inj hx0
          rcases hrx with rfl | ⟨h1, _, _⟩
          · exact hkey0 e hget0
          · rw [h1]
            exact hkey0 e0h hget0
        have hEnew : entryHours sh
            { e with
              shift_code := some pc,
              comment :=
                if commentHasPrimeTag (e.comment.getD "AUTO-STUB") then e.comment
                else some ((e.comment.getD "AUTO-STUB") ++ " (prime adjustment)") } = p := by
          unfold entryHours
          rw [show ((({ e with
              shift_code := some pc,
              comment :=
                if commentHasPrimeTag (e.comment.getD "AUTO-STUB") then e.comment
                else some ((e.comment.getD "AUTO-STUB") ++ " (prime adjustment)") } :
            PlanningEntryRead).shift_code).bind (fun c => sh.lookup c)) = sh.lookup pc from rfl]
          rw [hlp]
          rfl
        have hmset := monthTot_set sh st.entries idx
          { e with
              shift_code := some pc,
              comment :=
                if commentHasPrimeTag (e.comment.getD "AUTO-STUB") then e.comment
                else some ((e.comment.getD "AUTO-STUB") ++ " (prime adjustment)") }
          e hgetc rfl
        have hrel2 : List.Forall₂ (entryPrimeRel bp) entries0
            (st.entries.set idx
              { e with
                shift_code := some pc,
                comment :=
                  if commentHasPrimeTag (e.comment.getD "AUTO-STUB") then e.comment
                  else some ((e.comment.getD "AUTO-STUB") ++ " (prime adjustment)") }) := by
          have h0 := mark_conversion_primeRel bp sh entries0 st.entries idx pc
            ⟨e0h, ch, hget0, hcode0, hlk0⟩ hrel
          rw [heq] at h0
          exact h0
        have hsm2 : ∀ r, (if r == rid then total - (entryHours sh e - p)
              else st.monthly_totals r) =
            monthHoursSum sh (st.entries.set idx
              { e with
                shift_code := some pc,
                comment :=
                  if commentHasPrimeTag (e.comment.getD "AUTO-STUB") then e.comment
                  else some ((e.comment.getD "AUTO-STUB") ++ " (prime adjustment)") }) r := by
          intro r
          rw [hmset r, hEnew]
          by_cases hr : (r == rid) = true
          · obtain rfl := beq_iff_eq.mp hr
            rw [if_pos hr, htot,
              if_pos (show (e.resource_id == r) = true from beq_iff_eq.mpr hride)]
          · rw [if_neg hr,
              show (e.resource_id == r) = false from by
                rw [hride]
                exact beq_eq_false_iff_ne.mpr
                  (fun hh => (beq_eq_false_iff_ne.mp
                    (Bool.eq_false_iff.mpr hr)) hh.symm),
              if_neg Bool.false_ne_true, hsm r]
            ring
        have htot2 : total - (entryHours sh e - p) =
            monthHoursSum sh (st.entries.set idx
              { e with
                shift_code := some pc,
                comment :=
                  if commentHasPrimeTag (e.comment.getD "AUTO-STUB") then e.comment
                  else some ((e.comment.getD "AUTO-STUB") ++ " (prime adjustment)") }) rid := by
          rw [hmset rid, hEnew, htot,
            if_pos (show (e.resource_id == rid) = true from beq_iff_eq.mpr hride)]
        obtain ⟨sm2, post2⟩ := ih
          { entries := st.entries.set idx
              { e with
                shift_code := some pc,
                comment :=
                  if commentHasPrimeTag (e.comment.getD "AUTO-STUB") then e.comment
                  else some ((e.comment.getD "AUTO-STUB") ++ " (prime adjustment)") },
            monthly_totals := fun r => if r == rid then total - (entryHours sh e - p)
              else st.monthly_totals r,
            weekly_totals := fun k => if k == (rid, isoWeekMonday e.date) then
              max (st.weekly_totals k - (entryHours sh e - p)) 0
              else st.weekly_totals k }
          (total - (entryHours sh e - p)) hoptsr hrel2 hsm2 htot2
        refine ⟨sm2, ?_⟩
        rcases post2 with hle2 | hall2
        · exact Or.inl hle2
        · refine Or.inr ?_
          intro cand hc
          rcases List.mem_cons.mp hc with rfl | hc2
          · refine monthly_inner_noCand_stable sh bp hdisj tl rid rest _ _
              (d, idx, pc).2.1 hbpv ?_
            intro e2 he2
            rw [get_set_self _ _ _ e hgetc] at he2
            obtain rfl := Option.some.inj he2
            exact bp_value_noCand sh bp hdisj hlk0 _ rfl
          · exact hall2 cand hc2

/-- Weekly key totals never increase along the pointwise relaxation relation. -/
theorem relax_weekTot_le (sh : List (Int × ℚ)) {l' l : List PlanningEntryRead}
    (h : List.Forall₂ (entryRelaxLE sh) l' l) (key : Int × Date) :
    weekTotOf sh l' key ≤ weekTotOf sh l key := by
  unfold weekTotOf
  refine relax_filter_sum_le sh _ ?_ h
  intro e' e hre
  rcases hre with rfl | ⟨h1, h2, _⟩
  · rfl
  · rw [show weekKeyOf e' = weekKeyOf e from by
      unfold weekKeyOf
      rw [h1, h2]]

/-- Monthly totals never increase along the pointwise relaxation relation. -/
theorem relax_monthTot_le (sh : List (Int × ℚ)) {l' l : List PlanningEntryRead}
    (h : List.Forall₂ (entryRelaxLE sh) l' l) (rid : Int) :
    monthHoursSum sh l' rid ≤ monthHoursSum sh l rid := by
  unfold monthHoursSum
  refine relax_filter_sum_le sh _ ?_ h
  intro e' e hre
  rcases hre with rfl | ⟨h1, _, _⟩
  · rfl
  · rw [h1]

/-- Postcondition of the whole weekly pass: totals stay synchronised and every
processed key ends within the weekly limit or with all its candidates
permanently spent. -/
theorem weekly_pass_post (sh : List (Int × ℚ)) (bp : List (Int × Int))
    (hdisj : ∀ q ∈ bp, bp.lookup q.2 = none) (wl : Int)
    (entries0 : List PlanningEntryRead) :
    ∀ (cands : List ((Int × Date) × List (ℚ × Nat × Int))) (st : RelaxState),
      (∀ kv ∈ cands, ∀ cand ∈ kv.2, candOk sh entries0 bp cand ∧
        ∀ e0, entries0.get? cand.2.1 = some e0 → weekKeyOf e0 = kv.1) →
      List.Forall₂ (entryPrimeRel bp) entries0 st.entries →
      (∀ k, st.weekly_totals k = weekTotOf sh st.entries k) →
      (∀ r, st.monthly_totals r = monthHoursSum sh st.entries r) →
      (∀ k, (weekly_relax_pass sh wl cands st).weekly_totals k =
        weekTotOf sh (weekly_relax_pass sh wl cands st).entries k) ∧
      (∀ r, (weekly_relax_pass sh wl cands st).monthly_totals r =
        monthHoursSum sh (weekly_relax_pass sh wl cands st).entries r) ∧
      (∀ kv ∈ cands,
        weekTotOf sh (weekly_relax_pass sh wl cands st).entries kv.1 ≤ (wl : ℚ) ∨
        ∀ cand ∈ kv.2, noCandAt sh bp
          (weekly_relax_pass sh wl cands st).entries cand.2.1) := by
  intro cands
  induction cands with
  | nil =>
    intro st _ _ hsw hsm
    unfold weekly_relax_pass
    rw [List.foldl_nil]
    exact ⟨hsw, hsm, fun kv hkv => absurd hkv (List.not_mem_nil kv)⟩
  | cons kv rest ih =>
    intro st hcands hrel hsw hsm
    have hkvh := hcands kv (List.mem_cons_self _ _)
    have hcandsr := fun kv2 hkv2 cand hc => hcands kv2 (List.mem_cons_of_mem _ hkv2) cand hc
    have hbpvd : ∀ kv2 ∈ rest, ∀ cand ∈ kv2.2, ∃ c, bp.lookup c = some cand.2.2 := by
      intro kv2 hkv2 cand hc
      obtain ⟨⟨e0x, cx, _, _, hlkx, _⟩, _⟩ := hcandsr kv2 hkv2 cand hc
      exact ⟨cx, hlkx⟩
    unfold weekly_relax_pass at ih ⊢
    rw [List.foldl_cons]
    dsimp only
    by_cases hle : st.weekly_totals kv.1 ≤ (wl : ℚ)
    · rw [if_pos hle]
      obtain ⟨sw2, sm2, post2⟩ := ih st hcandsr hrel hsw hsm
      refine ⟨sw2, sm2, ?_⟩
      intro kv2 hkv2
      rcases List.mem_cons.mp hkv2 with rfl | hkv3
      · refine Or.inl ?_
        have hle2 : weekTotOf sh st.entries kv2.1 ≤ (wl : ℚ) := by
          rw [← hsw kv2.1]
          exact hle
        refine le_trans ?_ hle2
        exact relax_weekTot_le sh (weekly_relax_pass_relax sh wl rest st) kv2.1
      · exact post2 kv2 hkv3
    · rw [if_neg hle]
      have hoptss : ∀ cand ∈ kv.2.insertionSort (fun a b => b.1 ≤ a.1),
          candOk sh entries0 bp cand ∧
          ∀ e0, entries0.get? cand.2.1 = some e0 → weekKeyOf e0 = kv.1 := by
        intro cand hc
        exact hkvh cand ((List.perm_insertionSort _ _).mem_iff.mp hc)
      obtain ⟨sw1, sm1, post1⟩ := weekly_inner_post sh bp hdisj wl kv.1 entries0
        (kv.2.insertionSort (fun a b => b.1 ≤ a.1)) st (st.weekly_totals kv.1)
        hoptss hrel hsw hsm (hsw kv.1)
      have hrel1 := weekly_relax_inner_primeRel bp sh wl kv.1 entries0
        (kv.2.insertionSort (fun a b => b.1 ≤ a.1)) st (st.weekly_totals kv.1)
        (fun cand hc => (hoptss cand hc).1) hrel
      obtain ⟨sw2, sm2, post2⟩ := ih _ hcandsr hrel1 sw1 sm1
      refine ⟨sw2, sm2, ?_⟩
      intro kv2 hkv2
      rcases List.mem_cons.mp hkv2 with rfl | hkv3
      · rcases post1 with hle1 | hall1
        · refine Or.inl (le_trans ?_ hle1)
          exact relax_weekTot_le sh (weekly_relax_pass_relax sh wl rest _) kv2.1
        · refine Or.inr ?_
          intro cand hc
          refine weekly_pass_noCand_stable sh bp hdisj wl rest _ cand.2.1 hbpvd ?_
          exact hall1 cand ((List.perm_insertionSort _ _).mem_iff.mpr hc)
      · exact post2 kv2 hkv3

/-- Postcondition of the whole monthly pass: monthly totals stay synchronised
and every processed resource with a target ends within it or with all its
candidates permanently spent. -/
theorem monthly_pass_post (sh : List (Int × ℚ)) (bp : List (Int × Int))
    (hdisj : ∀ q ∈ bp, bp.lookup q.2 = none)
    (rl : List (Int × SchedulingResource)) (entries0 : List PlanningEntryRead) :
    ∀ (cands : List (Int × List (ℚ × Nat × Int))) (st : RelaxState),
      (∀ kv ∈ cands, ∀ cand ∈ kv.2, candOk sh entries0 bp cand ∧
        ∀ e0, entries0.get? cand.2.1 = some e0 → e0.resource_id = kv.1) →
      List.Forall₂ (entryPrimeRel bp) entries0 st.entries →
      (∀ r, st.monthly_totals r = monthHoursSum sh st.entries r) →
      (∀ r, (monthly_relax_pass sh rl cands st).monthly_totals r =
        monthHoursSum sh (monthly_relax_pass sh rl cands st).entries r) ∧
      (∀ kv ∈ cands, ∀ target, monthTargetOf rl kv.1 = some target →
        monthHoursSum sh (monthly_relax_pass sh rl cands st).entries kv.1 ≤
          target + MONTHLY_OVERRUN_TOLERANCE ∨
        ∀ cand ∈ kv.2, noCandAt sh bp
          (monthly_relax_pass sh rl cands st).entries cand.2.1) := by
  intro cands
  induction cands with
  | nil =>
    intro st _ _ hsm
    unfold monthly_relax_pass
    rw [List.foldl_nil]
    exact ⟨hsm, fun kv hkv => absurd hkv (List.not_mem_nil kv)⟩
  | cons kv rest ih =>
    intro st hcands hrel hsm
    have hkvh := hcands kv (List.mem_cons_self _ _)
    have hcandsr := fun kv2 hkv2 cand hc => hcands kv2 (List.mem_cons_of_mem _ hkv2) cand hc
    have hbpvd : ∀ kv2 ∈ rest, ∀ cand ∈ kv2.2, ∃ c, bp.lookup c = some cand.2.2 := by
      intro kv2 hkv2 cand hc
      obtain ⟨⟨e0x, cx, _, _, hlkx, _⟩, _⟩ := hcandsr kv2 hkv2 cand hc
      exact ⟨cx, hlkx⟩
    unfold monthly_relax_pass at ih ⊢
    rw [List.foldl_cons]
    dsimp only
    rcases htgt : (rl.lookup kv.1).bind (fun r => r.target_hours) with _ | target
    · obtain ⟨sm2, post2⟩ := ih st hcandsr hrel hsm
      refine ⟨sm2, ?_⟩
      intro kv2 hkv2
      rcases List.mem_cons.mp hkv2 with rfl | hkv3
      · intro target2 htgt2
        rw [show monthTargetOf rl kv2.1 = (rl.lookup kv2.1).bind (fun r => r.target_hours)
          from rfl, htgt] at htgt2
        cases htgt2
      · exact post2 kv2 hkv3
    · dsimp only
      by_cases hle : st.monthly_totals kv.1 ≤ target + MONTHLY_OVERRUN_TOLERANCE
      · rw [if_pos hle]
        obtain ⟨sm2, post2⟩ := ih st hcandsr hrel hsm
        refine ⟨sm2, ?_⟩
        intro kv2 hkv2
        rcases List.mem_cons.mp hkv2 with rfl | hkv3
        · intro target2 htgt2
          rw [show monthTargetOf rl kv2.1 = (rl.lookup kv2.1).bind (fun r => r.target_hours)
            from rfl, htgt] at htgt2
          obtain rfl := Option.some.inj htgt2
          refine Or.inl ?_
          have hle2 : monthHoursSum sh st.entries kv2.1 ≤
              target + MONTHLY_OVERRUN_TOLERANCE := by
            rw [← hsm kv2.1]
            exact hle
          refine le_trans ?_ hle2
          exact relax_monthTot_le sh (monthly_relax_pass_relax sh rl rest st) kv2.1
        · exact post2 kv2 hkv3
      · rw [if_neg hle]
        have hoptss : ∀ cand ∈ kv.2.insertionSort (fun a b => b.1 ≤ a.1),
            candOk sh entries0 bp cand ∧
            ∀ e0, entries0.get? cand.2.1 = some e0 → e0.resource_id = kv.1 := by
          intro cand hc
          exact hkvh cand ((List.perm_insertionSort _ _).mem_iff.mp hc)
        obtain ⟨sm1, post1⟩ := monthly_inner_post sh bp hdisj
          (target + MONTHLY_OVERRUN_TOLERANCE) kv.1 entries0
          (kv.2.insertionSort (fun a b => b.1 ≤ a.1)) st (st.monthly_totals kv.1)
          hoptss hrel hsm (hsm kv.1)
        have hrel1 := monthly_relax_inner_primeRel bp sh
          (target + MONTHLY_OVERRUN_TOLERANCE) kv.1 entries0
          (kv.2.insertionSort (fun a b => b.1 ≤ a.1)) st (st.monthly_totals kv.1)
          (fun cand hc => (hoptss cand hc).1) hrel
        obtain ⟨sm2, post2⟩ := ih _ hcandsr hrel1 sm1
        refine ⟨sm2, ?_⟩
        intro kv2 hkv2
        rcases List.mem_cons.mp hkv2 with rfl | hkv3
        · intro target2 htgt2
          rw [show monthTargetOf rl kv2.1 = (rl.lookup kv2.1).bind (fun r => r.target_hours)
            from rfl, htgt] at htgt2
          obtain rfl := Option.some.inj htgt2
          rcases post1 with hle1 | hall1
          · refine Or.inl (le_trans ?_ hle1)
            exact relax_monthTot_le sh (monthly_relax_pass_relax sh rl rest _) kv2.1
          · refine Or.inr ?_
            intro cand hc
            refine monthly_pass_noCand_stable sh bp hdisj rl rest _ cand.2.1 hbpvd ?_
            exact hall1 cand ((List.perm_insertionSort _ _).mem_iff.mpr hc)
        · exact post2 kv2 hkv3

/-- The weekly pass is the identity when every candidate key is already
within the weekly limit (or has no candidates). -/
theorem weekly_pass_skip (sh : List (Int × ℚ)) (wl : Int) :
    ∀ (cands : List ((Int × Date) × List (ℚ × Nat × Int))) (st : RelaxState),
      (∀ kv ∈ cands, st.weekly_totals kv.1 ≤ (wl : ℚ) ∨ kv.2 = []) →
      weekly_relax_pass sh wl cands st = st := by
  intro cands
  induction cands with
  | nil =>
    intro st _
    unfold weekly_relax_pass
    rw [List.foldl_nil]
  | cons kv rest ih =>
    intro st h
    unfold weekly_relax_pass at ih ⊢
    rw [List.foldl_cons]
    dsimp only
    by_cases hle : st.weekly_totals kv.1 ≤ (wl : ℚ)
    · rw [if_pos hle]
      exact ih st (fun kv2 hkv2 => h kv2 (List.mem_cons_of_mem _ hkv2))
    · rw [if_neg hle]
      rcases h kv (List.mem_cons_self _ _) with hle2 | hnil
      · exact absurd hle2 hle
      · rw [hnil]
        exact ih st (fun kv2 hkv2 => h kv2 (List.mem_cons_of_mem _ hkv2))

/-- The monthly pass is the identity when every candidate resource with a
target is already within tolerance (or has no candidates). -/
theorem monthly_pass_skip (sh : List (Int × ℚ)) (rl : List (Int × SchedulingResource)) :
    ∀ (cands : List (Int × List (ℚ × Nat × Int))) (st : RelaxState),
      (∀ kv ∈ cands, (∀ target, monthTargetOf rl kv.1 = some target →
          st.monthly_totals kv.1 ≤ target + MONTHLY_OVERRUN_TOLERANCE) ∨ kv.2 = []) →
      monthly_relax_pass sh rl cands st = st := by
  intro cands
  induction cands with
  | nil =>
    intro st _
    unfold monthly_relax_pass
    rw [List.foldl_nil]
  | cons kv rest ih =>
    intro st h
    unfold monthly_relax_pass at ih ⊢
    rw [List.foldl_cons]
    dsimp only
    rcases htgt : (rl.lookup kv.1).bind (fun r => r.target_hours) with _ | target
    · exact ih st (fun kv2 hkv2 => h kv2 (List.mem_cons_of_mem _ hkv2))
    · dsimp only
      by_cases hle : st.monthly_totals kv.1 ≤ target + MONTHLY_OVERRUN_TOLERANCE
      · rw [if_pos hle]
        exact ih st (fun kv2 hkv2 => h kv2 (List.mem_cons_of_mem _ hkv2))
      · rw [if_neg hle]
        rcases h kv (List.mem_cons_self _ _) with hok | hnil
        · exact absurd (hok target htgt) hle
        · rw [hnil]
          exact ih st (fun kv2 hkv2 => h kv2 (List.mem_cons_of_mem _ hkv2))

/-- A lookup over a list whose keys all differ from `k` fails. -/
theorem lookup_eq_none_of_forall {κ α : Type} [BEq κ] [LawfulBEq κ] :
    ∀ (l : List (κ × α)) (k : κ), (∀ p ∈ l, ¬(p.1 = k)) → l.lookup k = none := by
  intro l
  induction l with
  | nil => intro k _; rfl
  | cons p rest ih =>
    intro k h
    obtain ⟨a, b⟩ := p
    simp only [List.lookup]
    have hne : (k == a) = false := by
      refine beq_eq_false_iff_ne.mpr ?_
      intro heq
      exact h (a, b) (List.mem_cons_self _ _) heq.symm
    rw [hne]
    exact ih k (fun q hq => h q (List.mem_cons_of_mem _ hq))

/-- No prime code of the (filtered) base-to-prime table is itself a base key
of that table: a converted entry can never become a candidate again. -/
theorem bp_filter_disj (sh : List (Int × ℚ)) :
    ∀ q ∈ BASE_TO_PRIME_SHIFT.filter (fun p =>
        (sh.lookup p.1).isSome && (sh.lookup p.2).isSome),
      (BASE_TO_PRIME_SHIFT.filter (fun p =>
        (sh.lookup p.1).isSome && (sh.lookup p.2).isSome)).lookup q.2 = none := by
  intro q hq
  have hmain : ∀ a ∈ BASE_TO_PRIME_SHIFT, ∀ b ∈ BASE_TO_PRIME_SHIFT, ¬(b.1 = a.2) := by
    decide
  refine lookup_eq_none_of_forall _ _ ?_
  intro p hp
  exact hmain q (List.mem_of_mem_filter hq) p (List.mem_of_mem_filter hp)

/-- The prime relation preserves the weekly key and the resource id. -/
theorem primeRel_weekKey (bp : List (Int × Int)) {e0 e : PlanningEntryRead}
    (h : entryPrimeRel bp e0 e) :
    weekKeyOf e = weekKeyOf e0 ∧ e.resource_id = e0.resource_id := by
  rcases h with rfl | ⟨h1, h2, _⟩
  · exact ⟨rfl, rfl⟩
  · refine ⟨?_, h1⟩
    unfold weekKeyOf
    rw [h1, h2]

/-- An output entry never again a candidate: it is converted (prime codes are
not base keys), or it is an unchanged entry that the continuation can handle. -/
theorem relax_entry_noCand (sh : List (Int × ℚ)) (bp : List (Int × Int))
    (hdisj : ∀ q ∈ bp, bp.lookup q.2 = none)
    (e0 e : PlanningEntryRead) (hre : entryPrimeRel bp e0 e)
    (hnc : ∀ c pc, e0.shift_code = some c → bp.lookup c = some pc →
      0 < primeDelta sh c pc → noCand sh bp e) :
    noCand sh bp e := by
  rcases hre with rfl | ⟨_, _, c, p2, hc0, hlk, hce⟩
  · intro c hc pc hpc
    by_cases hd : 0 < primeDelta sh c pc
    · exact hnc c pc hc hpc hd c hc pc hpc
    · exact le_of_not_lt hd
  · exact bp_value_noCand sh bp hdisj hlk e hce

/-- After the scan and both conversion passes, every weekly key is within the
weekly limit or none of its entries can ever be converted again, and likewise
for every monthly target; the output stays pointwise prime-related to the
input. -/
theorem relax_passes_post (sh : List (Int × ℚ)) (bp : List (Int × Int))
    (hdisj : ∀ q ∈ bp, bp.lookup q.2 = none) (wl : Int)
    (rl : List (Int × SchedulingResource)) (entries0 : List PlanningEntryRead)
    (scan : RelaxScan) (L : List PlanningEntryRead)
    (hL : L = (monthly_relax_pass sh rl scan.monthly_candidates
      (weekly_relax_pass sh wl scan.weekly_candidates
        { entries := entries0, weekly_totals := scan.weekly_totals,
          monthly_totals := scan.monthly_totals })).entries)
    (hcands : scanCandsOk sh entries0 bp scan)
    (hsw : ∀ k, scan.weekly_totals k = weekTotOf sh entries0 k)
    (hsm : ∀ r, scan.monthly_totals r = monthHoursSum sh entries0 r)
    (hcomp : ∀ i e0, entries0.get? i = some e0 → ∀ c pc, e0.shift_code = some c →
      bp.lookup c = some pc → 0 < primeDelta sh c pc →
      (∃ cand : ℚ × Nat × Int, cand.2.1 = i ∧
        cand ∈ ((scan.weekly_candidates.lookup (weekKeyOf e0)).getD [])) ∧
      (∃ cand : ℚ × Nat × Int, cand.2.1 = i ∧
        cand ∈ ((scan.monthly_candidates.lookup e0.resource_id).getD []))) :
    List.Forall₂ (entryPrimeRel bp) entries0 L ∧
    (∀ key, weekTotOf sh L key ≤ (wl : ℚ) ∨
      ∀ i e, L.get? i = some e → weekKeyOf e = key → noCand sh bp e) ∧
    (∀ rid target, monthTargetOf rl rid = some target →
      monthHoursSum sh L rid ≤ target + MONTHLY_OVERRUN_TOLERANCE ∨
      ∀ i e, L.get? i = some e → e.resource_id = rid → noCand sh bp e) := by
  obtain ⟨hcw, hcm⟩ := hcands
  have hbpvdm : ∀ kv ∈ scan.monthly_candidates, ∀ cand ∈ kv.2,
      ∃ c, bp.lookup c = some cand.2.2 := by
    intro kv hkv cand hc
    obtain ⟨⟨e0x, cx, _, _, hlkx, _⟩, _⟩ := hcm kv hkv cand hc
    exact ⟨cx, hlkx⟩
  obtain ⟨sw1, sm1, post1⟩ := weekly_pass_post sh bp hdisj wl entries0
    scan.weekly_candidates
    { entries := entries0, weekly_totals := scan.weekly_totals,
      monthly_totals := scan.monthly_totals }
    hcw (forall2_prime_refl bp entries0) hsw hsm
  have hrel1 := weekly_relax_pass_primeRel bp sh wl entries0 scan.weekly_candidates
    { entries := entries0, weekly_totals := scan.weekly_totals,
      monthly_totals := scan.monthly_totals }
    (fun kv hkv cand hc => (hcw kv hkv cand hc).1) (forall2_prime_refl bp entries0)
  obtain ⟨sm2, post2⟩ := monthly_pass_post sh bp hdisj rl entries0
    scan.monthly_candidates
    (weekly_relax_pass sh wl scan.weekly_candidates
      { entries := entries0, weekly_totals := scan.weekly_totals,
        monthly_totals := scan.monthly_totals })
    hcm hrel1 sm1
  have hrel2 := monthly_relax_pass_primeRel bp sh rl entries0 scan.monthly_candidates
    (weekly_relax_pass sh wl scan.weekly_candidates
      { entries := entries0, weekly_totals := scan.weekly_totals,
        monthly_totals := scan.monthly_totals })
    (fun kv hkv cand hc => (hcm kv hkv cand hc).1) hrel1
  have hLE2 := monthly_relax_pass_relax sh rl scan.monthly_candidates
    (weekly_relax_pass sh wl scan.weekly_candidates
      { entries := entries0, weekly_totals := scan.weekly_totals,
        monthly_totals := scan.monthly_totals })
  subst hL
  refine ⟨hrel2, ?_, ?_⟩
  · intro key
    rcases hlk : scan.weekly_candidates.lookup key with _ | val
    · refine Or.inr ?_
      intro i e hget hkey
      obtain ⟨e0, hg0, hre⟩ := forall2_get_left hrel2 hget
      refine relax_entry_noCand sh bp hdisj e0 e hre ?_
      intro c pc hc hbp hd
      exfalso
      obtain ⟨⟨cand, hcidx, hcmem⟩, _⟩ := hcomp i e0 hg0 c pc hc hbp hd
      have hk0 : weekKeyOf e0 = key := ((primeRel_weekKey bp hre).1).symm.trans hkey
      rw [hk0, hlk] at hcmem
      exact absurd hcmem (List.not_mem_nil _)
    · have hkvmem : (key, val) ∈ scan.weekly_candidates := mem_of_lookup_eq_some hlk
      rcases post1 (key, val) hkvmem with hle1 | hall1
      · refine Or.inl (le_trans ?_ hle1)
        exact relax_weekTot_le sh hLE2 key
      · refine Or.inr ?_
        intro i e hget hkey
        obtain ⟨e0, hg0, hre⟩ := forall2_get_left hrel2 hget
        refine relax_entry_noCand sh bp hdisj e0 e hre ?_
        intro c pc hc hbp hd
        obtain ⟨⟨cand, hcidx, hcmem⟩, _⟩ := hcomp i e0 hg0 c pc hc hbp hd
        have hk0 : weekKeyOf e0 = key := ((primeRel_weekKey bp hre).1).symm.trans hkey
        rw [hk0, hlk] at hcmem
        have hcv : cand ∈ val := hcmem
        have hstab := monthly_pass_noCand_stable sh bp hdisj rl scan.monthly_candidates
          (weekly_relax_pass sh wl scan.weekly_candidates
            { entries := entries0, weekly_totals := scan.weekly_totals,
              monthly_totals := scan.monthly_totals })
          cand.2.1 hbpvdm (hall1 cand hcv)
        rw [hcidx] at hstab
        exact hstab e hget
  · intro rid target htgt
    rcases hlkm : scan.monthly_candidates.lookup rid with _ | val
    · refine Or.inr ?_
      intro i e hget hrid
      obtain ⟨e0, hg0, hre⟩ := forall2_get_left hrel2 hget
      refine relax_entry_noCand sh bp hdisj e0 e hre ?_
      intro c pc hc hbp hd
      exfalso
      obtain ⟨_, cand, hcidx, hcmem⟩ := hcomp i e0 hg0 c pc hc hbp hd
      have hr0 : e0.resource_id = rid := ((primeRel_weekKey bp hre).2).symm.trans hrid
      rw [hr0, hlkm] at hcmem
      exact absurd hcmem (List.not_mem_nil _)
    · have hkvmem : (rid, val) ∈ scan.monthly_candidates := mem_of_lookup_eq_some hlkm
      rcases post2 (rid, val) hkvmem target htgt with hle1 | hall1
      · exact Or.inl hle1
      · refine Or.inr ?_
        intro i e hget hrid
        obtain ⟨e0, hg0, hre⟩ := forall2_get_left hrel2 hget
        refine relax_entry_noCand sh bp hdisj e0 e hre ?_
        intro c pc hc hbp hd
        obtain ⟨_, cand, hcidx, hcmem⟩ := hcomp i e0 hg0 c pc hc hbp hd
        have hr0 : e0.resource_id = rid := ((primeRel_weekKey bp hre).2).symm.trans hrid
        rw [hr0, hlkm] at hcmem
        have hcv : cand ∈ val := hcmem
        have hall := hall1 cand hcv
        rw [hcidx] at hall
        exact hall e hget

/-- The postconditions of one full run of the relaxation's main branch. -/
theorem relax_main_post (sh : List (Int × ℚ)) (bp : List (Int × Int))
    (hdisj : ∀ q ∈ bp, bp.lookup q.2 = none) (wl : Int)
    (rl : List (Int × SchedulingResource)) (entries : List PlanningEntryRead) :
    List.Forall₂ (entryPrimeRel bp) entries (relax_main sh bp wl rl entries) ∧
    (∀ key, weekTotOf sh (relax_main sh bp wl rl entries) key ≤ (wl : ℚ) ∨
      ∀ i e, (relax_main sh bp wl rl entries).get? i = some e →
        weekKeyOf e = key → noCand sh bp e) ∧
    (∀ rid target, monthTargetOf rl rid = some target →
      monthHoursSum sh (relax_main sh bp wl rl entries) rid ≤
        target + MONTHLY_OVERRUN_TOLERANCE ∨
      ∀ i e, (relax_main sh bp wl rl entries).get? i = some e →
        e.resource_id = rid → noCand sh bp e) := by
  have hql : ∀ q ∈ entries.enum, entries.get? q.1 = some q.2 := by
    intro q hq
    obtain ⟨i, e⟩ := q
    rw [List.get?_eq_getElem?]
    exact List.mem_enum_iff_getElem?.mp hq
  refine relax_passes_post sh bp hdisj wl rl entries
    (entries.enum.foldl (relax_scan_step sh bp)
      { weekly_totals := fun _ => 0, weekly_candidates := [],
        monthly_totals := fun _ => 0, monthly_candidates := [] })
    (relax_main sh bp wl rl entries) rfl ?_ ?_ ?_ ?_
  · exact relax_scan_candsOk sh bp entries entries.enum _ hql
      ⟨fun kv hkv => absurd hkv (List.not_mem_nil kv),
       fun kv hkv => absurd hkv (List.not_mem_nil kv)⟩
  · intro k
    obtain ⟨hw, _⟩ := relax_scan_totals sh bp entries.enum
      { weekly_totals := fun _ => 0, weekly_candidates := [],
        monthly_totals := fun _ => 0, monthly_candidates := [] }
    rw [hw k, List.enum_map_snd]
    simp
  · intro r
    obtain ⟨_, hm⟩ := relax_scan_totals sh bp entries.enum
      { weekly_totals := fun _ => 0, weekly_candidates := [],
        monthly_totals := fun _ => 0, monthly_candidates := [] }
    rw [hm r, List.enum_map_snd]
    simp
  · intro i e0 hg0 c pc hc hbp hd
    have hqmem : (i, e0) ∈ entries.enum := by
      refine List.mem_enum_iff_getElem?.mpr ?_
      rw [← List.get?_eq_getElem?]
      exact hg0
    exact relax_scan_complete sh bp entries.enum
      { weekly_totals := fun _ => 0, weekly_candidates := [],
        monthly_totals := fun _ => 0, monthly_candidates := [] }
      (i, e0) hqmem c pc hc hbp hd

/-- A second run of the main branch on a list already satisfying the two
postconditions changes nothing: every weekly key is within the limit or has
only dead candidates, and likewise monthly. -/
theorem relax_main_skip (sh : List (Int × ℚ)) (bp : List (Int × Int)) (wl : Int)
    (rl : List (Int × SchedulingResource)) (L : List PlanningEntryRead)
    (hP1 : ∀ key, weekTotOf sh L key ≤ (wl : ℚ) ∨
      ∀ i e, L.get? i = some e → weekKeyOf e = key → noCand sh bp e)
    (hP2 : ∀ rid target, monthTargetOf rl rid = some target →
      monthHoursSum sh L rid ≤ target + MONTHLY_OVERRUN_TOLERANCE ∨
      ∀ i e, L.get? i = some e → e.resource_id = rid → noCand sh bp e) :
    relax_main sh bp wl rl L = L := by
  have hql : ∀ q ∈ L.enum, L.get? q.1 = some q.2 := by
    intro q hq
    obtain ⟨i, e⟩ := q
    rw [List.get?_eq_getElem?]
    exact List.mem_enum_iff_getElem?.mp hq
  have main : ∀ (scan : RelaxScan),
      scanCandsOk sh L bp scan →
      (∀ k, scan.weekly_totals k = weekTotOf sh L k) →
      (∀ r, scan.monthly_totals r = monthHoursSum sh L r) →
      (monthly_relax_pass sh rl scan.monthly_candidates
        (weekly_relax_pass sh wl scan.weekly_candidates
          { entries := L, weekly_totals := scan.weekly_totals,
            monthly_totals := scan.monthly_totals })).entries = L := by
    intro scan hcands hsw hsm
    obtain ⟨hcw, hcm⟩ := hcands
    have hskipw : ∀ kv ∈ scan.weekly_candidates,
        ({ entries := L, weekly_totals := scan.weekly_totals,
           monthly_totals := scan.monthly_totals } : RelaxState).weekly_totals kv.1 ≤
          (wl : ℚ) ∨ kv.2 = [] := by
      intro kv hkv
      rcases hP1 kv.1 with hle | hnc
      · refine Or.inl ?_
        show scan.weekly_totals kv.1 ≤ (wl : ℚ)
        rw [hsw kv.1]
        exact hle
      · rcases hkv2 : kv.2 with _ | ⟨cand, rest⟩
        · exact Or.inr rfl
        · exfalso
          have hcmem : cand ∈ kv.2 := by
            rw [hkv2]
            exact List.mem_cons_self _ _
          obtain ⟨⟨e0, c, hg, hcd, hlk, hd⟩, hkeyf⟩ := hcw kv hkv cand hcmem
          have hnc0 := hnc cand.2.1 e0 hg (hkeyf e0 hg)
          exact absurd hd (not_lt.mpr (hnc0 c hcd cand.2.2 hlk))
    rw [weekly_pass_skip sh wl scan.weekly_candidates _ hskipw]
    have hskipm : ∀ kv ∈ scan.monthly_candidates,
        (∀ target, monthTargetOf rl kv.1 = some target →
          ({ entries := L, weekly_totals := scan.weekly_totals,
             monthly_totals := scan.monthly_totals } : RelaxState).monthly_totals kv.1 ≤
            target + MONTHLY_OVERRUN_TOLERANCE) ∨ kv.2 = [] := by
      intro kv hkv
      rcases hkv2 : kv.2 with _ | ⟨cand, rest⟩
      · exact Or.inr rfl
      · refine Or.inl ?_
        intro target htgt
        show scan.monthly_totals kv.1 ≤ target + MONTHLY_OVERRUN_TOLERANCE
        rcases hP2 kv.1 target htgt with hle | hnc
        · rw [hsm kv.1]
          exact hle
        · exfalso
          have hcmem : cand ∈ kv.2 := by
            rw [hkv2]
            exact List.mem_cons_self _ _
          obtain ⟨⟨e0, c, hg, hcd, hlk, hd⟩, hkeyf⟩ := hcm kv hkv cand hcmem
          have hnc0 := hnc cand.2.1 e0 hg (hkeyf e0 hg)
          exact absurd hd (not_lt.mpr (hnc0 c hcd cand.2.2 hlk))
    rw [monthly_pass_skip sh rl scan.monthly_candidates _ hskipm]
  refine main (L.enum.foldl (relax_scan_step sh bp)
      { weekly_totals := fun _ => 0, weekly_candidates := [],
        monthly_totals := fun _ => 0, monthly_candidates := [] })
    (relax_scan_candsOk sh bp L L.enum _ hql
      ⟨fun kv hkv => absurd hkv (List.not_mem_nil kv),
       fun kv hkv => absurd hkv (List.not_mem_nil kv)⟩) ?_ ?_
  · intro k
    obtain ⟨hw, _⟩ := relax_scan_totals sh bp L.enum
      { weekly_totals := fun _ => 0, weekly_candidates := [],
        monthly_totals := fun _ => 0, monthly_candidates := [] }
    rw [hw k, List.enum_map_snd]
    simp
  · intro r
    obtain ⟨_, hm⟩ := relax_scan_totals sh bp L.enum
      { weekly_totals := fun _ => 0, weekly_candidates := [],
        monthly_totals := fun _ => 0, monthly_candidates := [] }
    rw [hm r, List.enum_map_snd]
    simp

/-- Any function of the guarded shape of `apply_prime_shift_relaxation` is
idempotent, provided its base-to-prime table's values are never its keys. -/
theorem relax_guarded_idempotent (wl : Int) (sh : List (Int × ℚ))
    (bp : List (Int × Int)) (rl : List (Int × SchedulingResource))
    (hdisj : ∀ q ∈ bp, bp.lookup q.2 = none)
    (A : List PlanningEntryRead → List PlanningEntryRead)
    (hA : ∀ l, A l = if (decide (wl ≤ 0) || l.isEmpty) = true then l
      else if sh.isEmpty = true then l
      else if bp.isEmpty = true then l
      else relax_main sh bp wl rl l)
    (entries : List PlanningEntryRead) :
    A (A entries) = A entries := by
  by_cases hg1 : (decide (wl ≤ 0) || entries.isEmpty) = true
  · have hAe : A entries = entries := by rw [hA entries, if_pos hg1]
    rw [hAe]
    exact hAe
  · by_cases hg2 : sh.isEmpty = true
    · have hAe : A entries = entries := by rw [hA entries, if_neg hg1, if_pos hg2]
      rw [hAe]
      exact hAe
    · by_cases hg3 : bp.isEmpty = true
      · have hAe : A entries = entries := by
          rw [hA entries, if_neg hg1, if_neg hg2, if_pos hg3]
        rw [hAe]
        exact hAe
      · have hAe : A entries = relax_main sh bp wl rl entries := by
          rw [hA entries, if_neg hg1, if_neg hg2, if_neg hg3]
        obtain ⟨hrel, hP1, hP2⟩ := relax_main_post sh bp hdisj wl rl entries
        have hlen := List.Forall₂.length_eq hrel
        have hg1' : ¬((decide (wl ≤ 0) ||
            (relax_main sh bp wl rl entries).isEmpty) = true) := by
          intro hcon
          rcases Bool.or_eq_true_iff.mp hcon with hd | he
          · exact hg1 (Bool.or_eq_true_iff.mpr (Or.inl hd))
          · have hnil : relax_main sh bp wl rl entries = [] := List.isEmpty_iff.mp he
            have hlen0 : entries.length = 0 := by
              rw [hlen, hnil]
              rfl
            have hent : entries = [] := List.length_eq_zero.mp hlen0
            refine hg1 (Bool.or_eq_true_iff.mpr (Or.inr ?_))
            rw [hent]
            rfl
        have hAL : A (relax_main sh bp wl rl entries) =
            relax_main sh bp wl rl (relax_main sh bp wl rl entries) := by
          rw [hA _, if_neg hg1', if_neg hg2, if_neg hg3]
        rw [hAe, hAL, relax_main_skip sh bp wl rl _ hP1 hP2]

/-- C6: running `apply_prime_shift_relaxation` a second time on its own output
is a no-op: the first run either brings every weekly and monthly total within
its limit or exhausts all conversion candidates for that key, and a converted
entry's prime code is never a base key of the prime table, so the second run
converts nothing. -/
theorem c6_relaxation_idempotent (context : SchedulingContext)
    (entries : List PlanningEntryRead) :
    apply_prime_shift_relaxation context (apply_prime_shift_relaxation context entries) =
      apply_prime_shift_relaxation context entries := by
  exact relax_guarded_idempotent context.rules.rules.working_time.max_hours_per_week
    (buildShiftHours context.shifts)
    (BASE_TO_PRIME_SHIFT.filter (fun p =>
      ((buildShiftHours context.shifts).lookup p.1).isSome &&
      ((buildShiftHours context.shifts).lookup p.2).isSome))
    (buildResourceLookup context.resources)
    (bp_filter_disj (buildShiftHours context.shifts))
    (apply_prime_shift_relaxation context) (fun l => rfl) entries

end KitchenScheduler
